import Mathlib

/-!
# ContextManager (context-manager.js): markdown sectioning, role filters and cache

A shallow embedding of `src/exercises/01-claude-code-fundamentals/src/context-manager.js`.
Three neighbours of that file are embedded next to it, each in a namespace of its own:
the role filters of `tests/test-edge-cases.js` (`EdgeCases`), the parser of
`markdown-reader.ts` (`MarkdownReader`) and the content cache and agent filter of
`src/shared/context-manager.js` (`Shared`).

Modelling conventions.

* A JavaScript string is a `List Char` (`Str`).  The code never takes the length of, or
  indexes into, a string that can hold a character outside the Basic Multilingual Plane, so
  the difference between code units and code points is not observable here.
* The regular expressions of the source are written as data (`Item` lists) and run by a
  small backtracking matcher, `matchFrom`, that follows the ECMAScript priorities: every
  quantifier is greedy, and on failure gives back one character at a time.
* `String.prototype.toLowerCase` is the Unicode default case conversion (`toLowerCase`):
  the lower-case mappings of the Unicode Character Database, the two-character mapping of
  U+0130 and the final-sigma rule.  The `i` flag of a regular expression is a different
  operation: a letter of the patterns here matches its two ASCII cases only (`litCI`).
* Line numbers are `Int`, as `index - 1` is computed on them.
* A plain object with string values is the list of its own properties in creation order;
  what JavaScript adds to that (the order of `Object.entries`, the key `__proto__`, the
  properties inherited from `Object.prototype`) is written out where the code meets it.
-/

namespace ContextManager

/-- A JavaScript string, as the list of its characters. -/
abbrev Str := List Char

/-! ## String primitives -/

/-- The ECMAScript `LineTerminator` characters: LF, CR, U+2028, U+2029. -/
def isLineTerminator (c : Char) : Bool :=
  c.toNat == 0x0A || c.toNat == 0x0D || c.toNat == 0x2028 || c.toNat == 0x2029

/-- The regular-expression class `\s`, which is also what `trim()` strips:
ECMAScript `WhiteSpace` (TAB, VT, FF, SP, NBSP, ZWNBSP and the category Zs) together with
the `LineTerminator` characters. -/
def isSpace (c : Char) : Bool :=
  c.toNat == 0x09 || c.toNat == 0x0B || c.toNat == 0x0C || c.toNat == 0x20 ||
  c.toNat == 0xA0 || c.toNat == 0x1680 || (0x2000 ≤ c.toNat && c.toNat ≤ 0x200A) ||
  c.toNat == 0x202F || c.toNat == 0x205F || c.toNat == 0x3000 || c.toNat == 0xFEFF ||
  isLineTerminator c

/-- The regular-expression atom `.` (no `s` flag): any character but a line terminator. -/
def isDot (c : Char) : Bool := !isLineTerminator c

/-- The method `s.split(sep)` for a one-character separator: never the empty list. -/
def split (sep : Char) : Str → List Str
  | [] => [[]]
  | c :: cs =>
    if c = sep then [] :: split sep cs
    else
      match split sep cs with
      | [] => [[c]]
      | l :: ls => (c :: l) :: ls

/-- The method `s.trim()`: white space and line terminators removed at both ends. -/
def trim (s : Str) : Str :=
  ((s.dropWhile isSpace).reverse.dropWhile isSpace).reverse

/-! ### Lower-casing (`String.prototype.toLowerCase`)

The method is the Unicode default case conversion.  Its data are tables of the Unicode
Character Database, which the repository does not hold; they are written out here for the
version 14.0.0 of the database.  A character that a later version adds is treated as it is
in that version: it has no mapping and no case property. -/

/-- The simple lower-case mappings of the Unicode Character Database 14.0.0 (the third
mapping of `UnicodeData.txt`), as runs `(first, last, step, image of first)`: the code points
`first, first + step, ..., last` are mapped to consecutive images at the same step.  The
runs are in ascending order and do not overlap; a block `(limit, runs)` holds the runs of
the code points below `limit`. -/
def lowerBlocks : List (Nat × List (Nat × Nat × Nat × Nat)) :=
  [(395,
     [(65, 90, 1, 97), (192, 214, 1, 224), (216, 222, 1, 248), (256, 302, 2, 257),
      (306, 310, 2, 307), (313, 327, 2, 314), (330, 374, 2, 331), (376, 376, 1, 255),
      (377, 381, 2, 378), (385, 385, 1, 595), (386, 388, 2, 387), (390, 390, 1, 596),
      (391, 391, 1, 392), (393, 394, 1, 598)]),
   (422,
     [(395, 395, 1, 396), (398, 398, 1, 477), (399, 399, 1, 601), (400, 400, 1, 603),
      (401, 401, 1, 402), (403, 403, 1, 608), (404, 404, 1, 611), (406, 406, 1, 617),
      (407, 407, 1, 616), (408, 408, 1, 409), (412, 412, 1, 623), (413, 413, 1, 626),
      (415, 415, 1, 629), (416, 420, 2, 417)]),
   (456,
     [(422, 422, 1, 640), (423, 423, 1, 424), (425, 425, 1, 643), (428, 428, 1, 429),
      (430, 430, 1, 648), (431, 431, 1, 432), (433, 434, 1, 650), (435, 437, 2, 436),
      (439, 439, 1, 658), (440, 440, 1, 441), (444, 444, 1, 445), (452, 452, 1, 454),
      (453, 453, 1, 454), (455, 455, 1, 457)]),
   (574,
     [(456, 456, 1, 457), (458, 458, 1, 460), (459, 475, 2, 460), (478, 494, 2, 479),
      (497, 497, 1, 499), (498, 500, 2, 499), (502, 502, 1, 405), (503, 503, 1, 447),
      (504, 542, 2, 505), (544, 544, 1, 414), (546, 562, 2, 547), (570, 570, 1, 11365),
      (571, 571, 1, 572), (573, 573, 1, 410)]),
   (931,
     [(574, 574, 1, 11366), (577, 577, 1, 578), (579, 579, 1, 384), (580, 580, 1, 649),
      (581, 581, 1, 652), (582, 590, 2, 583), (880, 882, 2, 881), (886, 886, 1, 887),
      (895, 895, 1, 1011), (902, 902, 1, 940), (904, 906, 1, 941), (908, 908, 1, 972),
      (910, 911, 1, 973), (913, 929, 1, 945)]),
   (1232,
     [(931, 939, 1, 963), (975, 975, 1, 983), (984, 1006, 2, 985), (1012, 1012, 1, 952),
      (1015, 1015, 1, 1016), (1017, 1017, 1, 1010), (1018, 1018, 1, 1019), (1021, 1023, 1, 891),
      (1024, 1039, 1, 1104), (1040, 1071, 1, 1072), (1120, 1152, 2, 1121), (1162, 1214, 2, 1163),
      (1216, 1216, 1, 1231), (1217, 1229, 2, 1218)]),
   (7976,
     [(1232, 1326, 2, 1233), (1329, 1366, 1, 1377), (4256, 4293, 1, 11520),
      (4295, 4295, 1, 11559), (4301, 4301, 1, 11565), (5024, 5103, 1, 43888),
      (5104, 5109, 1, 5112), (7312, 7354, 1, 4304), (7357, 7359, 1, 4349), (7680, 7828, 2, 7681),
      (7838, 7838, 1, 223), (7840, 7934, 2, 7841), (7944, 7951, 1, 7936),
      (7960, 7965, 1, 7952)]),
   (8154,
     [(7976, 7983, 1, 7968), (7992, 7999, 1, 7984), (8008, 8013, 1, 8000), (8025, 8031, 2, 8017),
      (8040, 8047, 1, 8032), (8072, 8079, 1, 8064), (8088, 8095, 1, 8080), (8104, 8111, 1, 8096),
      (8120, 8121, 1, 8112), (8122, 8123, 1, 8048), (8124, 8124, 1, 8115), (8136, 8139, 1, 8050),
      (8140, 8140, 1, 8131), (8152, 8153, 1, 8144)]),
   (11264,
     [(8154, 8155, 1, 8054), (8168, 8169, 1, 8160), (8170, 8171, 1, 8058), (8172, 8172, 1, 8165),
      (8184, 8185, 1, 8056), (8186, 8187, 1, 8060), (8188, 8188, 1, 8179), (8486, 8486, 1, 969),
      (8490, 8490, 1, 107), (8491, 8491, 1, 229), (8498, 8498, 1, 8526), (8544, 8559, 1, 8560),
      (8579, 8579, 1, 8580), (9398, 9423, 1, 9424)]),
   (11499,
     [(11264, 11311, 1, 11312), (11360, 11360, 1, 11361), (11362, 11362, 1, 619),
      (11363, 11363, 1, 7549), (11364, 11364, 1, 637), (11367, 11371, 2, 11368),
      (11373, 11373, 1, 593), (11374, 11374, 1, 625), (11375, 11375, 1, 592),
      (11376, 11376, 1, 594), (11378, 11378, 1, 11379), (11381, 11381, 1, 11382),
      (11390, 11391, 1, 575), (11392, 11490, 2, 11393)]),
   (42923,
     [(11499, 11501, 2, 11500), (11506, 11506, 1, 11507), (42560, 42604, 2, 42561),
      (42624, 42650, 2, 42625), (42786, 42798, 2, 42787), (42802, 42862, 2, 42803),
      (42873, 42875, 2, 42874), (42877, 42877, 1, 7545), (42878, 42886, 2, 42879),
      (42891, 42891, 1, 42892), (42893, 42893, 1, 613), (42896, 42898, 2, 42897),
      (42902, 42920, 2, 42903), (42922, 42922, 1, 614)]),
   (42966,
     [(42923, 42923, 1, 604), (42924, 42924, 1, 609), (42925, 42925, 1, 620),
      (42926, 42926, 1, 618), (42928, 42928, 1, 670), (42929, 42929, 1, 647),
      (42930, 42930, 1, 669), (42931, 42931, 1, 43859), (42932, 42946, 2, 42933),
      (42948, 42948, 1, 42900), (42949, 42949, 1, 642), (42950, 42950, 1, 7566),
      (42951, 42953, 2, 42952), (42960, 42960, 1, 42961)]),
   (1114112,
     [(42966, 42968, 2, 42967), (42997, 42997, 1, 42998), (65313, 65338, 1, 65345),
      (66560, 66599, 1, 66600), (66736, 66771, 1, 66776), (66928, 66938, 1, 66967),
      (66940, 66954, 1, 66979), (66956, 66962, 1, 66995), (66964, 66965, 1, 67003),
      (68736, 68786, 1, 68800), (71840, 71871, 1, 71872), (93760, 93791, 1, 93792),
      (125184, 125217, 1, 125218)])]

/-- The code points with the property `Cased` (Unicode 14.0.0, `DerivedCoreProperties.txt`),
as ascending ranges `(first, last)`. -/
def casedRanges : List (Nat × Nat) :=
  [(65, 90), (97, 122), (170, 170), (181, 181), (186, 186), (192, 214), (216, 246), (248, 442),
   (444, 447), (452, 659), (661, 696), (704, 705), (736, 740), (837, 837), (880, 883),
   (886, 887), (890, 893), (895, 895), (902, 902), (904, 906), (908, 908), (910, 929),
   (931, 1013), (1015, 1153), (1162, 1327), (1329, 1366), (1376, 1416), (4256, 4293),
   (4295, 4295), (4301, 4301), (4304, 4346), (4349, 4351), (5024, 5109), (5112, 5117),
   (7296, 7304), (7312, 7354), (7357, 7359), (7424, 7615), (7680, 7957), (7960, 7965),
   (7968, 8005), (8008, 8013), (8016, 8023), (8025, 8025), (8027, 8027), (8029, 8029),
   (8031, 8061), (8064, 8116), (8118, 8124), (8126, 8126), (8130, 8132), (8134, 8140),
   (8144, 8147), (8150, 8155), (8160, 8172), (8178, 8180), (8182, 8188), (8305, 8305),
   (8319, 8319), (8336, 8348), (8450, 8450), (8455, 8455), (8458, 8467), (8469, 8469),
   (8473, 8477), (8484, 8484), (8486, 8486), (8488, 8488), (8490, 8493), (8495, 8500),
   (8505, 8505), (8508, 8511), (8517, 8521), (8526, 8526), (8544, 8575), (8579, 8580),
   (9398, 9449), (11264, 11492), (11499, 11502), (11506, 11507), (11520, 11557), (11559, 11559),
   (11565, 11565), (42560, 42605), (42624, 42653), (42786, 42887), (42891, 42894),
   (42896, 42954), (42960, 42961), (42963, 42963), (42965, 42969), (42997, 42998),
   (43000, 43002), (43824, 43866), (43868, 43880), (43888, 43967), (64256, 64262),
   (64275, 64279), (65313, 65338), (65345, 65370), (66560, 66639), (66736, 66771),
   (66776, 66811), (66928, 66938), (66940, 66954), (66956, 66962), (66964, 66965),
   (66967, 66977), (66979, 66993), (66995, 67001), (67003, 67004), (67456, 67456),
   (67459, 67461), (67463, 67504), (67506, 67514), (68736, 68786), (68800, 68850),
   (71840, 71903), (93760, 93823), (119808, 119892), (119894, 119964), (119966, 119967),
   (119970, 119970), (119973, 119974), (119977, 119980), (119982, 119993), (119995, 119995),
   (119997, 120003), (120005, 120069), (120071, 120074), (120077, 120084), (120086, 120092),
   (120094, 120121), (120123, 120126), (120128, 120132), (120134, 120134), (120138, 120144),
   (120146, 120485), (120488, 120512), (120514, 120538), (120540, 120570), (120572, 120596),
   (120598, 120628), (120630, 120654), (120656, 120686), (120688, 120712), (120714, 120744),
   (120746, 120770), (120772, 120779), (122624, 122633), (122635, 122654), (125184, 125251),
   (127280, 127305), (127312, 127337), (127344, 127369)]

/-- The code points with the property `Case_Ignorable` (Unicode 14.0.0,
`DerivedCoreProperties.txt`), as ascending ranges `(first, last)`. -/
def caseIgnorableRanges : List (Nat × Nat) :=
  [(39, 39), (46, 46), (58, 58), (94, 94), (96, 96), (168, 168), (173, 173), (175, 175),
   (180, 180), (183, 184), (688, 879), (884, 885), (890, 890), (900, 901), (903, 903),
   (1155, 1161), (1369, 1369), (1375, 1375), (1425, 1469), (1471, 1471), (1473, 1474),
   (1476, 1477), (1479, 1479), (1524, 1524), (1536, 1541), (1552, 1562), (1564, 1564),
   (1600, 1600), (1611, 1631), (1648, 1648), (1750, 1757), (1759, 1768), (1770, 1773),
   (1807, 1807), (1809, 1809), (1840, 1866), (1958, 1968), (2027, 2037), (2042, 2042),
   (2045, 2045), (2070, 2093), (2137, 2139), (2184, 2184), (2192, 2193), (2200, 2207),
   (2249, 2306), (2362, 2362), (2364, 2364), (2369, 2376), (2381, 2381), (2385, 2391),
   (2402, 2403), (2417, 2417), (2433, 2433), (2492, 2492), (2497, 2500), (2509, 2509),
   (2530, 2531), (2558, 2558), (2561, 2562), (2620, 2620), (2625, 2626), (2631, 2632),
   (2635, 2637), (2641, 2641), (2672, 2673), (2677, 2677), (2689, 2690), (2748, 2748),
   (2753, 2757), (2759, 2760), (2765, 2765), (2786, 2787), (2810, 2815), (2817, 2817),
   (2876, 2876), (2879, 2879), (2881, 2884), (2893, 2893), (2901, 2902), (2914, 2915),
   (2946, 2946), (3008, 3008), (3021, 3021), (3072, 3072), (3076, 3076), (3132, 3132),
   (3134, 3136), (3142, 3144), (3146, 3149), (3157, 3158), (3170, 3171), (3201, 3201),
   (3260, 3260), (3263, 3263), (3270, 3270), (3276, 3277), (3298, 3299), (3328, 3329),
   (3387, 3388), (3393, 3396), (3405, 3405), (3426, 3427), (3457, 3457), (3530, 3530),
   (3538, 3540), (3542, 3542), (3633, 3633), (3636, 3642), (3654, 3662), (3761, 3761),
   (3764, 3772), (3782, 3782), (3784, 3789), (3864, 3865), (3893, 3893), (3895, 3895),
   (3897, 3897), (3953, 3966), (3968, 3972), (3974, 3975), (3981, 3991), (3993, 4028),
   (4038, 4038), (4141, 4144), (4146, 4151), (4153, 4154), (4157, 4158), (4184, 4185),
   (4190, 4192), (4209, 4212), (4226, 4226), (4229, 4230), (4237, 4237), (4253, 4253),
   (4348, 4348), (4957, 4959), (5906, 5908), (5938, 5939), (5970, 5971), (6002, 6003),
   (6068, 6069), (6071, 6077), (6086, 6086), (6089, 6099), (6103, 6103), (6109, 6109),
   (6155, 6159), (6211, 6211), (6277, 6278), (6313, 6313), (6432, 6434), (6439, 6440),
   (6450, 6450), (6457, 6459), (6679, 6680), (6683, 6683), (6742, 6742), (6744, 6750),
   (6752, 6752), (6754, 6754), (6757, 6764), (6771, 6780), (6783, 6783), (6823, 6823),
   (6832, 6862), (6912, 6915), (6964, 6964), (6966, 6970), (6972, 6972), (6978, 6978),
   (7019, 7027), (7040, 7041), (7074, 7077), (7080, 7081), (7083, 7085), (7142, 7142),
   (7144, 7145), (7149, 7149), (7151, 7153), (7212, 7219), (7222, 7223), (7288, 7293),
   (7376, 7378), (7380, 7392), (7394, 7400), (7405, 7405), (7412, 7412), (7416, 7417),
   (7468, 7530), (7544, 7544), (7579, 7679), (8125, 8125), (8127, 8129), (8141, 8143),
   (8157, 8159), (8173, 8175), (8189, 8190), (8203, 8207), (8216, 8217), (8228, 8228),
   (8231, 8231), (8234, 8238), (8288, 8292), (8294, 8303), (8305, 8305), (8319, 8319),
   (8336, 8348), (8400, 8432), (11388, 11389), (11503, 11505), (11631, 11631), (11647, 11647),
   (11744, 11775), (11823, 11823), (12293, 12293), (12330, 12333), (12337, 12341),
   (12347, 12347), (12441, 12446), (12540, 12542), (40981, 40981), (42232, 42237),
   (42508, 42508), (42607, 42610), (42612, 42621), (42623, 42623), (42652, 42655),
   (42736, 42737), (42752, 42785), (42864, 42864), (42888, 42890), (42994, 42996),
   (43000, 43001), (43010, 43010), (43014, 43014), (43019, 43019), (43045, 43046),
   (43052, 43052), (43204, 43205), (43232, 43249), (43263, 43263), (43302, 43309),
   (43335, 43345), (43392, 43394), (43443, 43443), (43446, 43449), (43452, 43453),
   (43471, 43471), (43493, 43494), (43561, 43566), (43569, 43570), (43573, 43574),
   (43587, 43587), (43596, 43596), (43632, 43632), (43644, 43644), (43696, 43696),
   (43698, 43700), (43703, 43704), (43710, 43711), (43713, 43713), (43741, 43741),
   (43756, 43757), (43763, 43764), (43766, 43766), (43867, 43871), (43881, 43883),
   (44005, 44005), (44008, 44008), (44013, 44013), (64286, 64286), (64434, 64450),
   (65024, 65039), (65043, 65043), (65056, 65071), (65106, 65106), (65109, 65109),
   (65279, 65279), (65287, 65287), (65294, 65294), (65306, 65306), (65342, 65342),
   (65344, 65344), (65392, 65392), (65438, 65439), (65507, 65507), (65529, 65531),
   (66045, 66045), (66272, 66272), (66422, 66426), (67456, 67461), (67463, 67504),
   (67506, 67514), (68097, 68099), (68101, 68102), (68108, 68111), (68152, 68154),
   (68159, 68159), (68325, 68326), (68900, 68903), (69291, 69292), (69446, 69456),
   (69506, 69509), (69633, 69633), (69688, 69702), (69744, 69744), (69747, 69748),
   (69759, 69761), (69811, 69814), (69817, 69818), (69821, 69821), (69826, 69826),
   (69837, 69837), (69888, 69890), (69927, 69931), (69933, 69940), (70003, 70003),
   (70016, 70017), (70070, 70078), (70089, 70092), (70095, 70095), (70191, 70193),
   (70196, 70196), (70198, 70199), (70206, 70206), (70367, 70367), (70371, 70378),
   (70400, 70401), (70459, 70460), (70464, 70464), (70502, 70508), (70512, 70516),
   (70712, 70719), (70722, 70724), (70726, 70726), (70750, 70750), (70835, 70840),
   (70842, 70842), (70847, 70848), (70850, 70851), (71090, 71093), (71100, 71101),
   (71103, 71104), (71132, 71133), (71219, 71226), (71229, 71229), (71231, 71232),
   (71339, 71339), (71341, 71341), (71344, 71349), (71351, 71351), (71453, 71455),
   (71458, 71461), (71463, 71467), (71727, 71735), (71737, 71738), (71995, 71996),
   (71998, 71998), (72003, 72003), (72148, 72151), (72154, 72155), (72160, 72160),
   (72193, 72202), (72243, 72248), (72251, 72254), (72263, 72263), (72273, 72278),
   (72281, 72283), (72330, 72342), (72344, 72345), (72752, 72758), (72760, 72765),
   (72767, 72767), (72850, 72871), (72874, 72880), (72882, 72883), (72885, 72886),
   (73009, 73014), (73018, 73018), (73020, 73021), (73023, 73029), (73031, 73031),
   (73104, 73105), (73109, 73109), (73111, 73111), (73459, 73460), (78896, 78904),
   (92912, 92916), (92976, 92982), (92992, 92995), (94031, 94031), (94095, 94111),
   (94176, 94177), (94179, 94180), (110576, 110579), (110581, 110587), (110589, 110590),
   (113821, 113822), (113824, 113827), (118528, 118573), (118576, 118598), (119143, 119145),
   (119155, 119170), (119173, 119179), (119210, 119213), (119362, 119364), (121344, 121398),
   (121403, 121452), (121461, 121461), (121476, 121476), (121499, 121503), (121505, 121519),
   (122880, 122886), (122888, 122904), (122907, 122913), (122915, 122916), (122918, 122922),
   (123184, 123197), (123566, 123566), (123628, 123631), (125136, 125142), (125252, 125259),
   (127995, 127999), (917505, 917505), (917536, 917631), (917760, 917999)]

/-- The image of the code point `n` under the runs of a table, when one of them holds it;
the runs are in ascending order, so the search stops at the first run that starts after
`n`. -/
def lookupLower (n : Nat) : List (Nat × Nat × Nat × Nat) → Option Nat
  | [] => none
  | (lo, hi, step, image) :: rest =>
    bif Nat.blt n lo then none
    else bif Nat.ble n hi && Nat.beq ((n - lo) % step) 0 then some (n - lo + image)
    else lookupLower n rest

/-- The image of the code point `n` under the blocks of runs. -/
def lookupBlocks (n : Nat) : List (Nat × List (Nat × Nat × Nat × Nat)) → Option Nat
  | [] => none
  | (limit, runs) :: rest =>
    bif Nat.blt n limit then lookupLower n runs else lookupBlocks n rest

/-- Membership of the code point `n` in one of the ascending ranges. -/
def inRanges (n : Nat) : List (Nat × Nat) → Bool
  | [] => false
  | (lo, hi) :: rest =>
    bif Nat.blt n lo then false else bif Nat.ble n hi then true else inRanges n rest

/-- The lower-case mapping of one character without its context: the two characters
`i` and U+0307 for U+0130 (`SpecialCasing.txt`), the simple mapping otherwise, and the
character itself when it has none. -/
def lowerChar (c : Char) : Str :=
  bif Nat.beq c.toNat 0x130 then ['i', Char.ofNat 0x307]
  else
    match lookupBlocks c.toNat lowerBlocks with
    | some m => [Char.ofNat m]
    | none => [c]

/-- The property `Cased`. -/
def isCased (c : Char) : Bool := inRanges c.toNat casedRanges

/-- The property `Case_Ignorable`. -/
def isCaseIgnorable (c : Char) : Bool := inRanges c.toNat caseIgnorableRanges

/-- The first character of `s` that is not case-ignorable exists and is cased. -/
def casedNext (s : Str) : Bool :=
  match s.dropWhile isCaseIgnorable with
  | c :: _ => isCased c
  | [] => false

/-- The condition `Final_Sigma` for a capital sigma between the characters `before` (the
nearest first) and `after`: a cased letter comes before it and none after it, case-ignorable
characters not counting. -/
def isFinalSigma (before after : Str) : Bool := casedNext before && !casedNext after

/-- The lower-casing of `s` when the characters `before` (the nearest first) precede it. -/
def lowerFrom : Str → Str → Str
  | _, [] => []
  | before, c :: cs =>
    (bif Nat.beq c.toNat 0x3A3 then (bif isFinalSigma before cs then ['ς'] else ['σ'])
      else lowerChar c) ++
      lowerFrom (c :: before) cs

/-- The method `s.toLowerCase()`: the Unicode default case conversion, with the
unconditional mappings of `SpecialCasing.txt` and the final-sigma rule. -/
def toLowerCase (s : Str) : Str := lowerFrom [] s

/-- The method `parts.join(sep)` for a one-character separator. -/
def join (sep : Char) : List Str → Str
  | [] => []
  | [l] => l
  | l :: ls => l ++ sep :: join sep ls

/-- The spread of a `Set` built from an array: duplicates removed, first occurrences kept
in order. -/
def uniq : List Str → List Str
  | [] => []
  | r :: rs => r :: (uniq rs).filter (fun x => x != r)

/-! ## A backtracking matcher for sequences of quantified character classes -/

/-- One regular-expression term: a character class with a greedy quantifier `{lo,hi}`
(`hi = none` for no upper bound). -/
structure Item where
  cls : Char → Bool
  lo : Nat
  hi : Option Nat

/-- The greedy loop of one term: try to leave `n` characters to the term and the rest to the
continuation `k`; on failure give one character back, down to `lo`. -/
def tryLens (k : Str → Option (List Str)) (s : Str) (lo : Nat) : Nat → Option (List Str)
  | 0 => if lo = 0 then (k s).map (fun gs => [] :: gs) else none
  | n + 1 =>
    if lo ≤ n + 1 then
      match k (s.drop (n + 1)) with
      | some gs => some (s.take (n + 1) :: gs)
      | none => tryLens k s lo n
    else none

/-- The longest prefix a term can take: the run of characters in its class, cut at `hi`. -/
def maxRun (it : Item) (s : Str) : Nat :=
  match it.hi with
  | none => (s.takeWhile it.cls).length
  | some h => min h (s.takeWhile it.cls).length

/-- Match the terms in sequence at the start of `s`; `fin` is the test on what is left
(`$`, or nothing).  The result lists the text each term took, in order. -/
def matchFrom : List Item → (Str → Bool) → Str → Option (List Str)
  | [], fin, s => if fin s then some [] else none
  | it :: its, fin, s => tryLens (matchFrom its fin) s it.lo (maxRun it s)

/-- A literal character, once. -/
def lit (c : Char) : Item := ⟨fun x => x == c, 1, some 1⟩

/-- A letter under the `i` flag, once.  Without the `u` flag a non-ASCII character is never
folded onto an ASCII one, so only the two ASCII cases of the letter match. -/
def litCI (c : Char) : Item := ⟨fun x => x.toLower == c, 1, some 1⟩

/-- The total length of the texts taken by the terms. -/
def matchLen (gs : List Str) : Nat := (gs.map List.length).sum

/-! ## The regular expressions of the source -/

/-- The matcher's final test for a pattern that does not end in `$`. -/
def anyRest (_ : Str) : Bool := true

/-- The matcher's final test for `$` (no `m` flag): the input is exhausted. -/
def atEnd (s : Str) : Bool := s.isEmpty

/-- The terms `roles?:` under the `i` flag. -/
def rolesKw : List Item :=
  [litCI 'r', litCI 'o', litCI 'l', litCI 'e', ⟨fun x => x.toLower == 's', 0, some 1⟩, lit ':']

/-- The pattern `/^(#{1,6})\s+(.+)$/`; `^` is rendered by matching at the line start only. -/
def headerRe : List Item :=
  [⟨fun x => x == '#', 1, some 6⟩, ⟨isSpace, 1, none⟩, ⟨isDot, 1, none⟩]

/-- The pattern `/\[roles?:\s*([^\]]+)\]/gi` (also `/\[roles?:\s*[^\]]+\]/gi`). -/
def roleBracketRe : List Item :=
  lit '[' :: rolesKw ++ [⟨isSpace, 0, none⟩, ⟨fun x => x != ']', 1, none⟩, lit ']']

/-- The first alternative of `/\[roles?:\s*|\]/gi`. -/
def roleOpenRe : List Item := lit '[' :: rolesKw ++ [⟨isSpace, 0, none⟩]

/-- The second alternative of `/\[roles?:\s*|\]/gi`. -/
def roleCloseRe : List Item := [lit ']']

/-- The pattern `/<!--\s*roles?:\s*([^-]+)\s*-->/i`; its group is term number 12. -/
def commentRe : List Item :=
  [lit '<', lit '!', lit '-', lit '-', ⟨isSpace, 0, none⟩] ++ rolesKw ++
  [⟨isSpace, 0, none⟩, ⟨fun x => x != '-', 1, none⟩, ⟨isSpace, 0, none⟩,
   lit '-', lit '-', lit '>']

/-- Try the alternatives of `a|b` in order at the start of `s`. -/
def firstAlt : List (List Item) → Str → Option (List Str)
  | [], _ => none
  | re :: res, s =>
    match matchFrom re anyRest s with
    | some gs => some gs
    | none => firstAlt res s

/-- The call `text.match(re)` with the `g` flag: the matched texts, leftmost first and not
overlapping (`skip` counts the characters of the last match still to pass).  The empty list
stands for `null`. -/
def matchAllAux (re : List Item) : Nat → Str → List Str
  | _, [] => []
  | skip + 1, _ :: cs => matchAllAux re skip cs
  | 0, c :: cs =>
    match matchFrom re anyRest (c :: cs) with
    | some gs =>
      if matchLen gs = 0 then [] :: matchAllAux re 0 cs
      else (c :: cs).take (matchLen gs) :: matchAllAux re (matchLen gs - 1) cs
    | none => matchAllAux re 0 cs

/-- See `matchAllAux`. -/
def matchAll (re : List Item) (s : Str) : List Str := matchAllAux re 0 s

/-- The call `text.replace(re, '')` with the `g` flag, `re` being the alternatives `alts`:
every match, leftmost first and not overlapping, is removed. -/
def removeAllAux (alts : List (List Item)) : Nat → Str → Str
  | _, [] => []
  | skip + 1, _ :: cs => removeAllAux alts skip cs
  | 0, c :: cs =>
    match firstAlt alts (c :: cs) with
    | some gs =>
      if matchLen gs = 0 then c :: removeAllAux alts 0 cs
      else removeAllAux alts (matchLen gs - 1) cs
    | none => c :: removeAllAux alts 0 cs

/-- See `removeAllAux`. -/
def removeAll (alts : List (List Item)) (s : Str) : Str := removeAllAux alts 0 s

/-- The call `line.match(re)` without the `g` flag: the leftmost match, as the texts taken
by the terms of `re`. -/
def matchFirst (re : List Item) : Str → Option (List Str)
  | [] => matchFrom re anyRest []
  | c :: cs =>
    match matchFrom re anyRest (c :: cs) with
    | some gs => some gs
    | none => matchFirst re cs

/-! ## Role extraction (`extractRoles`, `extractRolesFromComment`) -/

/-- The part `roleList.split(',').map(role => role.trim().toLowerCase())` followed by
`.filter(role => role.length > 0)`. -/
def splitRoles (roleList : Str) : List Str :=
  ((split ',' roleList).map (fun role => toLowerCase (trim role))).filter
    (fun role => role.length > 0)

/-- The text of one bracket with its markup removed:
`match.replace(/\[roles?:\s*|\]/gi, '')`. -/
def roleListOf (m : Str) : Str := removeAll [roleOpenRe, roleCloseRe] m

/-- The method `extractRoles(text)`. -/
def extractRoles (text : Str) : List Str :=
  let roleMatches := matchAll roleBracketRe text
  if roleMatches.isEmpty then []
  else uniq (roleMatches.flatMap (fun m => splitRoles (roleListOf m)))

/-- The method `extractRolesFromComment(line)`. -/
def extractRolesFromComment (line : Str) : List Str :=
  match matchFirst commentRe line with
  | none => []
  | some gs => splitRoles (gs.getD 12 [])

/-! ## Sections and the parser (`parseMarkdown`) -/

/-- A section record.  `roles = none` is the absent (`undefined`) field; `fileName` and
`isFileSeparator` are set by the directory load and by the merge only. -/
structure Section where
  level : Nat
  title : Str
  content : Str
  startLine : Int
  endLine : Int
  roles : Option (List Str)
  fileName : Option Str := none
  isFileSeparator : Bool := false
  deriving DecidableEq, Repr

/-- The section being filled (`currentSection`): it has no `endLine` yet. -/
structure OpenSection where
  level : Nat
  title : Str
  content : Str
  startLine : Int
  roles : Option (List Str)
  deriving DecidableEq, Repr

/-- The object `{...currentSection, endLine}` pushed on `sections`. -/
def OpenSection.close (cur : OpenSection) (endLine : Int) : Section :=
  { level := cur.level, title := cur.title, content := cur.content,
    startLine := cur.startLine, endLine := endLine, roles := cur.roles }

/-- The call `line.match(/^(#{1,6})\s+(.+)$/)`: the groups 1 and 2 of a heading line. -/
def headerMatch (line : Str) : Option (Str × Str) :=
  match matchFrom headerRe atEnd line with
  | some [hashes, _, text] => some (hashes, text)
  | _ => none

/-- The section opened by a heading at line `index` (lines 295 to 304). -/
def openSection (hashes text : Str) (index : Nat) : OpenSection :=
  let headerText := trim text
  let roles := extractRoles headerText
  { level := hashes.length,
    title := trim (removeAll [roleBracketRe] headerText),
    content := [],
    startLine := index,
    roles := if roles.length > 0 then some roles else none }

/-- The effect of a body line on the open section (lines 306 to 311). -/
def addLine (cur : OpenSection) (line : Str) : OpenSection :=
  let roleComment := extractRolesFromComment line
  let cur1 : OpenSection :=
    if roleComment.length > 0 then { cur with roles := some (cur.roles.getD [] ++ roleComment) }
    else cur
  { cur1 with content := cur1.content ++ ((if cur1.content.isEmpty then [] else ['\n']) ++ line) }

/-- The two variables the loop of `parseMarkdown` updates. -/
structure ParseState where
  sections : List Section
  currentSection : Option OpenSection
  deriving DecidableEq, Repr

/-- The body of `lines.forEach((line, index) => ...)`. -/
def parseStep (st : ParseState) (line : Str) (index : Nat) : ParseState :=
  match headerMatch line with
  | some (hashes, text) =>
    { sections :=
        match st.currentSection with
        | some cur => st.sections ++ [cur.close ((index : Int) - 1)]
        | none => st.sections
      currentSection := some (openSection hashes text index) }
  | none =>
    match st.currentSection with
    | some cur => { st with currentSection := some (addLine cur line) }
    | none => st

/-- The loop `lines.forEach`, from line number `index` on. -/
def parseLoop : List Str → Nat → ParseState → ParseState
  | [], _, st => st
  | line :: rest, index, st => parseLoop rest (index + 1) (parseStep st line index)

/-- The method `parseMarkdown(content)`. -/
def parseMarkdown (content : Str) : List Section :=
  let lines := split '\n' content
  let st := parseLoop lines 0 { sections := [], currentSection := none }
  match st.currentSection with
  | some cur => st.sections ++ [cur.close ((lines.length : Int) - 1)]
  | none => st.sections

/-! ## Role views and statistics -/

/-- The method `filterByRole(sections, role)`: the truthiness test of `section.roles`
passes for every array, also an empty one. -/
def filterByRole (sections : List Section) (role : Str) : List Section :=
  sections.filter (fun s =>
    match s.roles with
    | some roles => roles.contains (toLowerCase role)
    | none => false)

/-- The method `getCoordinatorContext(sections)`. -/
def getCoordinatorContext (sections : List Section) : List Section :=
  filterByRole sections "coordinator".toList

/-- The method `getExecutorContext(sections)`. -/
def getExecutorContext (sections : List Section) : List Section :=
  filterByRole sections "executor".toList

/-- The method `getSharedContext(sections)`. -/
def getSharedContext (sections : List Section) : List Section :=
  sections.filter (fun s =>
    match s.roles with
    | some roles => roles.contains "coordinator".toList && roles.contains "executor".toList
    | none => false)

/-- A JavaScript number as a `percentage` field of `analyzeContent` can hold it: `NaN`,
`Infinity`, or a natural number. -/
inductive JSNumber where
  | nan
  | infinity
  | value (n : Nat)
  deriving DecidableEq, Repr

/-- The integer nearest to `n / d`, ties to the even one (the rounding of IEEE 754
arithmetic). -/
def divRoundEven (n d : Nat) : Nat :=
  if 2 * (n % d) < d then n / d
  else if d < 2 * (n % d) then n / d + 1
  else if (n / d) % 2 = 0 then n / d else n / d + 1

/-- The least `k`, searched upwards, with `2 ^ 52 * b ≤ a * 2 ^ k`: the binary scale that
brings `a / b` to a 53-bit significand. -/
def findShift (a b : Nat) : Nat → Nat → Nat
  | 0, k => k
  | fuel + 1, k => if a * 2 ^ k < 2 ^ 52 * b then findShift a b fuel (k + 1) else k

/-- The double nearest to `a / b`, for `0 < a / b < 2 ^ 53` in the normal range, as a pair
`(m, k)` standing for `m / 2 ^ k`. -/
def toDouble (a b : Nat) : Nat × Nat :=
  (divRoundEven (a * 2 ^ findShift a b 1074 0) b, findShift a b 1074 0)

/-- The function `Math.round` on a non-negative double `m / 2 ^ k`: the nearest integer, a
tie going up. -/
def mathRound (x : Nat × Nat) : Nat := (2 * x.1 + 2 ^ x.2) / 2 ^ (x.2 + 1)

/-- The expression `Math.round((count / total) * 100)` in double arithmetic: `0 / 0` is
`NaN` and stays `NaN`, a positive count over `0` is `Infinity`; otherwise the quotient is
rounded to a double, its product with 100 is rounded to a double, and `Math.round` is
applied. -/
def percentage (count total : Nat) : JSNumber :=
  if total = 0 then (if count = 0 then .nan else .infinity)
  else if count = 0 then .value 0
  else .value (mathRound (toDouble ((toDouble count total).1 * 100) (2 ^ (toDouble count total).2)))

/-- The object returned by `analyzeContent`. -/
structure Analysis where
  total : Nat
  coordinator : Nat
  executor : Nat
  shared : Nat
  unmarked : Nat
  percentageCoordinator : JSNumber
  percentageExecutor : JSNumber
  percentageShared : JSNumber
  percentageUnmarked : JSNumber
  deriving DecidableEq, Repr

/-- The method `analyzeContent(sections)`. -/
def analyzeContent (sections : List Section) : Analysis :=
  let total := sections.length
  let coordinator := (getCoordinatorContext sections).length
  let executor := (getExecutorContext sections).length
  let shared := (getSharedContext sections).length
  let unmarked := (sections.filter (fun s => s.roles.isNone)).length
  { total := total,
    coordinator := coordinator,
    executor := executor,
    shared := shared,
    unmarked := unmarked,
    percentageCoordinator := percentage coordinator total,
    percentageExecutor := percentage executor total,
    percentageShared := percentage shared total,
    percentageUnmarked := percentage unmarked total }

/-! ## Merging files (`mergeContext`) -/

/-- A file object `{fileName, sections}`, as `loadDirectory` returns it. -/
structure FileEntry where
  fileName : Str
  sections : List Section
  deriving DecidableEq, Repr

/-- The synthetic section `mergeContext` pushes before the sections of a file (lines 107 to
115); it has no `roles` key. -/
def fileSeparator (fileName : Str) : Section :=
  { level := 1,
    title := "📄 ".toList ++ fileName,
    content := "Contents from ".toList ++ fileName,
    startLine := 0,
    endLine := 0,
    roles := none,
    fileName := some fileName,
    isFileSeparator := true }

/-- The copy `{...section, level: section.level + 1}` (lines 119 to 122). -/
def indentSection (s : Section) : Section := { s with level := s.level + 1 }

/-- The method `mergeContext(files)`. -/
def mergeContext (files : List FileEntry) : List Section :=
  files.flatMap (fun file => fileSeparator file.fileName :: file.sections.map indentSection)

/-! ## The store: cache and single-file load -/

/-- A cache entry, as stored by `readFileWithCache`. -/
structure CacheEntry where
  filePath : Str
  lastModified : Int
  sections : List Section
  cachedAt : Int
  deriving DecidableEq, Repr

/-- The `Map` held in `this.cache`: keys with their entries, in insertion order. -/
abbrev Cache := List (Str × CacheEntry)

/-- A `Map` holds a key at most once. -/
def Cache.WF (c : Cache) : Prop := (c.map Prod.fst).Nodup

/-- The call `cache.get(key)`; `none` is `undefined`. -/
def Cache.get (c : Cache) (key : Str) : Option CacheEntry :=
  match c with
  | [] => none
  | (k, v) :: rest => if k = key then some v else Cache.get rest key

/-- The call `cache.set(key, value)`: an existing key keeps its place, a new key goes last. -/
def Cache.set (c : Cache) (key : Str) (value : CacheEntry) : Cache :=
  match c with
  | [] => [(key, value)]
  | (k, v) :: rest => if k = key then (k, value) :: rest else (k, v) :: Cache.set rest key value

/-- A Node.js error object: its `code` (such as `ENOENT`) and its `message`. -/
structure JSError where
  code : Str
  message : Str
  deriving DecidableEq, Repr

/-- The error of a missing file. -/
def enoent : JSError := { code := "ENOENT".toList, message := "no such file or directory".toList }

/-- The file system as the store sees it: `fs.stat(path)` reduced to the modification time
in milliseconds, and `fs.readFile(path, 'utf-8')`. -/
structure FileSystem where
  stat : Str → Except JSError Int
  readFile : Str → Except JSError Str

/-- The fields of a `ContextManager` instance that decide its behaviour (`verboseLogging`
only switches console output). -/
structure Store where
  cache : Cache
  cacheMaxAge : Int
  silentErrors : Bool

/-- What a load does: the value returned or the error thrown, the cache afterwards, and the
paths whose content was requested from the file system, in order. -/
structure Outcome where
  result : Except JSError (List Section)
  cache : Cache
  reads : List Str

/-- The second half of `readFileWithCache` (lines 207 to 220): read, parse, update the
cache. -/
def readAndCache (st : Store) (fs : FileSystem) (now : Int) (filePath : Str)
    (lastModified : Int) : Outcome :=
  match fs.readFile filePath with
  | .error e => { result := .error e, cache := st.cache, reads := [filePath] }
  | .ok content =>
    let sections := parseMarkdown content
    { result := .ok sections,
      cache := st.cache.set filePath
        { filePath := filePath, lastModified := lastModified, sections := sections,
          cachedAt := now },
      reads := [filePath] }

/-- The method `readFileWithCache(filePath)`; `now` is the value of `Date.now()`.  The
`catch` block only logs and rethrows. -/
def readFileWithCache (st : Store) (fs : FileSystem) (now : Int) (filePath : Str) : Outcome :=
  match fs.stat filePath with
  | .error e => { result := .error e, cache := st.cache, reads := [] }
  | .ok lastModified =>
    match st.cache.get filePath with
    | some cached =>
      if cached.lastModified = lastModified ∧ now - cached.cachedAt < st.cacheMaxAge then
        { result := .ok cached.sections, cache := st.cache, reads := [] }
      else readAndCache st fs now filePath lastModified
    | none => readAndCache st fs now filePath lastModified

/-- The method `handleError(operation, error)`: an empty list when `silentErrors` is set,
the error rethrown otherwise. -/
def handleError (st : Store) (error : JSError) : Except JSError (List Section) :=
  if st.silentErrors then .ok [] else .error error

/-- The method `loadFile(filePath)`. -/
def loadFile (st : Store) (fs : FileSystem) (now : Int) (filePath : Str) : Outcome :=
  let out := readFileWithCache st fs now filePath
  match out.result with
  | .ok sections => { out with result := .ok sections }
  | .error e => { out with result := handleError st e }

/-- The options object passed to the constructor; `none` is an absent key. -/
structure Options where
  cacheMaxAge : Option Int := none
  silentErrors : Option Bool := none
  verboseLogging : Option Bool := none

/-- The constructor (lines 15 to 25): `||` replaces every falsy option, so also a
`cacheMaxAge` of 0, by the default. -/
def construct (options : Options) : Store :=
  { cache := [],
    cacheMaxAge :=
      match options.cacheMaxAge with
      | some m => if m = 0 then 5 * 60 * 1000 else m
      | none => 5 * 60 * 1000,
    silentErrors :=
      match options.silentErrors with
      | some b => b || false
      | none => false }

/-- The method `setCacheMaxAge(milliseconds)`. -/
def setCacheMaxAge (st : Store) (milliseconds : Int) : Store :=
  { st with cacheMaxAge := milliseconds }

/-- The store after a load: the cache is the one the load left. -/
def Store.withCache (st : Store) (cache : Cache) : Store := { st with cache := cache }

/-- The object `getCacheStats()` returns. -/
structure CacheStats where
  size : Nat
  entries : List Str
  maxAge : Int
  deriving DecidableEq, Repr

/-- The method `clearCache()`. -/
def clearCache (st : Store) : Store := { st with cache := [] }

/-- The method `getCacheStats()`: the number of keys of the `Map`, the keys in insertion
order, and the maximal age. -/
def getCacheStats (st : Store) : CacheStats :=
  { size := st.cache.length, entries := st.cache.map Prod.fst, maxAge := st.cacheMaxAge }

/-! ## Directory load (`loadDirectory`) -/

/-- The directory side of the platform: `fs.readdir(path)` and `path.join(dir, file)`. -/
structure Directory where
  readdir : Str → Except JSError (List Str)
  join : Str → Str → Str

/-- The method `file.endsWith(suffix)`. -/
def endsWith (file suffix : Str) : Bool := suffix.isSuffixOf file

/-- The assignment `section.fileName = file` (line 251). -/
def setFileName (file : Str) (s : Section) : Section := { s with fileName := some file }

/-- The effect of `sections.forEach(section => section.fileName = file)` on the cache: the
array returned by `readFileWithCache` is the one held by the entry of `filePath`, so the
sections of that entry receive the file name too. -/
def Cache.tagSections (c : Cache) (filePath file : Str) : Cache :=
  c.map (fun e =>
    if e.1 = filePath then (e.1, { e.2 with sections := e.2.sections.map (setFileName file) })
    else e)

/-- The variables of the loop of `readDirectoryWithCache`, with the cache and the content
reads so far. -/
structure DirState where
  results : List FileEntry
  failedFiles : List Str
  cache : Cache
  reads : List Str

/-- The body of `for (const file of markdownFiles)` (lines 245 to 261); `now` is the value
`Date.now()` has when this file is loaded. -/
def dirStep (st : Store) (fs : FileSystem) (dir : Directory) (dirPath : Str) (now : Int)
    (ds : DirState) (file : Str) : DirState :=
  let filePath := dir.join dirPath file
  let out := readFileWithCache (st.withCache ds.cache) fs now filePath
  match out.result with
  | .ok sections =>
    { results := ds.results ++ [{ fileName := file, sections := sections.map (setFileName file) }],
      failedFiles := ds.failedFiles,
      cache := out.cache.tagSections filePath file,
      reads := ds.reads ++ out.reads }
  | .error _ =>
    { results := ds.results,
      failedFiles := ds.failedFiles ++ [file],
      cache := out.cache,
      reads := ds.reads ++ out.reads }

/-- The loop over `markdownFiles`; `clock i` is the time at which the file number `i` is
loaded. -/
def dirLoop (st : Store) (fs : FileSystem) (dir : Directory) (dirPath : Str)
    (clock : Nat → Int) : List Str → Nat → DirState → DirState
  | [], _, ds => ds
  | file :: rest, i, ds =>
    dirLoop st fs dir dirPath clock rest (i + 1) (dirStep st fs dir dirPath (clock i) ds file)

/-- What a directory load does: the value returned or the error thrown, the local list
`failedFiles` (it is only logged), the cache afterwards and the content reads. -/
structure DirOutcome where
  result : Except JSError (List FileEntry)
  failedFiles : List Str
  cache : Cache
  reads : List Str

/-- The method `readDirectoryWithCache(dirPath)`; the `catch` block only logs and
rethrows. -/
def readDirectoryWithCache (st : Store) (fs : FileSystem) (dir : Directory)
    (clock : Nat → Int) (dirPath : Str) : DirOutcome :=
  match dir.readdir dirPath with
  | .error e => { result := .error e, failedFiles := [], cache := st.cache, reads := [] }
  | .ok files =>
    let markdownFiles := files.filter (fun file => endsWith file ".md".toList)
    if markdownFiles.length = 0 then
      { result := .ok [], failedFiles := [], cache := st.cache, reads := [] }
    else
      let ds := dirLoop st fs dir dirPath clock markdownFiles 0
        { results := [], failedFiles := [], cache := st.cache, reads := [] }
      { result := .ok ds.results, failedFiles := ds.failedFiles, cache := ds.cache,
        reads := ds.reads }

/-- The method `loadDirectory(dirPath)`: `handleError` turns an error into the empty list
when `silentErrors` is set. -/
def loadDirectory (st : Store) (fs : FileSystem) (dir : Directory) (clock : Nat → Int)
    (dirPath : Str) : DirOutcome :=
  let out := readDirectoryWithCache st fs dir clock dirPath
  match out.result with
  | .ok files => { out with result := .ok files }
  | .error e => { out with result := if st.silentErrors then .ok [] else .error e }

/-! ## The role filters of `test-edge-cases.js` -/

namespace EdgeCases

/-- The method `filterCoordinatorSections(sections)` of `test-edge-cases.js`. -/
def filterCoordinatorSections (sections : List Section) : List Section :=
  sections.filter (fun s =>
    match s.roles with
    | some roles => roles.contains "coordinator".toList
    | none => false)

/-- The method `filterExecutorSections(sections)`. -/
def filterExecutorSections (sections : List Section) : List Section :=
  sections.filter (fun s =>
    match s.roles with
    | some roles => roles.contains "executor".toList
    | none => false)

/-- The method `getUnassignedSections(sections)`: the test `!section.roles`. -/
def getUnassignedSections (sections : List Section) : List Section :=
  sections.filter (fun s =>
    match s.roles with
    | some _ => false
    | none => true)

/-- The method `getSharedSections(sections)`. -/
def getSharedSections (sections : List Section) : List Section :=
  sections.filter (fun s =>
    match s.roles with
    | some roles => roles.contains "coordinator".toList && roles.contains "executor".toList
    | none => false)

/-- The method `getUnknownRoleSections(sections)`: an array of roles, also an empty one,
that holds neither standard role. -/
def getUnknownRoleSections (sections : List Section) : List Section :=
  sections.filter (fun s =>
    match s.roles with
    | some roles => !roles.contains "coordinator".toList && !roles.contains "executor".toList
    | none => false)

end EdgeCases

/-! ## The parser of `markdown-reader.ts` -/

namespace MarkdownReader

/-- The part `roleList.split(',').map(role => role.trim().toLowerCase())`; the TypeScript
reader has no filter after it. -/
def splitRoles (roleList : Str) : List Str :=
  (split ',' roleList).map (fun role => toLowerCase (trim role))

/-- The method `extractRoles(text)` of `markdown-reader.ts` (lines 78 to 90). -/
def extractRoles (text : Str) : List Str :=
  let roleMatches := matchAll roleBracketRe text
  if roleMatches.isEmpty then []
  else uniq (roleMatches.flatMap (fun m => splitRoles (roleListOf m)))

/-- The method `extractRolesFromComment(line)` of `markdown-reader.ts` (lines 92 to 97). -/
def extractRolesFromComment (line : Str) : List Str :=
  match matchFirst commentRe line with
  | none => []
  | some gs => splitRoles (gs.getD 12 [])

/-- The section opened by a heading at line `index` (lines 44 to 54). -/
def openSection (hashes text : Str) (index : Nat) : OpenSection :=
  let headerText := trim text
  let roles := extractRoles headerText
  { level := hashes.length,
    title := trim (removeAll [roleBracketRe] headerText),
    content := [],
    startLine := index,
    roles := if roles.length > 0 then some roles else none }

/-- The effect of a body line on the open section (lines 57 to 63). -/
def addLine (cur : OpenSection) (line : Str) : OpenSection :=
  let roleComment := extractRolesFromComment line
  let cur1 : OpenSection :=
    if roleComment.length > 0 then { cur with roles := some (cur.roles.getD [] ++ roleComment) }
    else cur
  { cur1 with content := cur1.content ++ ((if cur1.content.isEmpty then [] else ['\n']) ++ line) }

/-- The body of `lines.forEach((line, index) => ...)` (lines 31 to 65). -/
def parseStep (st : ParseState) (line : Str) (index : Nat) : ParseState :=
  match headerMatch line with
  | some (hashes, text) =>
    { sections :=
        match st.currentSection with
        | some cur => st.sections ++ [cur.close ((index : Int) - 1)]
        | none => st.sections
      currentSection := some (openSection hashes text index) }
  | none =>
    match st.currentSection with
    | some cur => { st with currentSection := some (addLine cur line) }
    | none => st

/-- The loop `lines.forEach`, from line number `index` on. -/
def parseLoop : List Str → Nat → ParseState → ParseState
  | [], _, st => st
  | line :: rest, index, st => parseLoop rest (index + 1) (parseStep st line index)

/-- The method `parseFile(content)` of `markdown-reader.ts`. -/
def parseFile (content : Str) : List Section :=
  let lines := split '\n' content
  let st := parseLoop lines 0 { sections := [], currentSection := none }
  match st.currentSection with
  | some cur => st.sections ++ [cur.close ((lines.length : Int) - 1)]
  | none => st.sections

end MarkdownReader

/-! ## The shared ContextManager (`src/shared/context-manager.js`): content cache -/

namespace Shared

/-- The `Map` held in `this.contextCache`: file paths with the content read, in insertion
order. -/
abbrev ContentCache := List (Str × Str)

/-- The call `contextCache.has(key)`. -/
def ContentCache.has (c : ContentCache) (key : Str) : Bool :=
  match c with
  | [] => false
  | (k, _) :: rest => if k = key then true else ContentCache.has rest key

/-- The call `contextCache.get(key)`; `none` is `undefined`. -/
def ContentCache.get (c : ContentCache) (key : Str) : Option Str :=
  match c with
  | [] => none
  | (k, v) :: rest => if k = key then some v else ContentCache.get rest key

/-- The call `contextCache.set(key, value)`: an existing key keeps its place, a new key goes
last. -/
def ContentCache.set (c : ContentCache) (key value : Str) : ContentCache :=
  match c with
  | [] => [(key, value)]
  | (k, v) :: rest =>
    if k = key then (k, value) :: rest else (k, v) :: ContentCache.set rest key value

/-- The call `contextCache.delete(key)`. -/
def ContentCache.delete (c : ContentCache) (key : Str) : ContentCache :=
  match c with
  | [] => []
  | (k, v) :: rest =>
    if k = key then ContentCache.delete rest key else (k, v) :: ContentCache.delete rest key

/-- The fields of an instance: `exercisePath` and `contextCache`. -/
structure Manager where
  exercisePath : Str
  contextCache : ContentCache
  deriving DecidableEq, Repr

/-- The disk as the synchronous calls see it: the content of the file at a path (`none`
when there is no file), the error `readFileSync` throws for a path that it cannot read, and
the error `appendFileSync` throws for a path that it cannot write. -/
structure Disk where
  content : Str → Option Str
  readError : Str → Option JSError
  appendError : Str → Option JSError

/-- The call `fs.readFileSync(path, 'utf-8')`. -/
def readFileSync (disk : Disk) (path : Str) : Except JSError Str :=
  match disk.readError path with
  | some e => .error e
  | none =>
    match disk.content path with
    | some c => .ok c
    | none => .error enoent

/-- The call `fs.appendFileSync(path, data)`: the data goes to the end of the file, which
is created when it does not exist. -/
def appendFileSync (disk : Disk) (path data : Str) : Except JSError Disk :=
  match disk.appendError path with
  | some e => .error e
  | none =>
    .ok { disk with
      content := fun q => if q = path then some ((disk.content path).getD [] ++ data)
        else disk.content q }

/-- What `loadContextFile` does: the value returned (`none` is `null`), the instance
afterwards, and the paths read from the disk. -/
structure LoadOutcome where
  result : Option Str
  manager : Manager
  reads : List Str

/-- The method `loadContextFile(filePath)` (lines 140 to 153). -/
def loadContextFile (mgr : Manager) (disk : Disk) (filePath : Str) : LoadOutcome :=
  if mgr.contextCache.has filePath then
    { result := mgr.contextCache.get filePath, manager := mgr, reads := [] }
  else
    match readFileSync disk filePath with
    | .ok content =>
      { result := some content,
        manager := { mgr with contextCache := mgr.contextCache.set filePath content },
        reads := [filePath] }
    | .error _ => { result := none, manager := mgr, reads := [filePath] }

/-- The template literal of `updateContext`: an empty line, the line
`## Update - <timestamp>`, the updates and a final newline. -/
def updateBlock (timestamp updates : Str) : Str :=
  "\n\n## Update - ".toList ++ timestamp ++ "\n".toList ++ updates ++ "\n".toList

/-- What `updateContext` does: the boolean returned, the instance and the disk afterwards. -/
structure UpdateOutcome where
  result : Bool
  manager : Manager
  disk : Disk

/-- The method `updateContext(contextPath, updates)` (lines 218 to 240); `pathJoin` is
`path.join` and `timestamp` the value of `new Date().toISOString()`. -/
def updateContext (pathJoin : Str → Str → Str) (mgr : Manager) (disk : Disk) (timestamp : Str)
    (contextPath updates : Str) : UpdateOutcome :=
  match appendFileSync disk (pathJoin mgr.exercisePath contextPath)
      (updateBlock timestamp updates) with
  | .ok disk1 =>
    { result := true,
      manager := { mgr with
        contextCache := mgr.contextCache.delete (pathJoin mgr.exercisePath contextPath) },
      disk := disk1 }
  | .error _ => { result := false, manager := mgr, disk := disk }

end Shared

/-! ## The shared ContextManager: sections by key and the agent filter -/

namespace Shared

/-- A plain object with string values: its own properties in creation order. -/
abbrev Obj := List (Str × Str)

/-- The number a string of decimal digits denotes. -/
def digitsValue (k : Str) : Nat := k.foldl (fun n c => 10 * n + (c.toNat - 48)) 0

/-- A property key that is an array index: the canonical decimal form of an integer from 0
to 2^32 - 2.  Such keys come first, in ascending order, when the properties of an object are
listed. -/
def isArrayIndex (k : Str) : Bool :=
  !k.isEmpty && k.all Char.isDigit && (k == ['0'] || k.head? != some '0') &&
    decide (digitsValue k < 4294967295)

/-- The creation or update of an own property: an existing key keeps its place, a new key
goes last. -/
def Obj.setOwn (o : Obj) (key value : Str) : Obj :=
  match o with
  | [] => [(key, value)]
  | (k, v) :: rest => if k = key then (k, value) :: rest else (k, v) :: Obj.setOwn rest key value

/-- The assignment `obj[key] = value` of a string to a plain object: the key `__proto__`
reaches the setter inherited from `Object.prototype`, which ignores a value that is not an
object; every other key becomes an own property. -/
def Obj.set (o : Obj) (key value : Str) : Obj :=
  if key = "__proto__".toList then o else Obj.setOwn o key value

/-- One step of the ordering of array-index keys by their number. -/
def insertByIndex (e : Str × Str) : List (Str × Str) → List (Str × Str)
  | [] => [e]
  | x :: xs =>
    if digitsValue e.1 ≤ digitsValue x.1 then e :: x :: xs else x :: insertByIndex e xs

/-- The array-index properties in ascending order of their number. -/
def sortByIndex : List (Str × Str) → List (Str × Str)
  | [] => []
  | e :: es => insertByIndex e (sortByIndex es)

/-- The call `Object.entries(obj)`: the array-index keys in ascending order, then the other
keys in creation order. -/
def Obj.entries (o : Obj) : List (Str × Str) :=
  sortByIndex (o.filter (fun e => isArrayIndex e.1)) ++ o.filter (fun e => !isArrayIndex e.1)

/-- The method `s.startsWith(p)`. -/
def startsWith : Str → Str → Bool
  | _, [] => true
  | [], _ :: _ => false
  | c :: cs, p :: ps => c == p && startsWith cs ps

/-- The method `s.includes(sub)`. -/
def includes : Str → Str → Bool
  | [], sub => sub.isEmpty
  | c :: cs, sub => startsWith (c :: cs) sub || includes cs sub

/-- The call `s.replace(/\s+/g, '_')`: every maximal run of white space becomes one
underscore (`inRun` tells that the previous character was white space). -/
def underscoreRuns : Bool → Str → Str
  | _, [] => []
  | inRun, c :: cs =>
    if isSpace c then (if inRun then underscoreRuns true cs else '_' :: underscoreRuns true cs)
    else c :: underscoreRuns false cs

/-- The key of a heading line:
`line.replace(/^#+\s*/, '').toLowerCase().replace(/\s+/g, '_')`. -/
def sectionKey (line : Str) : Str :=
  underscoreRuns false
    (toLowerCase ((line.dropWhile (fun c => c == '#')).dropWhile isSpace))

/-- The three variables the loop of `parseMarkdownSections` updates. -/
structure SectionsState where
  sections : Obj
  currentSection : Str
  sectionContent : List Str
  deriving DecidableEq, Repr

/-- The block "save previous section": nothing is stored for a section without lines. -/
def saveSection (st : SectionsState) : Obj :=
  if st.sectionContent.length > 0 then
    st.sections.set st.currentSection (trim (join '\n' st.sectionContent))
  else st.sections

/-- The body of `for (const line of lines)` (lines 166 to 179). -/
def sectionsStep (st : SectionsState) (line : Str) : SectionsState :=
  if startsWith line ['#'] then
    { sections := saveSection st, currentSection := sectionKey line, sectionContent := [] }
  else { st with sectionContent := st.sectionContent ++ [line] }

/-- The method `parseMarkdownSections(markdown)`; `none` is `null`, and like the empty
string it gives the empty object. -/
def parseMarkdownSections (markdown : Option Str) : Obj :=
  match markdown with
  | none => []
  | some md =>
    if md.isEmpty then []
    else
      saveSection ((split '\n' md).foldl sectionsStep
        { sections := [], currentSection := "root".toList, sectionContent := [] })

/-- A value of the table `filters`: its properties `include` and `exclude`. -/
structure Filter where
  includeKeywords : List Str
  excludeKeywords : List Str
  deriving DecidableEq, Repr

/-- What `filters[agentName]` evaluates to: an own property of the table, a property the
table inherits from `Object.prototype` (a function, or the prototype itself for
`__proto__`: truthy, and without an `include` property), or `undefined`. -/
inductive FilterLookup where
  | own (f : Filter)
  | inherited
  | absent
  deriving DecidableEq, Repr

/-- The property names of `Object.prototype`. -/
def objectPrototypeKeys : List Str :=
  ["constructor".toList, "__defineGetter__".toList, "__defineSetter__".toList,
   "hasOwnProperty".toList, "__lookupGetter__".toList, "__lookupSetter__".toList,
   "isPrototypeOf".toList, "propertyIsEnumerable".toList, "toString".toList,
   "valueOf".toList, "__proto__".toList, "toLocaleString".toList]

/-- The filter of the coordinator (lines 78 to 81). -/
def coordinatorFilter : Filter :=
  { includeKeywords := ["objectives".toList, "architecture".toList, "progress".toList,
      "success_criteria".toList, "current_phase".toList],
    excludeKeywords := ["implementation_details".toList, "technical_specs".toList] }

/-- The filter of the task executor (lines 82 to 85). -/
def taskExecutorFilter : Filter :=
  { includeKeywords := ["current_task".toList, "technical_specs".toList, "success_criteria".toList,
      "constraints".toList, "deliverables".toList],
    excludeKeywords := ["strategic_decisions".toList, "human_approvals".toList] }

/-- The property access `filters[agentName]` on the object literal of lines 77 to 86. -/
def lookupFilter (agentName : Str) : FilterLookup :=
  if agentName = "coordinator".toList then .own coordinatorFilter
  else if agentName = "task-executor".toList then .own taskExecutorFilter
  else if agentName ∈ objectPrototypeKeys then .inherited
  else .absent

/-- The test `shouldInclude && !shouldExclude` on a section key (lines 95 to 102). -/
def keepEntry (f : Filter) (key : Str) : Bool :=
  f.includeKeywords.any (fun keyword => includes (toLowerCase key) (toLowerCase keyword)) &&
    !f.excludeKeywords.any (fun keyword => includes (toLowerCase key) (toLowerCase keyword))

/-- The loop over `Object.entries(sections)` with a filter that has both lists. -/
def filterEntries (f : Filter) (entries : List (Str × Str)) : Obj :=
  entries.foldl (fun filtered e => if keepEntry f e.1 then filtered.set e.1 e.2 else filtered) []

/-- The error of `filter.include.some` when `filter.include` is `undefined`. -/
def includeUndefined : JSError :=
  { code := [],
    message := "Cannot read properties of undefined (reading \x27some\x27)".toList }

/-- The method `filterForAgent(context, agentName)` (lines 75 to 108).  With an inherited
value as the filter, the first round of the loop throws, and there is no round when the
context has no sections. -/
def filterForAgent (context : Option Str) (agentName : Str) : Except JSError Obj :=
  match lookupFilter agentName with
  | .own f => .ok (filterEntries f (Obj.entries (parseMarkdownSections context)))
  | .absent =>
    .ok (filterEntries { includeKeywords := [], excludeKeywords := [] }
      (Obj.entries (parseMarkdownSections context)))
  | .inherited =>
    match Obj.entries (parseMarkdownSections context) with
    | [] => .ok []
    | _ :: _ => .error includeUndefined

end Shared

/-! ## Concrete inputs used in the statements below -/

/-- The six-line scenario of the specification. -/
def scenarioInput : Str :=
  "# A [role: coordinator]\nfoo\n## B [roles: coordinator, executor]\nbar\n# C\nbaz".toList

/-- Section A of the scenario. -/
def scenarioA : Section :=
  { level := 1, title := "A".toList, content := "foo".toList, startLine := 0, endLine := 1,
    roles := some ["coordinator".toList] }

/-- Section B of the scenario. -/
def scenarioB : Section :=
  { level := 2, title := "B".toList, content := "bar".toList, startLine := 2, endLine := 3,
    roles := some ["coordinator".toList, "executor".toList] }

/-- Section C of the scenario. -/
def scenarioC : Section :=
  { level := 1, title := "C".toList, content := "baz".toList, startLine := 4, endLine := 5,
    roles := none }

/-- A heading, an empty line and a text line. -/
def blankFirstInput : Str := "# A\n\nfoo".toList

/-- A heading with a role bracket, and a body comment naming the same role. -/
def repeatedRoleInput : Str := "# A [role: coordinator]\n<!-- role: coordinator -->".toList

/-- A file system holding the single file `a.md`, modified at time 7. -/
def demoFs : FileSystem :=
  { stat := fun p => if p = "a.md".toList then .ok 7 else .error enoent,
    readFile := fun p => if p = "a.md".toList then .ok "# T\nx".toList else .error enoent }

/-- The entry `readFileWithCache` stores for `a.md` of `demoFs` at time 100. -/
def demoEntry : CacheEntry :=
  { filePath := "a.md".toList, lastModified := 7, sections := parseMarkdown "# T\nx".toList,
    cachedAt := 100 }

/-- A store whose cache holds `a.md`, with the default maximal age. -/
def demoStore : Store :=
  { cache := [("a.md".toList, demoEntry)], cacheMaxAge := 300000, silentErrors := false }

/-- A store with an empty cache. -/
def emptyStore : Store := { cache := [], cacheMaxAge := 300000, silentErrors := false }

/-- A store constructed with `cacheMaxAge: 1000`. -/
def shortLivedStore : Store := construct { cacheMaxAge := some 1000 }

/-- The store `shortLivedStore` after `loadFile('a.md')` at time 0 on `demoFs`. -/
def shortLivedLoaded : Store :=
  shortLivedStore.withCache (loadFile shortLivedStore demoFs 0 "a.md".toList).cache

/-- A file object with two sections of the scenario. -/
def demoFileOne : FileEntry := { fileName := "one.md".toList, sections := [scenarioA, scenarioB] }

/-- A file object with one section of the scenario. -/
def demoFileTwo : FileEntry := { fileName := "two.md".toList, sections := [scenarioC] }

/-- Three `.md` names and one `.txt` name. -/
def demoListing : List Str := ["a.md".toList, "notes.txt".toList, "b.md".toList, "c.md".toList]

/-- A directory `docs` with the listing `demoListing`; `path.join` is rendered as
`dir/file`. -/
def demoDir : Directory :=
  { readdir := fun p => if p = "docs".toList then .ok demoListing else .error enoent,
    join := fun d f => d ++ '/' :: f }

/-- A file system in which every path exists, with modification time 7 and the content of
one heading and one body line. -/
def demoDirFs : FileSystem :=
  { stat := fun _ => .ok 7, readFile := fun _ => .ok "# T\nx".toList }

/-- Two lines of preamble, none of them a heading. -/
def demoPreamble : List Str := ["intro".toList, "#no space".toList]

/-- A heading whose role bracket sits inside the keyword of another bracket. -/
def nestedBracketInput : Str := "# [role[role: x]: y]".toList

/-- The function `path.resolve` in the working directory `/work`, for a relative path that
may start with `./`. -/
def resolveInWork (p : Str) : Str :=
  "/work/".toList ++ (match p with
    | '.' :: '/' :: rest => rest
    | _ => p)

/-- A file system whose working directory `/work` holds the single file `a.md`: a path
names the file when it resolves to `/work/a.md`. -/
def aliasFs : FileSystem :=
  { stat := fun p => if resolveInWork p = "/work/a.md".toList then .ok 7 else .error enoent,
    readFile := fun p =>
      if resolveInWork p = "/work/a.md".toList then .ok "# T\nx".toList else .error enoent }

/-- The store `emptyStore` after `loadFile('./a.md')` at time 0 on `aliasFs`. -/
def aliasLoaded : Store :=
  emptyStore.withCache (loadFile emptyStore aliasFs 0 "./a.md".toList).cache

/-- A file system in which no path exists. -/
def emptyFs : FileSystem :=
  { stat := fun _ => .error enoent, readFile := fun _ => .error enoent }

/-- A store constructed with `cacheMaxAge: 0`. -/
def zeroAgeStore : Store := construct { cacheMaxAge := some 0 }

/-- A heading followed by two empty lines, a line of one blank, a text line, an empty line
and a text line. -/
def blankLinesInput : Str := "# A\n\n\n \nfoo\n\nbar".toList

/-- The section `parseMarkdown` returns for `blankLinesInput`. -/
def blankLinesSection : Section :=
  { level := 1, title := "A".toList, content := " \nfoo\n\nbar".toList, startLine := 0,
    endLine := 6, roles := none }

/-- A heading whose role bracket holds an empty name between two commas. -/
def emptyRoleInput : Str := "# A [roles: a,,b]".toList

/-- The function `path.join` on a directory without a final slash and a relative path. -/
def slashJoin (d f : Str) : Str := d ++ '/' :: f

/-- A disk with the single file `ex/context.md`; the path `ex/locked.md` cannot be
written. -/
def demoDisk : Shared.Disk :=
  { content := fun p => if p = "ex/context.md".toList then some "# Objectives".toList else none,
    readError := fun _ => none,
    appendError := fun p => if p = "ex/locked.md".toList then
      some { code := "EACCES".toList, message := "permission denied".toList } else none }

/-- An instance whose cache holds `ex/context.md` and `ex/other.md`. -/
def demoManager : Shared.Manager :=
  { exercisePath := "ex".toList,
    contextCache := [("ex/context.md".toList, "# Objectives".toList),
      ("ex/other.md".toList, "# Other".toList)] }

/-- A context of three sections, with a line before the first heading. -/
def demoContext : Str :=
  "intro\n# Objectives\nShip it\n## Technical Specs\nUse Lean\n# Progress  Report\n\n50%\n".toList

/-- The entry of a file of the content `# T`, `x`: its one section, with the file name. -/
def demoEntryFor (name : Str) : FileEntry :=
  { fileName := name,
    sections :=
      [{ level := 1, title := "T".toList, content := "x".toList, startLine := 0, endLine := 1,
         roles := none, fileName := some name }] }

/-- A directory file system: `docs/a.md` loads, `docs/b.md` exists but cannot be read, and
`docs/c.md` does not exist. -/
def mixedDirFs : FileSystem :=
  { stat := fun p => if p = "docs/c.md".toList then .error enoent else .ok 7,
    readFile := fun p =>
      if p = "docs/b.md".toList then
        .error { code := "EACCES".toList, message := "permission denied".toList }
      else .ok "# T\nx".toList }

/-! ## Auxiliary definitions for the proofs -/

/-- The entry `loadDirectory` returns for the file `name` when the single-file load of its
path, made at time `now` from the store `st`, succeeds; `none` when that load fails. -/
def entryOf (st : Store) (fs : FileSystem) (dir : Directory) (dirPath : Str) (now : Int)
    (name : Str) : Option FileEntry :=
  match (readFileWithCache st fs now (dir.join dirPath name)).result with
  | .ok sections => some { fileName := name, sections := sections.map (setFileName name) }
  | .error _ => none

/-- The entries of the names whose single-file load from the store `st` succeeds, in order;
the first name has number `i` and the name number `j` is loaded at time `clock j`. -/
def entriesOf (st : Store) (fs : FileSystem) (dir : Directory) (dirPath : Str)
    (clock : Nat → Int) : List Str → Nat → List FileEntry
  | [], _ => []
  | name :: rest, i =>
    (entryOf st fs dir dirPath (clock i) name).toList ++
      entriesOf st fs dir dirPath clock rest (i + 1)

/-- The names whose single-file load from the store `st` fails, in order. -/
def failuresOf (st : Store) (fs : FileSystem) (dir : Directory) (dirPath : Str)
    (clock : Nat → Int) : List Str → Nat → List Str
  | [], _ => []
  | name :: rest, i =>
    (if (entryOf st fs dir dirPath (clock i) name).isSome then [] else [name]) ++
      failuresOf st fs dir dirPath clock rest (i + 1)

/-- The check of one image of the lower-case mapping: the code point `m` is a character
that is not white space, has no lower-case mapping of its own, and is not the capital
sigma. -/
def imageOk (m : Nat) : Bool :=
  (Nat.blt m 0xD800 || (Nat.blt 0xDFFF m && Nat.blt m 0x110000)) &&
    Nat.blt 0x20 m && !Nat.beq m 0xA0 && !Nat.beq m 0x1680 &&
    (Nat.blt m 0x2000 || Nat.blt 0x200A m) &&
    !Nat.beq m 0x2028 && !Nat.beq m 0x2029 && !Nat.beq m 0x202F && !Nat.beq m 0x205F &&
    !Nat.beq m 0x3000 && !Nat.beq m 0xFEFF &&
    (lookupBlocks m lowerBlocks).isNone && !Nat.beq m 0x130 && !Nat.beq m 0x3A3

/-- The check `imageOk` on every image of a run. -/
def runOk (e : Nat × Nat × Nat × Nat) : Bool :=
  (List.range ((e.2.1 - e.1) / e.2.2.1 + 1)).all (fun k => imageOk (e.2.2.2 + k * e.2.2.1))

/-- A character that the lower-casing leaves as it is, in every context. -/
def Lowered (d : Char) : Prop := lowerChar d = [d] ∧ d.toNat ≠ 0x3A3

/-- The roles field holds the empty string. -/
def HasEmptyRole (roles : Option (List Str)) : Prop :=
  ∃ rs, roles = some rs ∧ [] ∈ rs

/-- A parser state in which a finished section or the open section holds the empty role. -/
def HasEmptyRoleState (st : ParseState) : Prop :=
  (∃ s ∈ st.sections, HasEmptyRole s.roles) ∨
    ∃ cur, st.currentSection = some cur ∧ HasEmptyRole cur.roles

/-- The declarative reading of a pattern: `Matches fin its s gs` says that `s` starts with
the texts `gs`, one per term of `its`, each made of characters of the term's class and of a
length the term's quantifier allows, and that what follows passes `fin`. -/
inductive Matches (fin : Str → Bool) : List Item → Str → List Str → Prop
  | nil {s : Str} : fin s = true → Matches fin [] s []
  | cons {it : Item} {its : List Item} {g s : Str} {gs : List Str} :
      (∀ c ∈ g, it.cls c = true) → it.lo ≤ g.length → (∀ h, it.hi = some h → g.length ≤ h) →
      Matches fin its s gs → Matches fin (it :: its) (g ++ s) (g :: gs)

/-- A line that starts a section: the heading pattern of `parseMarkdown` matches it. -/
def isHeading (line : Str) : Bool := (headerMatch line).isSome

/-- The number of `#` characters a line starts with. -/
def leadingHashes (line : Str) : Nat := (line.takeWhile (fun c => c == '#')).length

/-- The heading pattern of the code in words: one to six `#`, then white space, then at
least one character, none of the latter a line terminator (the atom `.` excludes them). -/
def HeadingShape (line : Str) : Prop :=
  ∃ (k : Nat) (w t : Str), 1 ≤ k ∧ k ≤ 6 ∧ line = List.replicate k '#' ++ w ++ t ∧
    w ≠ [] ∧ (∀ c ∈ w, isSpace c = true) ∧ t ≠ [] ∧ (∀ c ∈ t, isLineTerminator c = false)

/-- The heading pattern as the specification words it: one to six `#` at the line start,
then at least one white-space character, then at least one more character. -/
def HeadingShapeSpec (line : Str) : Prop :=
  ∃ (k : Nat) (w t : Str), 1 ≤ k ∧ k ≤ 6 ∧ line = List.replicate k '#' ++ w ++ t ∧
    w ≠ [] ∧ (∀ c ∈ w, isSpace c = true) ∧ t ≠ []

/-- The test `section.roles && section.roles.includes(role)` in words: the roles field is
present and lists `role`. -/
def hasRole (role : Str) (s : Section) : Bool :=
  match s.roles with
  | some roles => decide (role ∈ roles)
  | none => false

/-- The names of `files` whose flag in `mask` is `b`, in order. -/
def pick (files : List Str) (mask : List Bool) (b : Bool) : List Str :=
  ((files.zip mask).filter (fun p => p.2 == b)).map Prod.fst

/-- What the file system decides about the load of `path`: it fails when the stat fails,
and it succeeds when both the stat and the content read succeed (`ok` is the flag "the load
succeeded"). -/
def LoadFlag (fs : FileSystem) (path : Str) (ok : Bool) : Prop :=
  (∀ e, fs.stat path = .error e → ok = false) ∧
    (∀ m c, fs.stat path = .ok m → fs.readFile path = .ok c → ok = true)

/-- A section moved down by `k` lines: `startLine` and `endLine` increased by `k`, the
other fields kept. -/
def shiftLines (k : Nat) (s : Section) : Section :=
  { s with startLine := s.startLine + k, endLine := s.endLine + k }

/-- The bracket `[roles: t]`, character by character. -/
def rolesBracket (t : Str) : Str :=
  '[' :: 'r' :: 'o' :: 'l' :: 'e' :: 's' :: ':' :: ' ' :: (t ++ [']'])

/-- The comment line `<!-- roles: t -->`, character by character. -/
def rolesComment (t : Str) : Str :=
  '<' :: '!' :: '-' :: '-' :: ' ' :: 'r' :: 'o' :: 'l' :: 'e' :: 's' :: ':' :: ' ' ::
    (t ++ [' ', '-', '-', '>'])

/-- The text of the heading `# T` followed by the body line `<!-- roles: t -->`. -/
def commentMarked (T t : Str) : Str := '#' :: ' ' :: (T ++ '\n' :: rolesComment t)

/-- The text of the heading `# T [roles: t]`. -/
def headingMarked (T t : Str) : Str := '#' :: ' ' :: (T ++ ' ' :: rolesBracket t)

/-- The lines before the next heading line. -/
def bodyOf (ls : List Str) : List Str := ls.takeWhile (fun l => !isHeading l)

/-- The section of a heading at line `index` whose body lines are `body`. -/
def sectionOf (hashes text : Str) (index : Nat) (body : List Str) : Section :=
  (body.foldl addLine (openSection hashes text index)).close ((index : Int) + body.length)

/-- The sections of the lines `ls`, the first of which has number `index`: one per heading
line, built from the heading and the lines up to the next heading. -/
def sectionsFrom : List Str → Nat → List Section
  | [], _ => []
  | l :: ls, index =>
    match headerMatch l with
    | some (hashes, text) => sectionOf hashes text index (bodyOf ls) :: sectionsFrom ls (index + 1)
    | none => sectionsFrom ls (index + 1)

/-- The result of `parseMarkdown` when the loop ends in state `st` after `n` lines. -/
def finish (st : ParseState) (n : Int) : List Section :=
  match st.currentSection with
  | some cur => st.sections ++ [cur.close (n - 1)]
  | none => st.sections

end ContextManager



namespace ContextManager

/-! ## The matcher finds a match exactly when one exists -/

theorem take_of_le_takeWhile (p : Char → Bool) :
    ∀ (l : Str) (n : Nat), n ≤ (l.takeWhile p).length → ∀ c ∈ l.take n, p c = true := by
  intro l
  induction l with
  | nil => intro n _ c hc; simp at hc
  | cons a l ih =>
    intro n hn c hc
    cases n with
    | zero => simp at hc
    | succ n =>
      by_cases ha : p a = true
      · simp only [List.takeWhile_cons, ha, if_true, List.length_cons] at hn
        simp only [List.take_succ_cons, List.mem_cons] at hc
        rcases hc with rfl | hc
        · exact ha
        · exact ih n (by omega) c hc
      · simp [List.takeWhile_cons, ha] at hn

theorem takeWhile_length_le (p : Char → Bool) (l : Str) : (l.takeWhile p).length ≤ l.length := by
  induction l with
  | nil => simp
  | cons a l ih =>
    by_cases ha : p a = true
    · simp only [List.takeWhile_cons, ha, if_true, List.length_cons]; omega
    · simp [List.takeWhile_cons, ha]

theorem le_takeWhile_append (p : Char → Bool) :
    ∀ (g s : Str), (∀ c ∈ g, p c = true) → g.length ≤ ((g ++ s).takeWhile p).length := by
  intro g
  induction g with
  | nil => intro s _; simp
  | cons a g ih =>
    intro s hg
    have ha : p a = true := hg a (List.mem_cons_self a g)
    have := ih s (fun c hc => hg c (List.mem_cons_of_mem a hc))
    simp only [List.cons_append, List.takeWhile_cons, ha, if_true, List.length_cons]
    omega

theorem takeWhile_append_of_stop (p : Char → Bool) :
    ∀ (g : Str) (c : Char) (r : Str), (∀ x ∈ g, p x = true) → p c = false →
      (g ++ c :: r).takeWhile p = g := by
  intro g
  induction g with
  | nil => intro c r _ hc; simp [List.takeWhile_cons, hc]
  | cons a g ih =>
    intro c r hg hc
    have ha : p a = true := hg a (List.mem_cons_self a g)
    simp only [List.cons_append, List.takeWhile_cons, ha, if_true]
    rw [ih c r (fun x hx => hg x (List.mem_cons_of_mem a hx)) hc]

theorem tryLens_eq_some {k : Str → Option (List Str)} {s : Str} {lo : Nat} :
    ∀ {n : Nat} {gs : List Str}, tryLens k s lo n = some gs →
      ∃ m gs', m ≤ n ∧ lo ≤ m ∧ k (s.drop m) = some gs' ∧ gs = s.take m :: gs' := by
  intro n
  induction n with
  | zero =>
    intro gs h
    by_cases hlo : lo = 0
    · simp only [tryLens, hlo, if_true, Option.map_eq_some'] at h
      obtain ⟨gs', hk, rfl⟩ := h
      exact ⟨0, gs', le_refl 0, by omega, by simpa using hk, by simp⟩
    · simp [tryLens, hlo] at h
  | succ n ih =>
    intro gs h
    by_cases hlo : lo ≤ n + 1
    · simp only [tryLens, hlo, if_true] at h
      cases hk : k (s.drop (n + 1)) with
      | some gs' =>
        simp only [hk, Option.some.injEq] at h
        exact ⟨n + 1, gs', le_refl _, hlo, hk, h.symm⟩
      | none =>
        simp only [hk] at h
        obtain ⟨m, gs', hm, hlo', hk', hgs⟩ := ih h
        exact ⟨m, gs', by omega, hlo', hk', hgs⟩
    · simp [tryLens, hlo] at h

theorem tryLens_isSome {k : Str → Option (List Str)} {s : Str} {lo m : Nat}
    (hlo : lo ≤ m) (hk : (k (s.drop m)).isSome = true) :
    ∀ {n : Nat}, m ≤ n → (tryLens k s lo n).isSome = true := by
  intro n
  induction n with
  | zero =>
    intro hm
    have hm0 : m = 0 := by omega
    subst hm0
    have hlo0 : lo = 0 := by omega
    simp only [List.drop_zero] at hk
    simp [tryLens, hlo0, hk]
  | succ n ih =>
    intro hm
    by_cases hmn : m = n + 1
    · subst hmn
      simp only [tryLens, hlo, if_true]
      cases hk' : k (s.drop (n + 1)) with
      | some gs' => simp
      | none => simp [hk'] at hk
    · have hlo' : lo ≤ n + 1 := by omega
      simp only [tryLens, hlo', if_true]
      cases hk' : k (s.drop (n + 1)) with
      | some gs' => simp
      | none => exact ih (by omega)

theorem maxRun_le_takeWhile (it : Item) (s : Str) :
    maxRun it s ≤ (s.takeWhile it.cls).length := by
  unfold maxRun
  cases it.hi with
  | none => exact le_refl _
  | some h => exact Nat.min_le_right _ _

theorem maxRun_le_hi (it : Item) (s : Str) (h : Nat) (hh : it.hi = some h) : maxRun it s ≤ h := by
  unfold maxRun
  rw [hh]
  exact Nat.min_le_left _ _

theorem le_maxRun (it : Item) (g s : Str) (hg : ∀ c ∈ g, it.cls c = true)
    (hhi : ∀ h, it.hi = some h → g.length ≤ h) : g.length ≤ maxRun it (g ++ s) := by
  have h1 := le_takeWhile_append it.cls g s hg
  unfold maxRun
  cases hh : it.hi with
  | none => exact h1
  | some h => exact Nat.le_min.mpr ⟨hhi h hh, h1⟩

theorem matchFrom_sound (fin : Str → Bool) :
    ∀ (its : List Item) (s : Str) (gs : List Str),
      matchFrom its fin s = some gs → Matches fin its s gs := by
  intro its
  induction its with
  | nil =>
    intro s gs h
    by_cases hf : fin s = true
    · simp only [matchFrom, hf, if_true, Option.some.injEq] at h
      subst h
      exact Matches.nil hf
    · simp [matchFrom, hf] at h
  | cons it its ih =>
    intro s gs h
    simp only [matchFrom] at h
    obtain ⟨m, gs', hm, hlo, hk, rfl⟩ := tryLens_eq_some h
    have hrun : m ≤ (s.takeWhile it.cls).length := le_trans hm (maxRun_le_takeWhile it s)
    have hlen : (s.take m).length = m := by
      rw [List.length_take]
      have := takeWhile_length_le it.cls s
      omega
    have key : Matches fin (it :: its) (s.take m ++ s.drop m) (s.take m :: gs') :=
      Matches.cons (take_of_le_takeWhile it.cls s m hrun) (by omega)
        (fun h hh => by have := maxRun_le_hi it s h hh; omega) (ih _ _ hk)
    rwa [List.take_append_drop] at key

theorem matchFrom_complete (fin : Str → Bool) {its : List Item} {s : Str} {gs : List Str}
    (h : Matches fin its s gs) : (matchFrom its fin s).isSome = true := by
  induction h with
  | nil hf => simp [matchFrom, hf]
  | @cons it its g s gs hg hlo hhi _ ih =>
    simp only [matchFrom]
    refine tryLens_isSome (m := g.length) hlo ?_ (le_maxRun it g s hg hhi)
    simpa using ih

theorem matchFrom_isSome_iff (fin : Str → Bool) (its : List Item) (s : Str) :
    (matchFrom its fin s).isSome = true ↔ ∃ gs, Matches fin its s gs := by
  constructor
  · intro h
    obtain ⟨gs, hgs⟩ := Option.isSome_iff_exists.mp h
    exact ⟨gs, matchFrom_sound fin its s gs hgs⟩
  · rintro ⟨gs, h⟩
    exact matchFrom_complete fin h

theorem matches_nil_iff (fin : Str → Bool) (s : Str) (gs : List Str) :
    Matches fin [] s gs ↔ gs = [] ∧ fin s = true := by
  constructor
  · intro h
    cases h with
    | nil hf => exact ⟨rfl, hf⟩
  · rintro ⟨rfl, hf⟩
    exact Matches.nil hf

theorem matches_cons_iff (fin : Str → Bool) (it : Item) (its : List Item) (s : Str)
    (gs : List Str) :
    Matches fin (it :: its) s gs ↔
      ∃ g s' gs', s = g ++ s' ∧ gs = g :: gs' ∧ (∀ c ∈ g, it.cls c = true) ∧ it.lo ≤ g.length ∧
        (∀ h, it.hi = some h → g.length ≤ h) ∧ Matches fin its s' gs' := by
  constructor
  · intro h
    cases h with
    | cons hg hlo hhi hrest => exact ⟨_, _, _, rfl, rfl, hg, hlo, hhi, hrest⟩
  · rintro ⟨g, s', gs', rfl, rfl, hg, hlo, hhi, hrest⟩
    exact Matches.cons hg hlo hhi hrest

/-! ## The heading pattern -/

theorem matches_headerRe_iff (line : Str) (gs : List Str) :
    Matches atEnd headerRe line gs ↔
      ∃ h w t, gs = [h, w, t] ∧ line = h ++ (w ++ t) ∧
        (∀ c ∈ h, c = '#') ∧ 1 ≤ h.length ∧ h.length ≤ 6 ∧
        (∀ c ∈ w, isSpace c = true) ∧ 1 ≤ w.length ∧
        (∀ c ∈ t, isDot c = true) ∧ 1 ≤ t.length := by
  simp only [headerRe, matches_cons_iff, matches_nil_iff, atEnd]
  constructor
  · rintro ⟨h, s1, gs1, rfl, rfl, hh, hh1, hh6, w, s2, gs2, rfl, rfl, hw, hw1, -, t, s3, gs3, rfl,
      rfl, ht, ht1, -, rfl, hend⟩
    have hs3 : s3 = [] := by simpa using hend
    subst hs3
    refine ⟨h, w, t, rfl, by simp, ?_, hh1, hh6 6 rfl, hw, hw1, ht, ht1⟩
    intro c hc
    simpa using hh c hc
  · rintro ⟨h, w, t, rfl, rfl, hh, hh1, hh6, hw, hw1, ht, ht1⟩
    refine ⟨h, w ++ t, [w, t], rfl, rfl, ?_, hh1, ?_, w, t, [t], rfl, rfl, hw, hw1, ?_,
      t, [], [], by simp, rfl, ht, ht1, ?_, rfl, by simp⟩
    · intro c hc
      simpa using hh c hc
    · intro x hx
      simp only [Option.some.injEq] at hx
      omega
    · intro x hx
      simp at hx
    · intro x hx
      simp at hx

theorem isSpace_hash : isSpace '#' = false := by decide

theorem eq_replicate_of_all_hash (h : Str) (hh : ∀ c ∈ h, c = '#') :
    h = List.replicate h.length '#' :=
  List.eq_replicate_iff.mpr ⟨rfl, hh⟩

theorem headerMatch_eq_some {line hashes text : Str} (hm : headerMatch line = some (hashes, text)) :
    hashes = line.takeWhile (fun c => c == '#') ∧ 1 ≤ hashes.length ∧ hashes.length ≤ 6 ∧
      ∃ w, line = hashes ++ (w ++ text) ∧ w ≠ [] ∧ (∀ c ∈ w, isSpace c = true) ∧
        text ≠ [] ∧ (∀ c ∈ text, isDot c = true) := by
  unfold headerMatch at hm
  cases hmf : matchFrom headerRe atEnd line with
  | none => simp [hmf] at hm
  | some gs =>
    obtain ⟨h, w, t, rfl, rfl, hh, hh1, hh6, hw, hw1, ht, ht1⟩ :=
      (matches_headerRe_iff line gs).mp (matchFrom_sound atEnd headerRe line gs hmf)
    simp only [hmf, Option.some.injEq, Prod.mk.injEq] at hm
    obtain ⟨rfl, rfl⟩ := hm
    have hwne : w ≠ [] := by
      intro h0; subst h0; simp at hw1
    have htne : t ≠ [] := by
      intro h0; subst h0; simp at ht1
    refine ⟨?_, hh1, hh6, w, rfl, hwne, hw, htne, ht⟩
    obtain ⟨c, r, rfl⟩ := List.exists_cons_of_ne_nil hwne
    have hc : (fun x : Char => x == '#') c = false := by
      have hsp := hw c (List.mem_cons_self c r)
      by_cases hceq : c = '#'
      · subst hceq
        rw [isSpace_hash] at hsp
        exact absurd hsp (by decide)
      · simpa using hceq
    have := takeWhile_append_of_stop (fun x : Char => x == '#') h c (r ++ t)
      (fun x hx => by simpa using hh x hx) hc
    simpa using this.symm

theorem isHeading_iff_matches (line : Str) :
    isHeading line = true ↔ ∃ gs, Matches atEnd headerRe line gs := by
  rw [← matchFrom_isSome_iff]
  unfold isHeading headerMatch
  cases hmf : matchFrom headerRe atEnd line with
  | none => simp
  | some gs =>
    obtain ⟨h, w, t, rfl, -⟩ :=
      (matches_headerRe_iff line gs).mp (matchFrom_sound atEnd headerRe line gs hmf)
    simp

theorem isHeading_iff_shape (line : Str) : isHeading line = true ↔ HeadingShape line := by
  rw [isHeading_iff_matches]
  constructor
  · rintro ⟨gs, hgs⟩
    obtain ⟨h, w, t, -, rfl, hh, hh1, hh6, hw, hw1, ht, ht1⟩ := (matches_headerRe_iff line gs).mp hgs
    refine ⟨h.length, w, t, hh1, hh6, ?_, ?_, hw, ?_, ?_⟩
    · rw [← eq_replicate_of_all_hash h hh, List.append_assoc]
    · intro h0; subst h0; simp at hw1
    · intro h0; subst h0; simp at ht1
    · intro c hc
      have := ht c hc
      simpa [isDot] using this
  · rintro ⟨k, w, t, hk1, hk6, rfl, hw, hws, ht, hts⟩
    refine ⟨[List.replicate k '#', w, t], (matches_headerRe_iff _ _).mpr
      ⟨List.replicate k '#', w, t, rfl, by simp, ?_, by simpa using hk1, by simpa using hk6,
        hws, ?_, ?_, ?_⟩⟩
    · intro c hc
      exact (List.mem_replicate.mp hc).2
    · exact List.length_pos.mpr hw
    · intro c hc
      simp [isDot, hts c hc]
    · exact List.length_pos.mpr ht

theorem headerMatch_level {line hashes text : Str} (hm : headerMatch line = some (hashes, text)) :
    hashes.length = leadingHashes line ∧ 1 ≤ hashes.length ∧ hashes.length ≤ 6 := by
  obtain ⟨h1, h2, h3, -⟩ := headerMatch_eq_some hm
  exact ⟨by rw [h1]; rfl, h2, h3⟩

/-! ## The parser as one section per heading line -/

theorem bodyOf_cons_heading {l : Str} {ls : List Str} (h : isHeading l = true) :
    bodyOf (l :: ls) = [] := by
  simp [bodyOf, h]

theorem bodyOf_cons_body {l : Str} {ls : List Str} (h : isHeading l = false) :
    bodyOf (l :: ls) = l :: bodyOf ls := by
  simp [bodyOf, h]

theorem parseLoop_finish (ls : List Str) :
    ∀ (i : Nat) (st : ParseState),
      finish (parseLoop ls i st) ((i : Int) + ls.length) =
        st.sections ++
          (match st.currentSection with
            | some cur =>
              [((bodyOf ls).foldl addLine cur).close ((i : Int) + (bodyOf ls).length - 1)]
            | none => []) ++
          sectionsFrom ls i := by
  induction ls with
  | nil =>
    intro i st
    cases hc : st.currentSection <;> simp [parseLoop, finish, sectionsFrom, bodyOf, hc]
  | cons l ls ih =>
    intro i st
    have hlen : ((i : Int) + ((l :: ls).length : Nat)) = (((i + 1 : Nat) : Int) + (ls.length : Nat)) := by
      simp only [List.length_cons]; push_cast; ring
    rw [parseLoop, hlen, ih]
    cases hm : headerMatch l with
    | some ht =>
      obtain ⟨hashes, text⟩ := ht
      have hh : isHeading l = true := by simp [isHeading, hm]
      rw [bodyOf_cons_heading hh]
      cases hc : st.currentSection <;>
        simp [parseStep, hm, hc, sectionsFrom, sectionOf]
      all_goals
        congr 1
        omega
    | none =>
      have hh : isHeading l = false := by simp [isHeading, hm]
      rw [bodyOf_cons_body hh]
      cases hc : st.currentSection <;>
        simp [parseStep, hm, hc, sectionsFrom]
      all_goals
        congr 1
        omega

theorem parseMarkdown_eq (content : Str) :
    parseMarkdown content = sectionsFrom (split '\n' content) 0 := by
  have h := parseLoop_finish (split '\n' content) 0 { sections := [], currentSection := none }
  simp only [finish] at h
  simp only [parseMarkdown]
  simpa using h

/-! ## Fields of the sections -/

theorem addLine_level (cur : OpenSection) (line : Str) : (addLine cur line).level = cur.level := by
  by_cases h : (extractRolesFromComment line).length > 0 <;> simp [addLine, h]

theorem addLine_startLine (cur : OpenSection) (line : Str) :
    (addLine cur line).startLine = cur.startLine := by
  by_cases h : (extractRolesFromComment line).length > 0 <;> simp [addLine, h]

theorem foldl_addLine_level (body : List Str) :
    ∀ cur : OpenSection, (body.foldl addLine cur).level = cur.level := by
  induction body with
  | nil => intro cur; rfl
  | cons l body ih => intro cur; rw [List.foldl_cons, ih, addLine_level]

theorem foldl_addLine_startLine (body : List Str) :
    ∀ cur : OpenSection, (body.foldl addLine cur).startLine = cur.startLine := by
  induction body with
  | nil => intro cur; rfl
  | cons l body ih => intro cur; rw [List.foldl_cons, ih, addLine_startLine]

theorem sectionOf_level (hashes text : Str) (i : Nat) (body : List Str) :
    (sectionOf hashes text i body).level = hashes.length := by
  simp [sectionOf, OpenSection.close, foldl_addLine_level, openSection]

theorem sectionOf_startLine (hashes text : Str) (i : Nat) (body : List Str) :
    (sectionOf hashes text i body).startLine = i := by
  simp [sectionOf, OpenSection.close, foldl_addLine_startLine, openSection]

theorem sectionOf_endLine (hashes text : Str) (i : Nat) (body : List Str) :
    (sectionOf hashes text i body).endLine = (i : Int) + body.length := by
  simp [sectionOf, OpenSection.close]

theorem sectionsFrom_level (ls : List Str) :
    ∀ i : Nat, (sectionsFrom ls i).map Section.level = (ls.filter isHeading).map leadingHashes := by
  induction ls with
  | nil => intro i; rfl
  | cons l ls ih =>
    intro i
    cases hm : headerMatch l with
    | some ht =>
      obtain ⟨hashes, text⟩ := ht
      have hh : isHeading l = true := by simp [isHeading, hm]
      simp [sectionsFrom, hm, hh, ih, sectionOf_level, (headerMatch_level hm).1]
    | none =>
      have hh : isHeading l = false := by simp [isHeading, hm]
      simp [sectionsFrom, hm, hh, ih]

theorem sectionsFrom_startLine (ls : List Str) :
    ∀ i : Nat, (sectionsFrom ls i).map Section.startLine =
      ((ls.enumFrom i).filter (fun p => isHeading p.2)).map (fun p => (p.1 : Int)) := by
  induction ls with
  | nil => intro i; rfl
  | cons l ls ih =>
    intro i
    cases hm : headerMatch l with
    | some ht =>
      obtain ⟨hashes, text⟩ := ht
      have hh : isHeading l = true := by simp [isHeading, hm]
      simp [sectionsFrom, hm, hh, ih, sectionOf_startLine, List.enumFrom_cons]
    | none =>
      have hh : isHeading l = false := by simp [isHeading, hm]
      simp [sectionsFrom, hm, hh, ih, List.enumFrom_cons]

theorem bodyOf_length_le (ls : List Str) : (bodyOf ls).length ≤ ls.length := by
  induction ls with
  | nil => simp [bodyOf]
  | cons l ls ih =>
    cases hh : isHeading l
    · rw [bodyOf_cons_body hh]; simp only [List.length_cons]; omega
    · rw [bodyOf_cons_heading hh]; simp

/-- Every section of the lines from number `i` on starts after the lines before the first
heading, and ends within the lines. -/
theorem sectionsFrom_bounds (ls : List Str) :
    ∀ (i : Nat) (s : Section), s ∈ sectionsFrom ls i →
      (i : Int) + (bodyOf ls).length ≤ s.startLine ∧ s.startLine ≤ s.endLine ∧
        s.endLine ≤ (i : Int) + ls.length - 1 := by
  induction ls with
  | nil => intro i s hs; simp [sectionsFrom] at hs
  | cons l ls ih =>
    intro i s hs
    have hb := bodyOf_length_le ls
    cases hm : headerMatch l with
    | some ht =>
      obtain ⟨hashes, text⟩ := ht
      have hh : isHeading l = true := by simp [isHeading, hm]
      rw [bodyOf_cons_heading hh]
      simp only [sectionsFrom, hm, List.mem_cons] at hs
      rcases hs with rfl | hs
      · simp only [sectionOf_startLine, sectionOf_endLine, List.length_nil, List.length_cons]
        push_cast
        omega
      · obtain ⟨h1, h2, h3⟩ := ih (i + 1) s hs
        simp only [List.length_nil, List.length_cons]
        push_cast at h1 h3 ⊢
        omega
    | none =>
      have hh : isHeading l = false := by simp [isHeading, hm]
      rw [bodyOf_cons_body hh]
      simp only [sectionsFrom, hm] at hs
      obtain ⟨h1, h2, h3⟩ := ih (i + 1) s hs
      simp only [List.length_cons]
      push_cast at h1 h3 ⊢
      omega

theorem sectionsFrom_head (ls : List Str) :
    ∀ (i : Nat) (s : Section), (sectionsFrom ls i).head? = some s →
      s.startLine = (i : Int) + (bodyOf ls).length := by
  induction ls with
  | nil => intro i s hs; simp [sectionsFrom] at hs
  | cons l ls ih =>
    intro i s hs
    cases hm : headerMatch l with
    | some ht =>
      obtain ⟨hashes, text⟩ := ht
      have hh : isHeading l = true := by simp [isHeading, hm]
      rw [bodyOf_cons_heading hh]
      simp only [sectionsFrom, hm, List.head?_cons, Option.some.injEq] at hs
      subst hs
      simp [sectionOf_startLine]
    | none =>
      have hh : isHeading l = false := by simp [isHeading, hm]
      rw [bodyOf_cons_body hh]
      simp only [sectionsFrom, hm] at hs
      rw [ih (i + 1) s hs]
      simp only [List.length_cons]
      push_cast
      omega

theorem sectionsFrom_eq_nil (ls : List Str) :
    ∀ i : Nat, sectionsFrom ls i = [] → bodyOf ls = ls := by
  induction ls with
  | nil => intro i _; rfl
  | cons l ls ih =>
    intro i h
    cases hm : headerMatch l with
    | some ht => simp [sectionsFrom, hm] at h
    | none =>
      have hh : isHeading l = false := by simp [isHeading, hm]
      simp only [sectionsFrom, hm] at h
      rw [bodyOf_cons_body hh, ih (i + 1) h]

theorem sectionsFrom_chain (ls : List Str) :
    ∀ i : Nat, List.Chain' (fun a b : Section => b.startLine = a.endLine + 1) (sectionsFrom ls i) := by
  induction ls with
  | nil => intro i; simp [sectionsFrom]
  | cons l ls ih =>
    intro i
    cases hm : headerMatch l with
    | some ht =>
      obtain ⟨hashes, text⟩ := ht
      simp only [sectionsFrom, hm]
      rw [List.chain'_cons']
      refine ⟨?_, ih (i + 1)⟩
      intro b hb
      rw [sectionsFrom_head ls (i + 1) b (by simpa using hb), sectionOf_endLine]
      push_cast
      omega
    | none =>
      simp only [sectionsFrom, hm]
      exact ih (i + 1)

theorem sectionsFrom_getLast (ls : List Str) :
    ∀ (i : Nat) (s : Section), (sectionsFrom ls i).getLast? = some s →
      s.endLine = (i : Int) + ls.length - 1 := by
  induction ls with
  | nil => intro i s hs; simp [sectionsFrom] at hs
  | cons l ls ih =>
    intro i s hs
    cases hm : headerMatch l with
    | some ht =>
      obtain ⟨hashes, text⟩ := ht
      simp only [sectionsFrom, hm] at hs
      cases hrest : sectionsFrom ls (i + 1) with
      | nil =>
        rw [hrest] at hs
        simp only [List.getLast?_singleton, Option.some.injEq] at hs
        subst hs
        rw [sectionOf_endLine, sectionsFrom_eq_nil ls (i + 1) hrest]
        simp only [List.length_cons]
        push_cast
        omega
      | cons b bs =>
        rw [hrest, List.getLast?_cons_cons, ← hrest] at hs
        rw [ih (i + 1) s hs]
        simp only [List.length_cons]
        push_cast
        omega
    | none =>
      simp only [sectionsFrom, hm] at hs
      rw [ih (i + 1) s hs]
      simp only [List.length_cons]
      push_cast
      omega

theorem sectionsFrom_pairwise (ls : List Str) :
    ∀ i : Nat, List.Pairwise (fun a b : Section => a.endLine < b.startLine) (sectionsFrom ls i) := by
  induction ls with
  | nil => intro i; simp [sectionsFrom]
  | cons l ls ih =>
    intro i
    cases hm : headerMatch l with
    | some ht =>
      obtain ⟨hashes, text⟩ := ht
      simp only [sectionsFrom, hm]
      rw [List.pairwise_cons]
      refine ⟨?_, ih (i + 1)⟩
      intro b hb
      have := (sectionsFrom_bounds ls (i + 1) b hb).1
      rw [sectionOf_endLine]
      push_cast at this
      omega
    | none =>
      simp only [sectionsFrom, hm]
      exact ih (i + 1)

theorem sectionsFrom_cover (ls : List Str) :
    ∀ (i : Nat) (j : Int), (i : Int) + (bodyOf ls).length ≤ j → j ≤ (i : Int) + ls.length - 1 →
      ∃ s ∈ sectionsFrom ls i, s.startLine ≤ j ∧ j ≤ s.endLine := by
  induction ls with
  | nil =>
    intro i j h1 h2
    simp [bodyOf] at h1 h2
    omega
  | cons l ls ih =>
    intro i j h1 h2
    simp only [List.length_cons] at h2
    push_cast at h2
    cases hm : headerMatch l with
    | some ht =>
      obtain ⟨hashes, text⟩ := ht
      have hh : isHeading l = true := by simp [isHeading, hm]
      rw [bodyOf_cons_heading hh] at h1
      simp only [List.length_nil] at h1
      simp only [sectionsFrom, hm, List.mem_cons, exists_eq_or_imp]
      by_cases hj : j ≤ (i : Int) + (bodyOf ls).length
      · left
        rw [sectionOf_startLine, sectionOf_endLine]
        constructor
        · push_cast at h1; omega
        · exact hj
      · right
        exact ih (i + 1) j (by push_cast; omega) (by push_cast; omega)
    | none =>
      have hh : isHeading l = false := by simp [isHeading, hm]
      rw [bodyOf_cons_body hh] at h1
      simp only [List.length_cons] at h1
      push_cast at h1
      simp only [sectionsFrom, hm]
      exact ih (i + 1) j (by push_cast; omega) (by push_cast; omega)

/-! ## C1: one section per heading line -/

/-- C1, as stated, fails: the line `# a` followed by a carriage return is the only line of
its input and has the shape the claim describes (one `#`, one white-space character, then
at least one more character), yet `parseMarkdown` returns no section, because the atom `.`
of the heading pattern does not match a line terminator. -/
theorem parseMarkdown_carriage_return_no_section :
    split '\n' "# a\r".toList = ["# a\r".toList] ∧ HeadingShapeSpec "# a\r".toList ∧
      (parseMarkdown "# a\r".toList).length = 0 := by
  refine ⟨by decide, ⟨1, " ".toList, "a\r".toList, ?_⟩, by decide⟩
  decide

/-- C1, amended: `parseMarkdown` returns one section per line matching the heading pattern
of the code, in source order; the level of the i-th section is the number of leading `#` of
the i-th heading line and lies between 1 and 6; and a line matches the pattern exactly when
it is 1 to 6 `#`, then at least one white-space character, then at least one more
character, none of these last characters being a line terminator. -/
theorem parseMarkdown_one_section_per_heading (content : Str) :
    (parseMarkdown content).length = ((split '\n' content).filter isHeading).length ∧
      (parseMarkdown content).map Section.level =
        ((split '\n' content).filter isHeading).map leadingHashes ∧
      (∀ s ∈ parseMarkdown content, 1 ≤ s.level ∧ s.level ≤ 6) ∧
      (∀ line : Str, isHeading line = true ↔ HeadingShape line) := by
  have hlev := sectionsFrom_level (split '\n' content) 0
  rw [← parseMarkdown_eq] at hlev
  refine ⟨?_, hlev, ?_, isHeading_iff_shape⟩
  · have := congrArg List.length hlev
    simpa using this
  · intro s hs
    have hmem : s.level ∈ (parseMarkdown content).map Section.level := List.mem_map_of_mem _ hs
    rw [hlev] at hmem
    obtain ⟨line, hline, hl⟩ := List.mem_map.mp hmem
    have hh : isHeading line = true := (List.mem_filter.mp hline).2
    cases hm : headerMatch line with
    | none => simp [isHeading, hm] at hh
    | some ht =>
      obtain ⟨hashes, text⟩ := ht
      obtain ⟨h1, h2, h3⟩ := headerMatch_level hm
      omega

/-! ## C4: line ranges -/

/-- C4: the start lines of the sections are the 0-based numbers of the heading lines, in
order; every section has `startLine ≤ endLine`; each section starts on the line after the
previous one ends; the last section ends on the last line; hence the ranges are pairwise
disjoint and cover every line from the first heading to the end of the input. -/
theorem parseMarkdown_line_ranges (content : Str) :
    (parseMarkdown content).map Section.startLine =
        (((split '\n' content).enum.filter (fun p => isHeading p.2)).map (fun p => (p.1 : Int))) ∧
      (∀ s ∈ parseMarkdown content, s.startLine ≤ s.endLine) ∧
      List.Chain' (fun a b : Section => b.startLine = a.endLine + 1) (parseMarkdown content) ∧
      (∀ s, (parseMarkdown content).getLast? = some s →
        s.endLine = ((split '\n' content).length : Int) - 1) ∧
      List.Pairwise (fun a b : Section => a.endLine < b.startLine) (parseMarkdown content) ∧
      (∀ s0, (parseMarkdown content).head? = some s0 → ∀ j : Int, s0.startLine ≤ j →
        j ≤ ((split '\n' content).length : Int) - 1 →
        ∃ s ∈ parseMarkdown content, s.startLine ≤ j ∧ j ≤ s.endLine) := by
  rw [parseMarkdown_eq]
  refine ⟨sectionsFrom_startLine _ 0, ?_, sectionsFrom_chain _ 0, ?_, sectionsFrom_pairwise _ 0, ?_⟩
  · intro s hs
    exact (sectionsFrom_bounds _ 0 s hs).2.1
  · intro s hs
    have := sectionsFrom_getLast _ 0 s hs
    simpa using this
  · intro s0 hs0 j h1 h2
    have hhead := sectionsFrom_head _ 0 s0 hs0
    exact sectionsFrom_cover _ 0 j (by rw [← hhead]; exact h1) (by simpa using h2)

/-! ## C2 and C7: role views -/

theorem toLowerCase_coordinator : toLowerCase "coordinator".toList = "coordinator".toList := by
  decide

theorem toLowerCase_executor : toLowerCase "executor".toList = "executor".toList := by
  decide

theorem filterByRole_eq (S : List Section) (role : Str) :
    filterByRole S role = S.filter (hasRole (toLowerCase role)) := by
  unfold filterByRole
  congr 1
  funext s
  unfold hasRole
  cases s.roles <;> simp

theorem hasRole_iff (role : Str) (s : Section) :
    hasRole role s = true ↔ ∃ roles, s.roles = some roles ∧ role ∈ roles := by
  unfold hasRole
  cases s.roles <;> simp

theorem getSharedContext_eq (S : List Section) :
    getSharedContext S =
      S.filter (fun s => hasRole "coordinator".toList s && hasRole "executor".toList s) := by
  unfold getSharedContext
  congr 1
  funext s
  unfold hasRole
  cases s.roles <;> simp

/-- C2: `getCoordinatorContext(S)` (respectively `getExecutorContext(S)`) is the sub-list
of `S`, order and multiplicity kept, of exactly the sections whose roles field is present
and contains "coordinator" (respectively "executor"); a section with no roles, or with
neither of the two tags, is in neither view. -/
theorem role_views_are_filters (S : List Section) :
    getCoordinatorContext S = S.filter (hasRole "coordinator".toList) ∧
      getExecutorContext S = S.filter (hasRole "executor".toList) ∧
      (getCoordinatorContext S).Sublist S ∧ (getExecutorContext S).Sublist S ∧
      (∀ (role : Str) (s : Section),
        hasRole role s = true ↔ ∃ roles, s.roles = some roles ∧ role ∈ roles) ∧
      (∀ s ∈ S, s.roles = none → s ∉ getCoordinatorContext S ∧ s ∉ getExecutorContext S) ∧
      (∀ s ∈ S, ∀ roles, s.roles = some roles → "coordinator".toList ∉ roles →
        "executor".toList ∉ roles → s ∉ getCoordinatorContext S ∧ s ∉ getExecutorContext S) := by
  have hc : getCoordinatorContext S = S.filter (hasRole "coordinator".toList) := by
    rw [getCoordinatorContext, filterByRole_eq, toLowerCase_coordinator]
  have he : getExecutorContext S = S.filter (hasRole "executor".toList) := by
    rw [getExecutorContext, filterByRole_eq, toLowerCase_executor]
  refine ⟨hc, he, ?_, ?_, hasRole_iff, ?_, ?_⟩
  · rw [hc]; exact List.filter_sublist S
  · rw [he]; exact List.filter_sublist S
  · intro s _ hr
    rw [hc, he]
    simp [List.mem_filter, hasRole, hr]
  · intro s _ roles hr h1 h2
    rw [hc, he]
    constructor
    · intro hm
      obtain ⟨r, hr', hin⟩ := (hasRole_iff _ _).mp (List.mem_filter.mp hm).2
      rw [hr] at hr'
      cases hr'
      exact h1 hin
    · intro hm
      obtain ⟨r, hr', hin⟩ := (hasRole_iff _ _).mp (List.mem_filter.mp hm).2
      rw [hr] at hr'
      cases hr'
      exact h2 hin

/-- C7: `getSharedContext(S)` is the sub-list of the sections whose roles contain both
"coordinator" and "executor"; each of its sections is in both single-role views, each
section of both views is in it, and it is the executor view of the coordinator view, so
the relative order is the same. -/
theorem shared_view_is_intersection (S : List Section) :
    getSharedContext S =
        S.filter (fun s => hasRole "coordinator".toList s && hasRole "executor".toList s) ∧
      (∀ s ∈ getSharedContext S, s ∈ getCoordinatorContext S ∧ s ∈ getExecutorContext S) ∧
      (∀ s, s ∈ getCoordinatorContext S → s ∈ getExecutorContext S → s ∈ getSharedContext S) ∧
      (getSharedContext S).Sublist (getCoordinatorContext S) ∧
      (getSharedContext S).Sublist (getExecutorContext S) ∧
      getSharedContext S = getExecutorContext (getCoordinatorContext S) := by
  have hc : ∀ T, getCoordinatorContext T = T.filter (hasRole "coordinator".toList) := by
    intro T
    rw [getCoordinatorContext, filterByRole_eq, toLowerCase_coordinator]
  have he : ∀ T, getExecutorContext T = T.filter (hasRole "executor".toList) := by
    intro T
    rw [getExecutorContext, filterByRole_eq, toLowerCase_executor]
  have h1 : getSharedContext S = (S.filter (hasRole "coordinator".toList)).filter
      (hasRole "executor".toList) := by
    rw [getSharedContext_eq, List.filter_filter]
    congr 1
    funext s
    exact Bool.and_comm _ _
  have h2 : getSharedContext S = (S.filter (hasRole "executor".toList)).filter
      (hasRole "coordinator".toList) := by
    rw [getSharedContext_eq, List.filter_filter]
  refine ⟨getSharedContext_eq S, ?_, ?_, ?_, ?_, ?_⟩
  · intro s hs
    rw [getSharedContext_eq, List.mem_filter, Bool.and_eq_true] at hs
    rw [hc, he]
    exact ⟨List.mem_filter.mpr ⟨hs.1, hs.2.1⟩, List.mem_filter.mpr ⟨hs.1, hs.2.2⟩⟩
  · intro s hsc hse
    rw [hc, List.mem_filter] at hsc
    rw [he, List.mem_filter] at hse
    rw [getSharedContext_eq, List.mem_filter, Bool.and_eq_true]
    exact ⟨hsc.1, hsc.2, hse.2⟩
  · rw [h1, hc]; exact List.filter_sublist _
  · rw [h2, he]; exact List.filter_sublist _
  · rw [h1, he, hc]

/-! ## C8: the scenario of the specification -/

/-- C8: the six-line scenario parses to the three sections A, B and C; on that result the
coordinator view is [A, B], the executor view [B], the shared view [B], and
`analyzeContent` counts one unmarked section. -/
theorem scenario_three_sections :
    parseMarkdown scenarioInput = [scenarioA, scenarioB, scenarioC] ∧
      getCoordinatorContext (parseMarkdown scenarioInput) = [scenarioA, scenarioB] ∧
      getExecutorContext (parseMarkdown scenarioInput) = [scenarioB] ∧
      getSharedContext (parseMarkdown scenarioInput) = [scenarioB] ∧
      (analyzeContent (parseMarkdown scenarioInput)).unmarked = 1 := by
  decide

/-! ## C3 and C6: the code at the failing inputs -/

/-- C3, the code at the failing input: for a heading followed by an empty line and the
line `foo`, the section spans the lines 0 to 2 but its content is `foo`, while the lines 1
to 2 joined by a newline are a newline followed by `foo`. -/
theorem parseMarkdown_drops_leading_empty_line :
    parseMarkdown blankFirstInput =
        [{ level := 1, title := "A".toList, content := "foo".toList, startLine := 0,
           endLine := 2, roles := none }] ∧
      join '\n' (((split '\n' blankFirstInput).drop 1).take 2) = "\nfoo".toList := by
  decide

/-- C6, the code at the failing input: a body comment naming the role the heading bracket
already gave leaves that role twice in the section's roles. -/
theorem parseMarkdown_repeats_comment_role :
    parseMarkdown repeatedRoleInput =
      [{ level := 1, title := "A".toList, content := "<!-- role: coordinator -->".toList,
         startLine := 0, endLine := 1,
         roles := some ["coordinator".toList, "coordinator".toList] }] := by
  decide

/-! ## C9 and C10: the cache -/

theorem Cache.get_set_self (c : Cache) (key : Str) (value : CacheEntry) :
    (c.set key value).get key = some value := by
  induction c with
  | nil => simp [Cache.set, Cache.get]
  | cons e rest ih =>
    obtain ⟨k, v⟩ := e
    by_cases hk : k = key
    · simp [Cache.set, Cache.get, hk]
    · simp [Cache.set, Cache.get, hk, ih]

theorem Cache.get_set_other (c : Cache) (key q : Str) (value : CacheEntry) (hq : q ≠ key) :
    (c.set key value).get q = c.get q := by
  induction c with
  | nil => simp [Cache.set, Cache.get, Ne.symm hq]
  | cons e rest ih =>
    obtain ⟨k, v⟩ := e
    by_cases hk : k = key
    · subst hk
      simp [Cache.set, Cache.get, Ne.symm hq]
    · by_cases hkq : k = q
      · subst hkq
        simp [Cache.set, Cache.get, hk]
      · simp [Cache.set, Cache.get, hk, hkq, ih]

theorem Cache.keys_set (c : Cache) (key : Str) (value : CacheEntry) :
    (c.set key value).map Prod.fst =
      if key ∈ c.map Prod.fst then c.map Prod.fst else c.map Prod.fst ++ [key] := by
  induction c with
  | nil => simp [Cache.set]
  | cons e rest ih =>
    obtain ⟨k, v⟩ := e
    by_cases hk : k = key
    · subst hk
      simp only [Cache.set, if_true, List.map_cons, List.mem_cons, true_or]
    · have hk' : ¬ key = k := fun h => hk h.symm
      simp only [Cache.set, hk, if_false, List.map_cons, ih, List.mem_cons, hk', false_or]
      by_cases hmem : key ∈ List.map Prod.fst rest
      · rw [if_pos hmem, if_pos hmem]
      · rw [if_neg hmem, if_neg hmem, List.cons_append]

theorem Cache.WF_set (c : Cache) (key : Str) (value : CacheEntry) (h : c.WF) :
    (c.set key value).WF := by
  unfold Cache.WF at *
  rw [Cache.keys_set]
  split
  · exact h
  · next hk =>
    rw [List.nodup_append]
    refine ⟨h, by simp, ?_⟩
    intro a ha hb
    simp only [List.mem_singleton] at hb
    subst hb
    exact hk ha

theorem Cache.filter_key_of_not_mem (c : Cache) (key : Str)
    (h : key ∉ c.map Prod.fst) : c.filter (fun e => decide (e.1 = key)) = [] := by
  rw [List.filter_eq_nil_iff]
  intro e he hk
  exact h (List.mem_map.mpr ⟨e, he, by simpa using hk⟩)

theorem Cache.count_key_set (c : Cache) (key : Str) (value : CacheEntry) (h : c.WF) :
    ((c.set key value).filter (fun e => decide (e.1 = key))).length = 1 := by
  induction c with
  | nil => simp [Cache.set]
  | cons e rest ih =>
    obtain ⟨k, v⟩ := e
    have hwf : (k :: rest.map Prod.fst).Nodup := h
    rw [List.nodup_cons] at hwf
    by_cases hk : k = key
    · subst hk
      simp only [Cache.set, if_true]
      rw [List.filter_cons_of_pos (by simp), Cache.filter_key_of_not_mem rest k hwf.1]
      rfl
    · simp only [Cache.set, hk, if_false]
      rw [List.filter_cons_of_neg (by simpa using hk)]
      exact ih hwf.2

theorem readFileWithCache_hit {st : Store} {fs : FileSystem} {now : Int} {path : Str}
    {m : Int} {entry : CacheEntry} (hstat : fs.stat path = .ok m)
    (hget : st.cache.get path = some entry)
    (hfresh : entry.lastModified = m ∧ now - entry.cachedAt < st.cacheMaxAge) :
    readFileWithCache st fs now path =
      { result := .ok entry.sections, cache := st.cache, reads := [] } := by
  simp only [readFileWithCache, hstat, hget]
  rw [if_pos hfresh]

theorem readFileWithCache_miss {st : Store} {fs : FileSystem} {now : Int} {path : Str}
    {m : Int} (hstat : fs.stat path = .ok m)
    (hmiss : ¬ ∃ entry, st.cache.get path = some entry ∧ entry.lastModified = m ∧
      now - entry.cachedAt < st.cacheMaxAge) :
    readFileWithCache st fs now path = readAndCache st fs now path m := by
  simp only [readFileWithCache, hstat]
  cases hget : st.cache.get path with
  | none => rfl
  | some entry =>
    have : ¬ (entry.lastModified = m ∧ now - entry.cachedAt < st.cacheMaxAge) :=
      fun h => hmiss ⟨entry, hget, h⟩
    simp only [this, if_false]

theorem readAndCache_reads (st : Store) (fs : FileSystem) (now : Int) (path : Str) (m : Int) :
    (readAndCache st fs now path m).reads = [path] := by
  unfold readAndCache
  cases fs.readFile path <;> rfl

theorem loadFile_reads (st : Store) (fs : FileSystem) (now : Int) (path : Str) :
    (loadFile st fs now path).reads = (readFileWithCache st fs now path).reads := by
  simp only [loadFile]
  split <;> rfl

theorem loadFile_cache (st : Store) (fs : FileSystem) (now : Int) (path : Str) :
    (loadFile st fs now path).cache = (readFileWithCache st fs now path).cache := by
  simp only [loadFile]
  split <;> rfl

theorem loadFile_result_ok {st : Store} {fs : FileSystem} {now : Int} {path : Str}
    {sections : List Section} (h : (readFileWithCache st fs now path).result = .ok sections) :
    (loadFile st fs now path).result = .ok sections := by
  simp only [loadFile, h]

/-- C9: when the stat of the path succeeds with modification time `m`, `loadFile` returns
the cached sections, reads no file content and leaves the cache as it is exactly when the
cache holds an entry for the path with `lastModified = m` and `now - cachedAt` strictly
below `cacheMaxAge`. -/
theorem loadFile_cache_hit_iff (st : Store) (fs : FileSystem) (now : Int) (path : Str) (m : Int)
    (hstat : fs.stat path = .ok m) :
    ((∃ entry, st.cache.get path = some entry ∧
          (loadFile st fs now path).result = .ok entry.sections) ∧
        (loadFile st fs now path).reads = [] ∧ (loadFile st fs now path).cache = st.cache) ↔
      ∃ entry, st.cache.get path = some entry ∧ entry.lastModified = m ∧
        now - entry.cachedAt < st.cacheMaxAge := by
  constructor
  · rintro ⟨-, hreads, -⟩
    by_contra hmiss
    rw [loadFile_reads, readFileWithCache_miss hstat hmiss, readAndCache_reads] at hreads
    simp at hreads
  · rintro ⟨entry, hget, hfresh⟩
    have hrf := readFileWithCache_hit hstat hget hfresh
    refine ⟨⟨entry, hget, loadFile_result_ok (by rw [hrf])⟩, ?_, ?_⟩
    · rw [loadFile_reads, hrf]
    · rw [loadFile_cache, hrf]

/-- C9, at concrete inputs: `a.md` cached at time 100 with the file's modification time, and
loaded at time 200; the load at time 200 reads no content, the load at time 300100, when
the age of the entry equals `cacheMaxAge`, reads the file again. -/
theorem loadFile_cache_hit_iff_witness :
    demoFs.stat "a.md".toList = .ok 7 ∧
      (((∃ entry, demoStore.cache.get "a.md".toList = some entry ∧
            (loadFile demoStore demoFs 200 "a.md".toList).result = .ok entry.sections) ∧
          (loadFile demoStore demoFs 200 "a.md".toList).reads = [] ∧
          (loadFile demoStore demoFs 200 "a.md".toList).cache = demoStore.cache) ↔
        ∃ entry, demoStore.cache.get "a.md".toList = some entry ∧ entry.lastModified = 7 ∧
          200 - entry.cachedAt < demoStore.cacheMaxAge) ∧
      (loadFile demoStore demoFs 200 "a.md".toList).reads = [] ∧
      (loadFile demoStore demoFs 300100 "a.md".toList).reads = ["a.md".toList] :=
  ⟨rfl, loadFile_cache_hit_iff demoStore demoFs 200 "a.md".toList 7 rfl, by decide, by decide⟩

/-- C10: when the stat succeeds with modification time `m`, no cache entry is eligible and
the content read gives `c`, `loadFile` reads the content once and returns
`parseMarkdown(c)`; afterwards the cache maps the path to the one entry
`{filePath, lastModified = m, sections, cachedAt = now}` and every other path to what it was
mapped to before. -/
theorem loadFile_miss_updates_cache (st : Store) (fs : FileSystem) (now : Int) (path : Str)
    (m : Int) (c : Str) (hwf : st.cache.WF) (hstat : fs.stat path = .ok m)
    (hmiss : ¬ ∃ entry, st.cache.get path = some entry ∧ entry.lastModified = m ∧
      now - entry.cachedAt < st.cacheMaxAge)
    (hread : fs.readFile path = .ok c) :
    (loadFile st fs now path).result = .ok (parseMarkdown c) ∧
      (loadFile st fs now path).reads = [path] ∧
      (loadFile st fs now path).cache.get path =
        some { filePath := path, lastModified := m, sections := parseMarkdown c,
               cachedAt := now } ∧
      ((loadFile st fs now path).cache.filter (fun e => decide (e.1 = path))).length = 1 ∧
      (loadFile st fs now path).cache.WF ∧
      (∀ q, q ≠ path → (loadFile st fs now path).cache.get q = st.cache.get q) ∧
      (loadFile st fs now path).cache.map Prod.fst =
        (if path ∈ st.cache.map Prod.fst then st.cache.map Prod.fst
         else st.cache.map Prod.fst ++ [path]) := by
  have hrf : readFileWithCache st fs now path =
      { result := .ok (parseMarkdown c),
        cache := st.cache.set path
          { filePath := path, lastModified := m, sections := parseMarkdown c, cachedAt := now },
        reads := [path] } := by
    rw [readFileWithCache_miss hstat hmiss]
    simp only [readAndCache, hread]
  refine ⟨loadFile_result_ok (by rw [hrf]), by rw [loadFile_reads, hrf], ?_, ?_, ?_, ?_, ?_⟩
  · rw [loadFile_cache, hrf]; exact Cache.get_set_self _ _ _
  · rw [loadFile_cache, hrf]; exact Cache.count_key_set _ _ _ hwf
  · rw [loadFile_cache, hrf]; exact Cache.WF_set _ _ _ hwf
  · intro q hq
    rw [loadFile_cache, hrf]; exact Cache.get_set_other _ _ _ _ hq
  · rw [loadFile_cache, hrf]; exact Cache.keys_set _ _ _

/-- C10, at concrete inputs: `a.md` loaded at time 100 into an empty cache. -/
theorem loadFile_miss_updates_cache_witness :
    (loadFile emptyStore demoFs 100 "a.md".toList).result = .ok (parseMarkdown "# T\nx".toList) ∧
      (loadFile emptyStore demoFs 100 "a.md".toList).reads = ["a.md".toList] ∧
      (loadFile emptyStore demoFs 100 "a.md".toList).cache.get "a.md".toList =
        some { filePath := "a.md".toList, lastModified := 7,
               sections := parseMarkdown "# T\nx".toList, cachedAt := 100 } ∧
      ((loadFile emptyStore demoFs 100 "a.md".toList).cache.filter
        (fun e => decide (e.1 = "a.md".toList))).length = 1 ∧
      (loadFile emptyStore demoFs 100 "a.md".toList).cache.WF ∧
      (∀ q, q ≠ "a.md".toList →
        (loadFile emptyStore demoFs 100 "a.md".toList).cache.get q = emptyStore.cache.get q) ∧
      (loadFile emptyStore demoFs 100 "a.md".toList).cache.map Prod.fst =
        (if "a.md".toList ∈ emptyStore.cache.map Prod.fst then emptyStore.cache.map Prod.fst
         else emptyStore.cache.map Prod.fst ++ ["a.md".toList]) :=
  loadFile_miss_updates_cache emptyStore demoFs 100 "a.md".toList 7 "# T\nx".toList
    List.nodup_nil rfl (by simp [emptyStore, Cache.get]) rfl

/-! ## C5: `extractRoles` -/

theorem mem_uniq (l : List Str) : ∀ x, x ∈ uniq l ↔ x ∈ l := by
  induction l with
  | nil => intro x; simp [uniq]
  | cons r rs ih =>
    intro x
    simp only [uniq, List.mem_cons, List.mem_filter, ih, bne_iff_ne, ne_eq]
    by_cases hx : x = r
    · simp [hx]
    · simp [hx]

theorem nodup_uniq (l : List Str) : (uniq l).Nodup := by
  induction l with
  | nil => simp [uniq]
  | cons r rs ih =>
    simp only [uniq, List.nodup_cons, List.mem_filter, bne_iff_ne, ne_eq, not_true_eq_false,
      and_false, not_false_eq_true, true_and]
    exact ih.filter _

theorem dropWhile_cons_fix {p : Char → Bool} {a : Char} {l : Str}
    (h : (a :: l).dropWhile p = a :: l) : p a = false := by
  by_contra hp
  have hpa : p a = true := by simpa using hp
  rw [List.dropWhile_cons, if_pos hpa] at h
  have := (List.dropWhile_sublist p (l := l)).length_le
  rw [h] at this
  simp at this

theorem dropWhile_reverse_fix (p : Char → Bool) (d : Str) (hd : d.dropWhile p = d) :
    ((d.reverse.dropWhile p).reverse).dropWhile p = (d.reverse.dropWhile p).reverse := by
  have hsplit : d = (d.reverse.dropWhile p).reverse ++ (d.reverse.takeWhile p).reverse := by
    rw [← List.reverse_append, List.takeWhile_append_dropWhile, List.reverse_reverse]
  cases he : (d.reverse.dropWhile p).reverse with
  | nil => rfl
  | cons a r =>
    rw [he] at hsplit
    rw [hsplit, List.cons_append] at hd
    have hpa := dropWhile_cons_fix hd
    rw [List.dropWhile_cons, if_neg (by simp [hpa])]

theorem trim_of_fix (t : Str) (h1 : t.dropWhile isSpace = t)
    (h2 : t.reverse.dropWhile isSpace = t.reverse) : trim t = t := by
  unfold trim
  rw [h1, h2, List.reverse_reverse]

theorem trim_dropWhile (x : Str) : (trim x).dropWhile isSpace = trim x := by
  unfold trim
  exact dropWhile_reverse_fix isSpace _ (List.dropWhile_idempotent _ _)

theorem trim_reverse_dropWhile (x : Str) :
    (trim x).reverse.dropWhile isSpace = (trim x).reverse := by
  unfold trim
  rw [List.reverse_reverse]
  exact List.dropWhile_idempotent _ _

theorem head_of_dropWhile_fix {p : Char → Bool} {t : Str} (h : t.dropWhile p = t) (c : Char)
    (hc : t.head? = some c) : p c = false := by
  cases t with
  | nil => simp at hc
  | cons a r =>
    simp only [List.head?_cons, Option.some.injEq] at hc
    subst hc
    exact dropWhile_cons_fix h

theorem trim_head (x : Str) (c : Char) (hc : (trim x).head? = some c) : isSpace c = false :=
  head_of_dropWhile_fix (trim_dropWhile x) c hc

theorem trim_getLast (x : Str) (c : Char) (hc : (trim x).getLast? = some c) :
    isSpace c = false := by
  apply head_of_dropWhile_fix (trim_reverse_dropWhile x) c
  rw [List.head?_reverse]
  exact hc

/-! ### Lower-casing: idempotence, and no white space from a character that is none -/

set_option maxRecDepth 100000 in
set_option maxHeartbeats 0 in
/-- Every image of the lower-case mapping passes `imageOk`; the table is checked entry by
entry. -/
theorem lowerBlocks_ok : lowerBlocks.all (fun b => b.2.all runOk) = true := by decide

theorem toNat_ofNat_valid (m : Nat) (h : m.isValidChar) : (Char.ofNat m).toNat = m := by
  unfold Char.ofNat
  rw [dif_pos h]
  rfl

theorem nat_beq_false {a b : Nat} : Nat.beq a b = false ↔ a ≠ b := by
  constructor
  · exact Nat.ne_of_beq_eq_false
  · intro h
    cases hb : Nat.beq a b with
    | false => rfl
    | true => exact absurd (Nat.eq_of_beq_eq_true hb) h

theorem lookupLower_some {n m : Nat} :
    ∀ {t : List (Nat × Nat × Nat × Nat)}, lookupLower n t = some m →
      ∃ e ∈ t, e.1 ≤ n ∧ n ≤ e.2.1 ∧ (n - e.1) % e.2.2.1 = 0 ∧ m = n - e.1 + e.2.2.2 := by
  intro t
  induction t with
  | nil => intro h; cases h
  | cons e t ih =>
    obtain ⟨lo, hi, step, image⟩ := e
    intro h
    unfold lookupLower at h
    cases h1 : Nat.blt n lo with
    | true => rw [h1] at h; cases h
    | false =>
      rw [h1, cond_false] at h
      cases h2 : (Nat.ble n hi && Nat.beq ((n - lo) % step) 0) with
      | true =>
        rw [h2, cond_true] at h
        simp only [Bool.and_eq_true, Nat.ble_eq, Nat.beq_eq] at h2
        have hlo : lo ≤ n := by
          have : ¬ n < lo := by
            intro hlt
            have := Nat.blt_eq.mpr hlt
            rw [h1] at this
            cases this
          omega
        exact ⟨(lo, hi, step, image), List.mem_cons_self _ _, hlo, h2.1, h2.2,
          (Option.some.inj h).symm⟩
      | false =>
        rw [h2, cond_false] at h
        obtain ⟨e, he, hfacts⟩ := ih h
        exact ⟨e, List.mem_cons_of_mem _ he, hfacts⟩

theorem lookupBlocks_some {n m : Nat} :
    ∀ {t : List (Nat × List (Nat × Nat × Nat × Nat))}, lookupBlocks n t = some m →
      ∃ b ∈ t, ∃ e ∈ b.2, e.1 ≤ n ∧ n ≤ e.2.1 ∧ (n - e.1) % e.2.2.1 = 0 ∧
        m = n - e.1 + e.2.2.2 := by
  intro t
  induction t with
  | nil => intro h; cases h
  | cons b t ih =>
    obtain ⟨limit, runs⟩ := b
    intro h
    unfold lookupBlocks at h
    cases h1 : Nat.blt n limit with
    | true =>
      rw [h1, cond_true] at h
      obtain ⟨e, he, hfacts⟩ := lookupLower_some h
      exact ⟨(limit, runs), List.mem_cons_self _ _, e, he, hfacts⟩
    | false =>
      rw [h1, cond_false] at h
      obtain ⟨b, hb, hfacts⟩ := ih h
      exact ⟨b, List.mem_cons_of_mem _ hb, hfacts⟩

theorem imageOk_of_lookup {n m : Nat} (h : lookupBlocks n lowerBlocks = some m) :
    imageOk m = true := by
  obtain ⟨b, hb, e, he, hlo, hhi, hmod, hm⟩ := lookupBlocks_some h
  have hrun : runOk e = true :=
    List.all_eq_true.mp (List.all_eq_true.mp lowerBlocks_ok b hb) e he
  obtain ⟨lo, hi, step, image⟩ := e
  simp only [runOk, List.all_eq_true, List.mem_range] at hrun
  simp only at hlo hhi hmod hm
  have hdvd : step ∣ n - lo := Nat.dvd_of_mod_eq_zero hmod
  have hk : (n - lo) / step < (hi - lo) / step + 1 :=
    Nat.lt_succ_of_le (Nat.div_le_div_right (by omega))
  have := hrun ((n - lo) / step) hk
  rw [Nat.div_mul_cancel hdvd, Nat.add_comm] at this
  rw [hm]
  exact this

theorem imageOk_facts {m : Nat} (h : imageOk m = true) :
    Lowered (Char.ofNat m) ∧ isSpace (Char.ofNat m) = false := by
  simp only [imageOk, Bool.and_eq_true, Bool.or_eq_true, Bool.not_eq_true', Nat.blt_eq,
    nat_beq_false, ne_eq, Option.isNone_iff_eq_none, and_assoc] at h
  obtain ⟨hvalid, h20, hA0, h1680, h2000, h2028, h2029, h202F, h205F, h3000, hFEFF, hnone, h130,
    h3A3⟩ := h
  have hv : m.isValidChar := by
    rcases hvalid with h | h
    · exact Or.inl h
    · exact Or.inr h
  have hto := toNat_ofNat_valid m hv
  refine ⟨⟨?_, ?_⟩, ?_⟩
  · unfold lowerChar
    rw [hto, hnone]
    have : Nat.beq m 0x130 = false := nat_beq_false.mpr h130
    rw [this, cond_false]
  · rw [hto]; exact h3A3
  · simp only [isSpace, isLineTerminator, hto, Bool.or_eq_false_iff, beq_eq_false_iff_ne, ne_eq,
      Bool.and_eq_false_imp, decide_eq_true_eq, decide_eq_false_iff_not]
    omega

theorem lowerChar_cases (c : Char) :
    (c.toNat = 0x130 ∧ lowerChar c = ['i', Char.ofNat 0x307]) ∨
      (∃ m, lookupBlocks c.toNat lowerBlocks = some m ∧ lowerChar c = [Char.ofNat m]) ∨
      (c.toNat ≠ 0x130 ∧ lookupBlocks c.toNat lowerBlocks = none ∧ lowerChar c = [c]) := by
  unfold lowerChar
  cases h1 : Nat.beq c.toNat 0x130 with
  | true => exact Or.inl ⟨Nat.eq_of_beq_eq_true h1, rfl⟩
  | false =>
    right
    rw [cond_false]
    cases h2 : lookupBlocks c.toNat lowerBlocks with
    | some m => exact Or.inl ⟨m, rfl, rfl⟩
    | none => exact Or.inr ⟨Nat.ne_of_beq_eq_false h1, rfl, rfl⟩

theorem lowerChar_ne_nil (c : Char) : lowerChar c ≠ [] := by
  rcases lowerChar_cases c with ⟨-, h⟩ | ⟨m, -, h⟩ | ⟨-, -, h⟩ <;> rw [h] <;> simp

/-- Every character of a lower-case mapping is left as it is by the lower-casing, and it is
white space only when it is the mapped character itself. -/
theorem lowerChar_spec (c d : Char) (hd : d ∈ lowerChar c) (hc : c.toNat ≠ 0x3A3) :
    Lowered d ∧ (isSpace c = false → isSpace d = false) := by
  rcases lowerChar_cases c with ⟨-, h⟩ | ⟨m, hm, h⟩ | ⟨-, -, h⟩
  · rw [h] at hd
    have h1 : Lowered 'i' ∧ isSpace 'i' = false := ⟨⟨by decide, by decide⟩, by decide⟩
    have h2 : Lowered (Char.ofNat 0x307) ∧ isSpace (Char.ofNat 0x307) = false :=
      ⟨⟨by decide, by decide⟩, by decide⟩
    simp only [List.mem_cons, List.mem_singleton, List.not_mem_nil, or_false] at hd
    rcases hd with rfl | rfl
    · exact ⟨h1.1, fun _ => h1.2⟩
    · exact ⟨h2.1, fun _ => h2.2⟩
  · rw [h, List.mem_singleton] at hd
    subst hd
    have := imageOk_facts (imageOk_of_lookup hm)
    exact ⟨this.1, fun _ => this.2⟩
  · rw [h, List.mem_singleton] at hd
    subst hd
    exact ⟨⟨h, hc⟩, fun hs => hs⟩

theorem lowerFrom_cons (before : Str) (c : Char) (cs : Str) :
    lowerFrom before (c :: cs) =
      (bif Nat.beq c.toNat 0x3A3 then (bif isFinalSigma before cs then ['ς'] else ['σ'])
        else lowerChar c) ++ lowerFrom (c :: before) cs := rfl

/-- The characters the lower-casing writes for one character of the input. -/
theorem lowerPiece_spec (before : Str) (c : Char) (cs : Str) :
    (bif Nat.beq c.toNat 0x3A3 then (bif isFinalSigma before cs then ['ς'] else ['σ'])
        else lowerChar c) ≠ [] ∧
      ∀ d ∈ (bif Nat.beq c.toNat 0x3A3 then (bif isFinalSigma before cs then ['ς'] else ['σ'])
        else lowerChar c), Lowered d ∧ (isSpace c = false → isSpace d = false) := by
  have hs1 : Lowered 'ς' ∧ isSpace 'ς' = false := ⟨⟨by decide, by decide⟩, by decide⟩
  have hs2 : Lowered 'σ' ∧ isSpace 'σ' = false := ⟨⟨by decide, by decide⟩, by decide⟩
  cases h1 : Nat.beq c.toNat 0x3A3 with
  | true =>
    rw [cond_true]
    cases isFinalSigma before cs with
    | true =>
      rw [cond_true]
      refine ⟨by simp, ?_⟩
      intro d hd
      rw [List.mem_singleton] at hd
      subst hd
      exact ⟨hs1.1, fun _ => hs1.2⟩
    | false =>
      rw [cond_false]
      refine ⟨by simp, ?_⟩
      intro d hd
      rw [List.mem_singleton] at hd
      subst hd
      exact ⟨hs2.1, fun _ => hs2.2⟩
  | false =>
    rw [cond_false]
    exact ⟨lowerChar_ne_nil c, fun d hd => lowerChar_spec c d hd (Nat.ne_of_beq_eq_false h1)⟩

theorem lowerFrom_lowered (s : Str) : ∀ before : Str, ∀ d ∈ lowerFrom before s, Lowered d := by
  induction s with
  | nil => intro before d hd; cases hd
  | cons c cs ih =>
    intro before d hd
    rw [lowerFrom_cons, List.mem_append] at hd
    rcases hd with hd | hd
    · exact ((lowerPiece_spec before c cs).2 d hd).1
    · exact ih (c :: before) d hd

theorem lowerFrom_of_lowered (s : Str) :
    ∀ before : Str, (∀ d ∈ s, Lowered d) → lowerFrom before s = s := by
  induction s with
  | nil => intro before _; rfl
  | cons c cs ih =>
    intro before h
    have hc := h c (List.mem_cons_self _ _)
    have hne : Nat.beq c.toNat 0x3A3 = false := nat_beq_false.mpr hc.2
    rw [lowerFrom_cons, hne, cond_false, hc.1, ih (c :: before)
      (fun d hd => h d (List.mem_cons_of_mem _ hd))]
    rfl

theorem toLowerCase_idem (s : Str) : toLowerCase (toLowerCase s) = toLowerCase s :=
  lowerFrom_of_lowered _ [] (lowerFrom_lowered s [])

theorem lowerFrom_eq_nil (s before : Str) : lowerFrom before s = [] ↔ s = [] := by
  cases s with
  | nil => exact Iff.intro (fun _ => rfl) (fun _ => rfl)
  | cons c cs =>
    rw [lowerFrom_cons]
    constructor
    · intro h
      exact absurd (List.append_eq_nil.mp h).1 (lowerPiece_spec before c cs).1
    · intro h; cases h

theorem lowerFrom_head (before : Str) (c : Char) (cs : Str) (hc : isSpace c = false) :
    (lowerFrom before (c :: cs)).dropWhile isSpace = lowerFrom before (c :: cs) := by
  rw [lowerFrom_cons]
  obtain ⟨hne, hall⟩ := lowerPiece_spec before c cs
  generalize (bif Nat.beq c.toNat 0x3A3 then (bif isFinalSigma before cs then ['ς'] else ['σ'])
    else lowerChar c) = piece at hne hall
  cases piece with
  | nil => exact absurd rfl hne
  | cons x xs =>
    have hx : isSpace x = false := (hall x (List.mem_cons_self _ _)).2 hc
    rw [List.cons_append, List.dropWhile_cons, hx]
    rfl

theorem lowerFrom_getLast (s : Str) :
    ∀ (before : Str) (c : Char), s.getLast? = some c → isSpace c = false →
      ∃ x, (lowerFrom before s).getLast? = some x ∧ isSpace x = false := by
  induction s with
  | nil => intro before c h; cases h
  | cons a cs ih =>
    intro before c hlast hc
    rw [lowerFrom_cons]
    obtain ⟨hne, hall⟩ := lowerPiece_spec before a cs
    generalize (bif Nat.beq a.toNat 0x3A3 then (bif isFinalSigma before cs then ['ς'] else ['σ'])
      else lowerChar a) = piece at hne hall
    cases cs with
    | nil =>
      simp only [List.getLast?_singleton, Option.some.injEq] at hlast
      subst hlast
      have hl : lowerFrom (a :: before) [] = [] := rfl
      rw [hl, List.append_nil]
      cases hp : piece.getLast? with
      | none => exact absurd (List.getLast?_eq_none_iff.mp hp) hne
      | some x => exact ⟨x, rfl, (hall x (List.mem_of_getLast?_eq_some hp)).2 hc⟩
    | cons b bs =>
      have hlast2 : (b :: bs).getLast? = some c := by
        rw [List.getLast?_cons_cons] at hlast
        exact hlast
      obtain ⟨x, hx, hsx⟩ := ih (a :: before) c hlast2 hc
      refine ⟨x, ?_, hsx⟩
      have hne2 : lowerFrom (a :: before) (b :: bs) ≠ [] := by
        intro h
        have := (lowerFrom_eq_nil (b :: bs) (a :: before)).mp h
        cases this
      rw [List.getLast?_append_of_ne_nil _ hne2]
      exact hx

theorem trim_toLowerCase_trim (x : Str) :
    trim (toLowerCase (trim x)) = toLowerCase (trim x) := by
  apply trim_of_fix
  · cases h : trim x with
    | nil => rfl
    | cons c cs =>
      have hc : isSpace c = false := trim_head x c (by rw [h]; rfl)
      exact lowerFrom_head [] c cs hc
  · cases hl : (trim x).getLast? with
    | none =>
      have : trim x = [] := List.getLast?_eq_none_iff.mp hl
      rw [this]
      rfl
    | some c =>
      obtain ⟨y, hy, hsy⟩ := lowerFrom_getLast (trim x) [] c hl (trim_getLast x c hl)
      have hy2 : (toLowerCase (trim x)).reverse.head? = some y := by
        rw [List.head?_reverse]
        exact hy
      cases hr : (toLowerCase (trim x)).reverse with
      | nil => rw [hr] at hy2; cases hy2
      | cons z zs =>
        rw [hr] at hy2
        simp only [List.head?_cons, Option.some.injEq] at hy2
        subst hy2
        rw [List.dropWhile_cons, hsy]
        rfl

theorem mem_splitRoles (roleList r : Str) :
    r ∈ splitRoles roleList ↔
      r ≠ [] ∧ ∃ name ∈ split ',' roleList, r = toLowerCase (trim name) := by
  unfold splitRoles
  simp only [List.mem_filter, List.mem_map, gt_iff_lt, decide_eq_true_eq, List.length_pos, ne_eq]
  constructor
  · rintro ⟨⟨name, hn, rfl⟩, hne⟩
    exact ⟨hne, name, hn, rfl⟩
  · rintro ⟨hne, name, hn, rfl⟩
    exact ⟨⟨name, hn, rfl⟩, hne⟩

theorem mem_extractRoles (text r : Str) :
    r ∈ extractRoles text ↔
      ∃ m ∈ matchAll roleBracketRe text, r ∈ splitRoles (roleListOf m) := by
  unfold extractRoles
  by_cases he : (matchAll roleBracketRe text).isEmpty = true
  · have : matchAll roleBracketRe text = [] := List.isEmpty_iff.mp he
    simp [this]
  · simp only [he, Bool.false_eq_true, if_false, mem_uniq, List.mem_flatMap]

/-- C5: the roles `extractRoles` returns are the names listed, comma-separated, in the
brackets the role pattern finds in the heading text, each trimmed and lower-cased (by
`toLowerCase`, the Unicode conversion, which a lower-cased name is a fixed point of); no
entry is empty and no name occurs twice; `[role: Coordinator]` and
`[ROLES: coordinator, coordinator]` both give the single role "coordinator", and the
names `É` and `é` give the single role `é`. -/
theorem extractRoles_names (text : Str) :
    (extractRoles text).Nodup ∧
      (∀ r ∈ extractRoles text, r ≠ [] ∧ trim r = r ∧ toLowerCase r = r) ∧
      (∀ r, r ∈ extractRoles text ↔
        r ≠ [] ∧ ∃ m ∈ matchAll roleBracketRe text, ∃ name ∈ split ',' (roleListOf m),
          r = toLowerCase (trim name)) ∧
      extractRoles "[role: Coordinator]".toList = ["coordinator".toList] ∧
      extractRoles "[ROLES: coordinator, coordinator]".toList = ["coordinator".toList] ∧
      extractRoles "[roles: É, é]".toList = ["é".toList] := by
  have hmem : ∀ r, r ∈ extractRoles text ↔
      r ≠ [] ∧ ∃ m ∈ matchAll roleBracketRe text, ∃ name ∈ split ',' (roleListOf m),
        r = toLowerCase (trim name) := by
    intro r
    rw [mem_extractRoles]
    constructor
    · rintro ⟨m, hm, hr⟩
      obtain ⟨hne, name, hn, rfl⟩ := (mem_splitRoles _ _).mp hr
      exact ⟨hne, m, hm, name, hn, rfl⟩
    · rintro ⟨hne, m, hm, name, hn, rfl⟩
      exact ⟨m, hm, (mem_splitRoles _ _).mpr ⟨hne, name, hn, rfl⟩⟩
  refine ⟨?_, ?_, hmem, by decide, by decide, by decide⟩
  · simp only [extractRoles]
    split
    · exact List.nodup_nil
    · exact nodup_uniq _
  · intro r hr
    obtain ⟨hne, m, -, name, -, rfl⟩ := (hmem r).mp hr
    exact ⟨hne, trim_toLowerCase_trim name, toLowerCase_idem _⟩

/-! ## C11: two loads in a row -/

theorem readFileWithCache_ok_entry {st : Store} {fs : FileSystem} {now : Int} {path : Str}
    {m : Int} {secs : List Section} (hstat : fs.stat path = .ok m)
    (hok : (readFileWithCache st fs now path).result = .ok secs) :
    ∃ e1, (readFileWithCache st fs now path).cache.get path = some e1 ∧ e1.lastModified = m ∧
      e1.sections = secs ∧
      ((readFileWithCache st fs now path).reads = [path] → e1.cachedAt = now) ∧
      ((readFileWithCache st fs now path).reads = [] →
        st.cache.get path = some e1 ∧ now - e1.cachedAt < st.cacheMaxAge) := by
  by_cases hhit : ∃ entry, st.cache.get path = some entry ∧ entry.lastModified = m ∧
      now - entry.cachedAt < st.cacheMaxAge
  · obtain ⟨entry, hget, hfresh⟩ := hhit
    have hrf := readFileWithCache_hit hstat hget hfresh
    rw [hrf] at hok ⊢
    simp only [Except.ok.injEq] at hok
    exact ⟨entry, hget, hfresh.1, hok, fun h => by simp at h, fun _ => ⟨hget, hfresh.2⟩⟩
  · have hrf := readFileWithCache_miss hstat hhit
    rw [hrf] at hok ⊢
    unfold readAndCache at hok ⊢
    cases hread : fs.readFile path with
    | error e => simp [hread] at hok
    | ok c =>
      simp only [hread, Except.ok.injEq] at hok ⊢
      subst hok
      exact ⟨_, Cache.get_set_self _ _ _, rfl, rfl, fun _ => rfl, fun h => by simp at h⟩

theorem loadFile_reads_of_stale {st : Store} {fs : FileSystem} {now : Int} {path : Str}
    {m : Int} (hstat : fs.stat path = .ok m)
    (hstale : ∀ entry, st.cache.get path = some entry →
      entry.lastModified ≠ m ∨ st.cacheMaxAge ≤ now - entry.cachedAt) :
    (loadFile st fs now path).reads = [path] ∧
      ∀ c, fs.readFile path = .ok c → (loadFile st fs now path).result = .ok (parseMarkdown c) := by
  have hmiss : ¬ ∃ entry, st.cache.get path = some entry ∧ entry.lastModified = m ∧
      now - entry.cachedAt < st.cacheMaxAge := by
    rintro ⟨entry, hget, h1, h2⟩
    rcases hstale entry hget with h | h
    · exact h h1
    · omega
  have hrf := readFileWithCache_miss hstat hmiss
  refine ⟨by rw [loadFile_reads, hrf, readAndCache_reads], ?_⟩
  intro c hread
  apply loadFile_result_ok
  rw [hrf]
  simp only [readAndCache, hread]

/-- C11, as stated, fails: a store constructed with `cacheMaxAge: 1000` loads `a.md` at
time 0; the load at time 900 succeeds from the cache; the next load at time 1100, with the
same modification time and 200 ms after the previous one, reads the file content again,
because the age of an entry is counted from the load that read the file. -/
theorem loadFile_second_call_reads_again :
    demoFs.stat "a.md".toList = .ok 7 ∧
      shortLivedLoaded.cacheMaxAge = 1000 ∧
      (loadFile shortLivedLoaded demoFs 900 "a.md".toList).result =
        .ok (parseMarkdown "# T\nx".toList) ∧
      (loadFile shortLivedLoaded demoFs 900 "a.md".toList).reads = [] ∧
      (0 : Int) ≤ 1100 - 900 ∧ (1100 : Int) - 900 < shortLivedLoaded.cacheMaxAge ∧
      (loadFile
        (shortLivedLoaded.withCache (loadFile shortLivedLoaded demoFs 900 "a.md".toList).cache)
        demoFs 1100 "a.md".toList).reads = ["a.md".toList] :=
  ⟨rfl, by decide, rfl, by decide, by decide, by decide, by decide⟩

/-- C11, amended: let a load of `p` at time `t0` succeed on a file with modification time
`m`.  Then the cache holds an entry for `p` with that modification time and the returned
sections, cached at `t0` when this load read the file and at the earlier time it was cached
when this load was a cache hit.  With the modification time unchanged, a second load at
time `t1` returns the same sections, reads no content and leaves the cache as it is when
`t1 - cachedAt < cacheMaxAge`; it reads and parses the content again when the modification
time has changed or `t1 - cachedAt` has reached `cacheMaxAge`, for example after
`setCacheMaxAge(1000)` and 1100 ms. -/
theorem loadFile_second_call (st : Store) (fs0 fs1 : FileSystem) (t0 t1 : Int) (p : Str)
    (m : Int) (secs : List Section) (hstat0 : fs0.stat p = .ok m)
    (hfirst : (readFileWithCache st fs0 t0 p).result = .ok secs) :
    (loadFile st fs0 t0 p).result = .ok secs ∧
    ∃ e1, (loadFile st fs0 t0 p).cache.get p = some e1 ∧ e1.lastModified = m ∧
      e1.sections = secs ∧
      ((loadFile st fs0 t0 p).reads = [p] → e1.cachedAt = t0) ∧
      ((loadFile st fs0 t0 p).reads = [] → st.cache.get p = some e1) ∧
      (fs1.stat p = .ok m → t1 - e1.cachedAt < st.cacheMaxAge →
        (loadFile (st.withCache (loadFile st fs0 t0 p).cache) fs1 t1 p).result = .ok secs ∧
        (loadFile (st.withCache (loadFile st fs0 t0 p).cache) fs1 t1 p).reads = [] ∧
        (loadFile (st.withCache (loadFile st fs0 t0 p).cache) fs1 t1 p).cache =
          (loadFile st fs0 t0 p).cache) ∧
      (∀ m', fs1.stat p = .ok m' → (m' ≠ m ∨ st.cacheMaxAge ≤ t1 - e1.cachedAt) →
        (loadFile (st.withCache (loadFile st fs0 t0 p).cache) fs1 t1 p).reads = [p] ∧
        ∀ c, fs1.readFile p = .ok c →
          (loadFile (st.withCache (loadFile st fs0 t0 p).cache) fs1 t1 p).result =
            .ok (parseMarkdown c)) ∧
      (fs1.stat p = .ok m → 1100 ≤ t1 - e1.cachedAt →
        (loadFile (setCacheMaxAge (st.withCache (loadFile st fs0 t0 p).cache) 1000)
          fs1 t1 p).reads = [p]) := by
  obtain ⟨e1, hget, hm, hsecs, hread, hhit⟩ := readFileWithCache_ok_entry hstat0 hfirst
  refine ⟨loadFile_result_ok hfirst, e1, by rw [loadFile_cache]; exact hget, hm, hsecs,
    by rw [loadFile_reads]; exact hread, by rw [loadFile_reads]; exact fun h => (hhit h).1,
    ?_, ?_, ?_⟩
  · intro hstat1 hage
    rw [loadFile_cache st fs0 t0 p]
    have hrf : readFileWithCache (st.withCache (readFileWithCache st fs0 t0 p).cache) fs1 t1 p =
        { result := .ok e1.sections, cache := (readFileWithCache st fs0 t0 p).cache,
          reads := [] } :=
      @readFileWithCache_hit (st.withCache (readFileWithCache st fs0 t0 p).cache) fs1 t1 p m e1
        hstat1 hget ⟨hm, hage⟩
    refine ⟨loadFile_result_ok (by rw [hrf, hsecs]), by rw [loadFile_reads, hrf],
      by rw [loadFile_cache, hrf]⟩
  · intro m' hstat1 hchg
    rw [loadFile_cache st fs0 t0 p]
    apply @loadFile_reads_of_stale (st.withCache (readFileWithCache st fs0 t0 p).cache) fs1 t1 p
      m' hstat1
    intro entry hentry
    have : entry = e1 := by
      have h := hentry.symm.trans hget
      exact Option.some.inj h
    subst this
    rcases hchg with h | h
    · left; rw [hm]; exact fun h' => h h'.symm
    · right; exact h
  · intro hstat1 hage
    rw [loadFile_cache st fs0 t0 p]
    refine (@loadFile_reads_of_stale
      (setCacheMaxAge (st.withCache (readFileWithCache st fs0 t0 p).cache) 1000) fs1 t1 p m
      hstat1 ?_).1
    intro entry hentry
    have : entry = e1 := by
      have h := hentry.symm.trans hget
      exact Option.some.inj h
    subst this
    right
    show (1000 : Int) ≤ t1 - entry.cachedAt
    omega

/-- C11, at concrete inputs: `a.md` loaded into an empty cache at time 100 and again at
time 200. -/
theorem loadFile_second_call_witness :
    (loadFile emptyStore demoFs 100 "a.md".toList).result = .ok (parseMarkdown "# T\nx".toList) ∧
    ∃ e1, (loadFile emptyStore demoFs 100 "a.md".toList).cache.get "a.md".toList = some e1 ∧
      e1.lastModified = 7 ∧ e1.sections = parseMarkdown "# T\nx".toList ∧
      ((loadFile emptyStore demoFs 100 "a.md".toList).reads = ["a.md".toList] →
        e1.cachedAt = 100) ∧
      ((loadFile emptyStore demoFs 100 "a.md".toList).reads = [] →
        emptyStore.cache.get "a.md".toList = some e1) ∧
      (demoFs.stat "a.md".toList = .ok 7 → 200 - e1.cachedAt < emptyStore.cacheMaxAge →
        (loadFile (emptyStore.withCache (loadFile emptyStore demoFs 100 "a.md".toList).cache)
          demoFs 200 "a.md".toList).result = .ok (parseMarkdown "# T\nx".toList) ∧
        (loadFile (emptyStore.withCache (loadFile emptyStore demoFs 100 "a.md".toList).cache)
          demoFs 200 "a.md".toList).reads = [] ∧
        (loadFile (emptyStore.withCache (loadFile emptyStore demoFs 100 "a.md".toList).cache)
          demoFs 200 "a.md".toList).cache =
          (loadFile emptyStore demoFs 100 "a.md".toList).cache) ∧
      (∀ m', demoFs.stat "a.md".toList = .ok m' →
        (m' ≠ 7 ∨ emptyStore.cacheMaxAge ≤ 200 - e1.cachedAt) →
        (loadFile (emptyStore.withCache (loadFile emptyStore demoFs 100 "a.md".toList).cache)
          demoFs 200 "a.md".toList).reads = ["a.md".toList] ∧
        ∀ c, demoFs.readFile "a.md".toList = .ok c →
          (loadFile (emptyStore.withCache (loadFile emptyStore demoFs 100 "a.md".toList).cache)
            demoFs 200 "a.md".toList).result = .ok (parseMarkdown c)) ∧
      (demoFs.stat "a.md".toList = .ok 7 → 1100 ≤ 200 - e1.cachedAt →
        (loadFile (setCacheMaxAge
          (emptyStore.withCache (loadFile emptyStore demoFs 100 "a.md".toList).cache) 1000)
          demoFs 200 "a.md".toList).reads = ["a.md".toList]) :=
  loadFile_second_call emptyStore demoFs demoFs 100 200 "a.md".toList 7
    (parseMarkdown "# T\nx".toList) rfl rfl

/-! ## C12: errors of a single-file load -/

theorem readFileWithCache_error {st : Store} {fs : FileSystem} {now : Int} {path : Str}
    {e : JSError}
    (hfail : fs.stat path = .error e ∨
      (path ∈ (readFileWithCache st fs now path).reads ∧ fs.readFile path = .error e)) :
    (readFileWithCache st fs now path).result = .error e := by
  rcases hfail with hstat | ⟨hreads, hread⟩
  · simp only [readFileWithCache, hstat]
  · cases hstat : fs.stat path with
    | error e' => simp [readFileWithCache, hstat] at hreads
    | ok m =>
      by_cases hhit : ∃ entry, st.cache.get path = some entry ∧ entry.lastModified = m ∧
          now - entry.cachedAt < st.cacheMaxAge
      · obtain ⟨entry, hget, hfresh⟩ := hhit
        rw [readFileWithCache_hit hstat hget hfresh] at hreads
        simp at hreads
      · rw [readFileWithCache_miss hstat hhit]
        simp only [readAndCache, hread]

/-- C12: when the stat of the path fails with the error `e`, or the content of the path is
read and that read fails with `e`, `loadFile` fails with `e` in a store whose
`silentErrors` is false and returns the empty list in a store whose `silentErrors` is
true; the constructor gives `silentErrors = false` when the option is unset or false, and
true when it is true. -/
theorem loadFile_error_handling (st : Store) (fs : FileSystem) (now : Int) (path : Str)
    (e : JSError)
    (hfail : fs.stat path = .error e ∨
      (path ∈ (loadFile st fs now path).reads ∧ fs.readFile path = .error e)) :
    (st.silentErrors = false → (loadFile st fs now path).result = .error e) ∧
      (st.silentErrors = true → (loadFile st fs now path).result = .ok []) ∧
      (∀ o : Options, o.silentErrors = none ∨ o.silentErrors = some false →
        (construct o).silentErrors = false) ∧
      (∀ o : Options, o.silentErrors = some true → (construct o).silentErrors = true) := by
  rw [loadFile_reads] at hfail
  have herr := readFileWithCache_error hfail
  refine ⟨?_, ?_, ?_, ?_⟩
  · intro hs
    simp only [loadFile, herr, handleError, hs, Bool.false_eq_true, if_false]
  · intro hs
    simp only [loadFile, herr, handleError, hs, if_true]
  · rintro o (h | h) <;> simp [construct, h]
  · intro o h
    simp [construct, h]

/-- C12, at concrete inputs: the path `missing.md` does not exist in `demoFs`. -/
theorem loadFile_error_handling_witness :
    (emptyStore.silentErrors = false →
        (loadFile emptyStore demoFs 0 "missing.md".toList).result = .error enoent) ∧
      (emptyStore.silentErrors = true →
        (loadFile emptyStore demoFs 0 "missing.md".toList).result = .ok []) ∧
      (∀ o : Options, o.silentErrors = none ∨ o.silentErrors = some false →
        (construct o).silentErrors = false) ∧
      (∀ o : Options, o.silentErrors = some true → (construct o).silentErrors = true) :=
  loadFile_error_handling emptyStore demoFs 0 "missing.md".toList enoent (Or.inl rfl)

/-! ## C13: `mergeContext` -/

theorem mergeContext_cons (file : FileEntry) (files : List FileEntry) :
    mergeContext (file :: files) =
      fileSeparator file.fileName :: (file.sections.map indentSection ++ mergeContext files) := by
  simp [mergeContext]

theorem mergeContext_length (files : List FileEntry) :
    (mergeContext files).length =
      files.length + (files.map (fun f => f.sections.length)).sum := by
  induction files with
  | nil => rfl
  | cons file files ih =>
    rw [mergeContext_cons]
    simp only [List.length_cons, List.length_append, List.length_map, ih, List.map_cons,
      List.sum_cons]
    omega

/-- C13: `mergeContext(files)` is the concatenation, in file order, of one block per file:
the separator section (level 1, `isFileSeparator` true, `fileName`, title and content made
from the file name, no roles, lines 0 to 0), then the sections of the file in their order,
each with every field kept but the level, which is one more; the result has as many
sections as there are files and input sections together. -/
theorem mergeContext_blocks (files : List FileEntry) :
    mergeContext files =
        (files.map (fun f => fileSeparator f.fileName :: f.sections.map indentSection)).flatten ∧
      (mergeContext files).length =
        files.length + (files.map (fun f => f.sections.length)).sum ∧
      (∀ name : Str,
        (fileSeparator name).level = 1 ∧ (fileSeparator name).isFileSeparator = true ∧
        (fileSeparator name).fileName = some name ∧
        (fileSeparator name).title = "📄 ".toList ++ name ∧
        (fileSeparator name).content = "Contents from ".toList ++ name ∧
        (fileSeparator name).roles = none ∧
        (fileSeparator name).startLine = 0 ∧ (fileSeparator name).endLine = 0) ∧
      (∀ s : Section,
        (indentSection s).level = s.level + 1 ∧ (indentSection s).title = s.title ∧
        (indentSection s).content = s.content ∧ (indentSection s).startLine = s.startLine ∧
        (indentSection s).endLine = s.endLine ∧ (indentSection s).roles = s.roles ∧
        (indentSection s).fileName = s.fileName ∧
        (indentSection s).isFileSeparator = s.isFileSeparator) ∧
      mergeContext [demoFileOne, demoFileTwo] =
        [fileSeparator "one.md".toList, { scenarioA with level := 2 },
         { scenarioB with level := 3 }, fileSeparator "two.md".toList,
         { scenarioC with level := 2 }] := by
  refine ⟨?_, mergeContext_length files, ?_, ?_, by decide⟩
  · simp [mergeContext, List.flatMap]
  · intro name
    exact ⟨rfl, rfl, rfl, rfl, rfl, rfl, rfl, rfl⟩
  · intro s
    exact ⟨rfl, rfl, rfl, rfl, rfl, rfl, rfl, rfl⟩

/-! ## C15 and C16: `analyzeContent` -/

/-- C15: `analyzeContent(S)` reports the length of `S`, the lengths of the three views and
the number of sections without roles; for the empty list the five counts are 0 (and the
call returns: the model is a total function). -/
theorem analyzeContent_counts (S : List Section) :
    (analyzeContent S).total = S.length ∧
      (analyzeContent S).coordinator = (getCoordinatorContext S).length ∧
      (analyzeContent S).executor = (getExecutorContext S).length ∧
      (analyzeContent S).shared = (getSharedContext S).length ∧
      (analyzeContent S).unmarked = (S.filter (fun s => decide (s.roles = none))).length ∧
      (analyzeContent []).total = 0 ∧ (analyzeContent []).coordinator = 0 ∧
      (analyzeContent []).executor = 0 ∧ (analyzeContent []).shared = 0 ∧
      (analyzeContent []).unmarked = 0 := by
  refine ⟨rfl, rfl, rfl, rfl, ?_, rfl, rfl, rfl, rfl, rfl⟩
  simp only [analyzeContent]
  congr 2
  funext s
  cases s.roles <;> simp

/-- C16, the code at the failing input: for the empty list the total is 0, the quotient
`0 / 0` is computed without a guard, and every percentage is `NaN`, not 0. -/
theorem analyzeContent_empty_percentages_nan :
    (analyzeContent []).total = 0 ∧
      (analyzeContent []).percentageCoordinator = .nan ∧
      (analyzeContent []).percentageExecutor = .nan ∧
      (analyzeContent []).percentageShared = .nan ∧
      (analyzeContent []).percentageUnmarked = .nan := by
  decide

/-! ## C14: directory load -/

theorem readFileWithCache_ok_of_readable {st : Store} {fs : FileSystem} {now : Int}
    {path : Str} {m : Int} {c : Str} (hstat : fs.stat path = .ok m)
    (hread : fs.readFile path = .ok c) :
    ∃ secs, (readFileWithCache st fs now path).result = .ok secs := by
  by_cases hhit : ∃ entry, st.cache.get path = some entry ∧ entry.lastModified = m ∧
      now - entry.cachedAt < st.cacheMaxAge
  · obtain ⟨entry, hget, hfresh⟩ := hhit
    exact ⟨entry.sections, by rw [readFileWithCache_hit hstat hget hfresh]⟩
  · exact ⟨parseMarkdown c, by rw [readFileWithCache_miss hstat hhit]; simp only [readAndCache, hread]⟩

theorem readFileWithCache_reads_subset (st : Store) (fs : FileSystem) (now : Int) (path : Str) :
    ∀ p ∈ (readFileWithCache st fs now path).reads, p = path := by
  intro p hp
  cases hstat : fs.stat path with
  | error e => simp [readFileWithCache, hstat] at hp
  | ok m =>
    by_cases hhit : ∃ entry, st.cache.get path = some entry ∧ entry.lastModified = m ∧
        now - entry.cachedAt < st.cacheMaxAge
    · obtain ⟨entry, hget, hfresh⟩ := hhit
      rw [readFileWithCache_hit hstat hget hfresh] at hp
      simp at hp
    · rw [readFileWithCache_miss hstat hhit, readAndCache_reads] at hp
      simpa using hp

theorem pick_cons (file : Str) (files : List Str) (ok : Bool) (mask : List Bool) (b : Bool) :
    pick (file :: files) (ok :: mask) b =
      if ok = b then file :: pick files mask b else pick files mask b := by
  simp only [pick, List.zip_cons_cons, List.filter_cons, beq_iff_eq]
  split <;> rfl

theorem dirStep_flag (st : Store) (fs : FileSystem) (dir : Directory) (dirPath : Str)
    (now : Int) (ds : DirState) (file : Str) :
    ∃ ok : Bool, LoadFlag fs (dir.join dirPath file) ok ∧
      (dirStep st fs dir dirPath now ds file).results.map FileEntry.fileName =
        ds.results.map FileEntry.fileName ++ (if ok = true then [file] else []) ∧
      (dirStep st fs dir dirPath now ds file).failedFiles =
        ds.failedFiles ++ (if ok = false then [file] else []) ∧
      ((∀ entry ∈ ds.results, ∀ s ∈ entry.sections, s.fileName = some entry.fileName) →
        ∀ entry ∈ (dirStep st fs dir dirPath now ds file).results,
          ∀ s ∈ entry.sections, s.fileName = some entry.fileName) ∧
      (∀ p ∈ (dirStep st fs dir dirPath now ds file).reads,
        p ∈ ds.reads ∨ p = dir.join dirPath file) := by
  have hreads := readFileWithCache_reads_subset (st.withCache ds.cache) fs now
    (dir.join dirPath file)
  cases hres : (readFileWithCache (st.withCache ds.cache) fs now (dir.join dirPath file)).result with
  | ok secs =>
    refine ⟨true, ⟨?_, fun _ _ _ _ => rfl⟩, ?_, ?_, ?_, ?_⟩
    · intro e hstat
      have := @readFileWithCache_error (st.withCache ds.cache) fs now (dir.join dirPath file) e
        (Or.inl hstat)
      rw [hres] at this
      cases this
    · simp [dirStep, hres]
    · simp [dirStep, hres]
    · intro htag entry hentry s hs
      simp only [dirStep, hres, List.mem_append, List.mem_singleton] at hentry
      rcases hentry with hentry | rfl
      · exact htag entry hentry s hs
      · simp only [List.mem_map] at hs
        obtain ⟨s0, -, rfl⟩ := hs
        rfl
    · intro p hp
      simp only [dirStep, hres, List.mem_append] at hp
      rcases hp with hp | hp
      · exact Or.inl hp
      · exact Or.inr (hreads p hp)
  | error e =>
    refine ⟨false, ⟨fun _ _ => rfl, ?_⟩, ?_, ?_, ?_, ?_⟩
    · intro m c hstat hread
      obtain ⟨secs, hsecs⟩ := @readFileWithCache_ok_of_readable (st.withCache ds.cache) fs now
        (dir.join dirPath file) m c hstat hread
      rw [hres] at hsecs
      cases hsecs
    · simp [dirStep, hres]
    · simp [dirStep, hres]
    · intro htag entry hentry s hs
      simp only [dirStep, hres] at hentry
      exact htag entry hentry s hs
    · intro p hp
      simp only [dirStep, hres, List.mem_append] at hp
      rcases hp with hp | hp
      · exact Or.inl hp
      · exact Or.inr (hreads p hp)

theorem dirLoop_spec (st : Store) (fs : FileSystem) (dir : Directory) (dirPath : Str)
    (clock : Nat → Int) (files : List Str) :
    ∀ (i : Nat) (ds : DirState),
      ∃ mask : List Bool,
        List.Forall₂ (fun name ok => LoadFlag fs (dir.join dirPath name) ok) files mask ∧
        (dirLoop st fs dir dirPath clock files i ds).results.map FileEntry.fileName =
          ds.results.map FileEntry.fileName ++ pick files mask true ∧
        (dirLoop st fs dir dirPath clock files i ds).failedFiles =
          ds.failedFiles ++ pick files mask false ∧
        ((∀ entry ∈ ds.results, ∀ s ∈ entry.sections, s.fileName = some entry.fileName) →
          ∀ entry ∈ (dirLoop st fs dir dirPath clock files i ds).results,
            ∀ s ∈ entry.sections, s.fileName = some entry.fileName) ∧
        (∀ p ∈ (dirLoop st fs dir dirPath clock files i ds).reads,
          p ∈ ds.reads ∨ ∃ name ∈ files, p = dir.join dirPath name) := by
  induction files with
  | nil =>
    intro i ds
    exact ⟨[], List.Forall₂.nil, by simp [dirLoop, pick], by simp [dirLoop, pick],
      fun h => h, fun p hp => Or.inl hp⟩
  | cons file files ih =>
    intro i ds
    obtain ⟨ok, hflag, hres, hfail, htag, hreads⟩ :=
      dirStep_flag st fs dir dirPath (clock i) ds file
    obtain ⟨mask, hall, hres', hfail', htag', hreads'⟩ :=
      ih (i + 1) (dirStep st fs dir dirPath (clock i) ds file)
    refine ⟨ok :: mask, List.Forall₂.cons hflag hall, ?_, ?_, ?_, ?_⟩
    · rw [dirLoop, hres', hres, pick_cons]
      cases ok <;> simp
    · rw [dirLoop, hfail', hfail, pick_cons]
      cases ok <;> simp
    · intro h
      rw [dirLoop]
      exact htag' (htag h)
    · intro p hp
      rw [dirLoop] at hp
      rcases hreads' p hp with h | ⟨name, hname, rfl⟩
      · rcases hreads p h with h | rfl
        · exact Or.inl h
        · exact Or.inr ⟨file, List.mem_cons_self _ _, rfl⟩
      · exact Or.inr ⟨name, List.mem_cons_of_mem _ hname, rfl⟩

theorem pick_subset (files : List Str) (mask : List Bool) (b : Bool) :
    ∀ name ∈ pick files mask b, name ∈ files := by
  intro name h
  simp only [pick, List.mem_map, List.mem_filter] at h
  obtain ⟨⟨n, ok⟩, ⟨hmem, -⟩, rfl⟩ := h
  exact (List.of_mem_zip hmem).1

theorem pick_sublist (files : List Str) :
    ∀ (mask : List Bool) (b : Bool), (pick files mask b).Sublist files := by
  induction files with
  | nil => intro mask b; simp [pick]
  | cons file files ih =>
    intro mask b
    cases mask with
    | nil => simp [pick]
    | cons ok mask =>
      rw [pick_cons]
      split
      · exact (ih mask b).cons₂ file
      · exact (ih mask b).cons file

theorem pick_all_true (fs : FileSystem) (dir : Directory) (dirPath : Str) (files : List Str)
    (mask : List Bool)
    (hall : List.Forall₂ (fun name ok => LoadFlag fs (dir.join dirPath name) ok) files mask)
    (hok : ∀ name ∈ files, ∃ m c, fs.stat (dir.join dirPath name) = .ok m ∧
      fs.readFile (dir.join dirPath name) = .ok c) :
    pick files mask true = files ∧ pick files mask false = [] := by
  induction hall with
  | nil => simp [pick]
  | @cons name ok files mask hflag _ ih =>
    obtain ⟨m, c, hstat, hread⟩ := hok name (List.mem_cons_self _ _)
    have hk : ok = true := hflag.2 m c hstat hread
    subst hk
    obtain ⟨h1, h2⟩ := ih (fun n hn => hok n (List.mem_cons_of_mem _ hn))
    simp [pick_cons, h1, h2]

theorem loadDirectory_eq {st : Store} {fs : FileSystem} {dir : Directory} {clock : Nat → Int}
    {dirPath : Str} {D : List Str} (hls : dir.readdir dirPath = .ok D) :
    loadDirectory st fs dir clock dirPath =
      (if (D.filter (fun file => endsWith file ".md".toList)).length = 0 then
        { result := .ok [], failedFiles := [], cache := st.cache, reads := [] }
      else
        { result := .ok (dirLoop st fs dir dirPath clock
            (D.filter (fun file => endsWith file ".md".toList)) 0
            { results := [], failedFiles := [], cache := st.cache, reads := [] }).results,
          failedFiles := (dirLoop st fs dir dirPath clock
            (D.filter (fun file => endsWith file ".md".toList)) 0
            { results := [], failedFiles := [], cache := st.cache, reads := [] }).failedFiles,
          cache := (dirLoop st fs dir dirPath clock
            (D.filter (fun file => endsWith file ".md".toList)) 0
            { results := [], failedFiles := [], cache := st.cache, reads := [] }).cache,
          reads := (dirLoop st fs dir dirPath clock
            (D.filter (fun file => endsWith file ".md".toList)) 0
            { results := [], failedFiles := [], cache := st.cache, reads := [] }).reads }) := by
  by_cases hmd : (D.filter (fun file => endsWith file ".md".toList)).length = 0
  · simp only [loadDirectory, readDirectoryWithCache, hls, hmd, if_true]
  · simp only [loadDirectory, readDirectoryWithCache, hls, hmd, if_false]

theorem readFileWithCache_cache_cases (st : Store) (fs : FileSystem) (now : Int) (path : Str) :
    (readFileWithCache st fs now path).cache = st.cache ∨
      ∃ e, (readFileWithCache st fs now path).cache = st.cache.set path e := by
  unfold readFileWithCache
  cases fs.stat path with
  | error e => exact Or.inl rfl
  | ok m =>
    have hrc : (readAndCache st fs now path m).cache = st.cache ∨
        ∃ e, (readAndCache st fs now path m).cache = st.cache.set path e := by
      unfold readAndCache
      cases fs.readFile path with
      | error e => exact Or.inl rfl
      | ok c => exact Or.inr ⟨_, rfl⟩
    cases st.cache.get path with
    | none => exact hrc
    | some cached =>
      by_cases h : cached.lastModified = m ∧ now - cached.cachedAt < st.cacheMaxAge
      · dsimp only; rw [if_pos h]; exact Or.inl rfl
      · dsimp only; rw [if_neg h]; exact hrc

theorem Cache.get_cons (kv : Str × CacheEntry) (rest : Cache) (key : Str) :
    Cache.get (kv :: rest) key = if kv.1 = key then some kv.2 else Cache.get rest key := by
  obtain ⟨k, v⟩ := kv
  rfl

theorem Cache.get_tagSections_other (c : Cache) (filePath file q : Str) (hq : q ≠ filePath) :
    (c.tagSections filePath file).get q = c.get q := by
  induction c with
  | nil => rfl
  | cons kv rest ih =>
    have hcons : Cache.tagSections (kv :: rest) filePath file =
        (if kv.1 = filePath then
          (kv.1, { kv.2 with sections := kv.2.sections.map (setFileName file) })
        else kv) :: Cache.tagSections rest filePath file := rfl
    rw [hcons, Cache.get_cons, Cache.get_cons, ih]
    by_cases hk : kv.1 = filePath
    · rw [if_pos hk]
      have hkq : ¬ kv.1 = q := fun h => hq (h.symm.trans hk)
      rw [if_neg hkq, if_neg hkq]
    · rw [if_neg hk]

theorem readAndCache_result (st1 st2 : Store) (fs : FileSystem) (now : Int) (path : Str)
    (m : Int) :
    (readAndCache st1 fs now path m).result = (readAndCache st2 fs now path m).result := by
  unfold readAndCache
  cases fs.readFile path <;> rfl

/-- The value a single-file load returns depends on the store only through the entry of the
path and the maximal age. -/
theorem readFileWithCache_result_congr (st1 st2 : Store) (fs : FileSystem) (now : Int)
    (path : Str) (hget : st1.cache.get path = st2.cache.get path)
    (hage : st1.cacheMaxAge = st2.cacheMaxAge) :
    (readFileWithCache st1 fs now path).result = (readFileWithCache st2 fs now path).result := by
  unfold readFileWithCache
  rw [hget, hage]
  cases fs.stat path with
  | error e => rfl
  | ok m =>
    dsimp only
    cases st2.cache.get path with
    | none => exact readAndCache_result st1 st2 fs now path m
    | some cached =>
      dsimp only
      by_cases h : cached.lastModified = m ∧ now - cached.cachedAt < st2.cacheMaxAge
      · rw [if_pos h, if_pos h]
      · rw [if_neg h, if_neg h]
        exact readAndCache_result st1 st2 fs now path m

theorem dirStep_exact (st : Store) (fs : FileSystem) (dir : Directory) (dirPath : Str)
    (now : Int) (ds : DirState) (file : Str)
    (hget : ds.cache.get (dir.join dirPath file) = st.cache.get (dir.join dirPath file)) :
    (dirStep st fs dir dirPath now ds file).results =
        ds.results ++ (entryOf st fs dir dirPath now file).toList ∧
      (dirStep st fs dir dirPath now ds file).failedFiles =
        ds.failedFiles ++
          (if (entryOf st fs dir dirPath now file).isSome then [] else [file]) ∧
      ∀ q, q ≠ dir.join dirPath file →
        (dirStep st fs dir dirPath now ds file).cache.get q = ds.cache.get q := by
  have hres : (readFileWithCache (st.withCache ds.cache) fs now (dir.join dirPath file)).result =
      (readFileWithCache st fs now (dir.join dirPath file)).result :=
    readFileWithCache_result_congr _ _ fs now _ hget rfl
  have hframe : ∀ q, q ≠ dir.join dirPath file →
      (readFileWithCache (st.withCache ds.cache) fs now (dir.join dirPath file)).cache.get q =
        ds.cache.get q := by
    intro q hq
    rcases readFileWithCache_cache_cases (st.withCache ds.cache) fs now (dir.join dirPath file)
      with h | ⟨e, h⟩
    · rw [h]; rfl
    · rw [h]; exact Cache.get_set_other _ _ _ _ hq
  unfold dirStep entryOf
  dsimp only
  rw [← hres]
  cases hr : (readFileWithCache (st.withCache ds.cache) fs now (dir.join dirPath file)).result
    with
  | ok sections =>
    refine ⟨rfl, by simp, ?_⟩
    intro q hq
    dsimp only
    rw [Cache.get_tagSections_other _ _ _ _ hq]
    exact hframe q hq
  | error e =>
    refine ⟨by simp, rfl, ?_⟩
    intro q hq
    exact hframe q hq

/-- With pairwise different paths, the loop of `readDirectoryWithCache` gives every file the
outcome of its single-file load from the store as it was before the loop: the loads of the
files before it change the cache at other paths only. -/
theorem dirLoop_exact (st : Store) (fs : FileSystem) (dir : Directory) (dirPath : Str)
    (clock : Nat → Int) (names : List Str) :
    ∀ (i : Nat) (ds : DirState), (names.map (dir.join dirPath)).Nodup →
      (∀ name ∈ names,
        ds.cache.get (dir.join dirPath name) = st.cache.get (dir.join dirPath name)) →
      (dirLoop st fs dir dirPath clock names i ds).results =
          ds.results ++ entriesOf st fs dir dirPath clock names i ∧
        (dirLoop st fs dir dirPath clock names i ds).failedFiles =
          ds.failedFiles ++ failuresOf st fs dir dirPath clock names i := by
  induction names with
  | nil => intro i ds _ _; simp [dirLoop, entriesOf, failuresOf]
  | cons name rest ih =>
    intro i ds hnd hget
    rw [List.map_cons, List.nodup_cons] at hnd
    obtain ⟨h1, h2, h3⟩ := dirStep_exact st fs dir dirPath (clock i) ds name
      (hget name (List.mem_cons_self _ _))
    have hget2 : ∀ n ∈ rest,
        (dirStep st fs dir dirPath (clock i) ds name).cache.get (dir.join dirPath n) =
          st.cache.get (dir.join dirPath n) := by
      intro n hn
      have hne : dir.join dirPath n ≠ dir.join dirPath name := by
        intro heq
        exact hnd.1 (heq ▸ List.mem_map_of_mem _ hn)
      rw [h3 _ hne]
      exact hget n (List.mem_cons_of_mem _ hn)
    obtain ⟨r1, r2⟩ := ih (i + 1) _ hnd.2 hget2
    constructor
    · rw [dirLoop, r1, h1, entriesOf, List.append_assoc]
    · rw [dirLoop, r2, h2, failuresOf, List.append_assoc]

/-- The four cases of the single-file load behind an entry: a failed stat, a fresh cache
entry, a content read that succeeds, and a content read that fails. -/
theorem entryOf_cases (st : Store) (fs : FileSystem) (dir : Directory) (dirPath : Str)
    (now : Int) (name : Str) :
    (∀ e, fs.stat (dir.join dirPath name) = .error e →
      entryOf st fs dir dirPath now name = none) ∧
    (∀ m entry, fs.stat (dir.join dirPath name) = .ok m →
      st.cache.get (dir.join dirPath name) = some entry → entry.lastModified = m →
      now - entry.cachedAt < st.cacheMaxAge →
      entryOf st fs dir dirPath now name =
        some { fileName := name, sections := entry.sections.map (setFileName name) }) ∧
    (∀ m c, fs.stat (dir.join dirPath name) = .ok m →
      (¬ ∃ entry, st.cache.get (dir.join dirPath name) = some entry ∧
        entry.lastModified = m ∧ now - entry.cachedAt < st.cacheMaxAge) →
      fs.readFile (dir.join dirPath name) = .ok c →
      entryOf st fs dir dirPath now name =
        some { fileName := name, sections := (parseMarkdown c).map (setFileName name) }) ∧
    (∀ m e, fs.stat (dir.join dirPath name) = .ok m →
      (¬ ∃ entry, st.cache.get (dir.join dirPath name) = some entry ∧
        entry.lastModified = m ∧ now - entry.cachedAt < st.cacheMaxAge) →
      fs.readFile (dir.join dirPath name) = .error e →
      entryOf st fs dir dirPath now name = none) := by
  refine ⟨?_, ?_, ?_, ?_⟩
  · intro e hstat
    simp only [entryOf, readFileWithCache, hstat]
  · intro m entry hstat hget hm hage
    simp only [entryOf, readFileWithCache_hit hstat hget ⟨hm, hage⟩]
  · intro m c hstat hmiss hread
    simp only [entryOf, readFileWithCache_miss hstat hmiss, readAndCache, hread]
  · intro m e hstat hmiss hread
    simp only [entryOf, readFileWithCache_miss hstat hmiss, readAndCache, hread]

theorem loadDirectory_exact (st : Store) (fs : FileSystem) (dir : Directory)
    (clock : Nat → Int) (dirPath : Str) (D : List Str) (hls : dir.readdir dirPath = .ok D)
    (hnd : ((D.filter (fun file => endsWith file ".md".toList)).map (dir.join dirPath)).Nodup) :
    (loadDirectory st fs dir clock dirPath).result =
        .ok (entriesOf st fs dir dirPath clock
          (D.filter (fun file => endsWith file ".md".toList)) 0) ∧
      (loadDirectory st fs dir clock dirPath).failedFiles =
        failuresOf st fs dir dirPath clock
          (D.filter (fun file => endsWith file ".md".toList)) 0 := by
  rw [loadDirectory_eq hls]
  by_cases hmd : (D.filter (fun file => endsWith file ".md".toList)).length = 0
  · have hnil : D.filter (fun file => endsWith file ".md".toList) = [] :=
      List.length_eq_zero.mp hmd
    rw [if_pos hmd, hnil]
    exact ⟨rfl, rfl⟩
  · rw [if_neg hmd]
    obtain ⟨h1, h2⟩ := dirLoop_exact st fs dir dirPath clock
      (D.filter (fun file => endsWith file ".md".toList)) 0
      { results := [], failedFiles := [], cache := st.cache, reads := [] } hnd
      (fun _ _ => rfl)
    dsimp only
    rw [h1, h2]
    exact ⟨rfl, rfl⟩

/-- C14: when the listing of the directory gives the names `D`, `loadDirectory` returns
(without failing) the entries of the names of `D` that end in `.md` and whose load
succeeds, in listing order, the other `.md` names going to `failedFiles`: a load whose
stat fails is a failure, a load whose stat and content read succeed is a success.  A name
without the suffix `.md` (such as `notes.txt` or `README.MD`) is in neither list and no
content is read for it; every section of an entry carries the file name of the entry; the
result is empty when no name ends in `.md`; and when every `.md` name loads, the entries
are exactly the `.md` names.  When the `.md` names have pairwise different paths, the
result is exactly the list, in listing order, of the entries `{fileName, sections}` of the
names whose single-file load from the store as it is before the call succeeds, and
`failedFiles` is exactly the list of the names whose load fails; the sections of an entry
are the sections that load returns (the cached ones on a hit, the parse of the content
read otherwise) with `fileName` set, and a file whose stat succeeds but whose content
read fails, with no fresh cache entry, is a failure. -/
theorem loadDirectory_entries (st : Store) (fs : FileSystem) (dir : Directory)
    (clock : Nat → Int) (dirPath : Str) (D : List Str) (hls : dir.readdir dirPath = .ok D) :
    (∃ (entries : List FileEntry) (mask : List Bool),
      (loadDirectory st fs dir clock dirPath).result = .ok entries ∧
      List.Forall₂ (fun name ok => LoadFlag fs (dir.join dirPath name) ok)
        (D.filter (fun file => endsWith file ".md".toList)) mask ∧
      entries.map FileEntry.fileName =
        pick (D.filter (fun file => endsWith file ".md".toList)) mask true ∧
      (loadDirectory st fs dir clock dirPath).failedFiles =
        pick (D.filter (fun file => endsWith file ".md".toList)) mask false ∧
      (entries.map FileEntry.fileName).Sublist D ∧
      (∀ name ∈ D, endsWith name ".md".toList = false →
        name ∉ entries.map FileEntry.fileName ∧
        name ∉ (loadDirectory st fs dir clock dirPath).failedFiles) ∧
      (∀ p ∈ (loadDirectory st fs dir clock dirPath).reads,
        ∃ name ∈ D, endsWith name ".md".toList = true ∧ p = dir.join dirPath name) ∧
      (∀ entry ∈ entries, ∀ s ∈ entry.sections, s.fileName = some entry.fileName) ∧
      (D.filter (fun file => endsWith file ".md".toList) = [] → entries = []) ∧
      ((∀ name ∈ D, endsWith name ".md".toList = true →
          ∃ m c, fs.stat (dir.join dirPath name) = .ok m ∧
            fs.readFile (dir.join dirPath name) = .ok c) →
        entries.map FileEntry.fileName = D.filter (fun file => endsWith file ".md".toList) ∧
        (loadDirectory st fs dir clock dirPath).failedFiles = [])) ∧
    (((D.filter (fun file => endsWith file ".md".toList)).map (dir.join dirPath)).Nodup →
      (loadDirectory st fs dir clock dirPath).result =
          .ok (entriesOf st fs dir dirPath clock
            (D.filter (fun file => endsWith file ".md".toList)) 0) ∧
        (loadDirectory st fs dir clock dirPath).failedFiles =
          failuresOf st fs dir dirPath clock
            (D.filter (fun file => endsWith file ".md".toList)) 0) ∧
    (∀ (now : Int) (name : Str),
      (∀ e, fs.stat (dir.join dirPath name) = .error e →
        entryOf st fs dir dirPath now name = none) ∧
      (∀ m entry, fs.stat (dir.join dirPath name) = .ok m →
        st.cache.get (dir.join dirPath name) = some entry → entry.lastModified = m →
        now - entry.cachedAt < st.cacheMaxAge →
        entryOf st fs dir dirPath now name =
          some { fileName := name, sections := entry.sections.map (setFileName name) }) ∧
      (∀ m c, fs.stat (dir.join dirPath name) = .ok m →
        (¬ ∃ entry, st.cache.get (dir.join dirPath name) = some entry ∧
          entry.lastModified = m ∧ now - entry.cachedAt < st.cacheMaxAge) →
        fs.readFile (dir.join dirPath name) = .ok c →
        entryOf st fs dir dirPath now name =
          some { fileName := name, sections := (parseMarkdown c).map (setFileName name) }) ∧
      (∀ m e, fs.stat (dir.join dirPath name) = .ok m →
        (¬ ∃ entry, st.cache.get (dir.join dirPath name) = some entry ∧
          entry.lastModified = m ∧ now - entry.cachedAt < st.cacheMaxAge) →
        fs.readFile (dir.join dirPath name) = .error e →
        entryOf st fs dir dirPath now name = none)) ∧
    endsWith "notes.txt".toList ".md".toList = false ∧
    endsWith "README.MD".toList ".md".toList = false ∧
    endsWith "a.md".toList ".md".toList = true := by
  refine ⟨?_, loadDirectory_exact st fs dir clock dirPath D hls,
    fun now name => entryOf_cases st fs dir dirPath now name, by decide, by decide, by decide⟩
  rw [loadDirectory_eq hls]
  by_cases hmd : (D.filter (fun file => endsWith file ".md".toList)).length = 0
  · have hnil : D.filter (fun file => endsWith file ".md".toList) = [] :=
      List.length_eq_zero.mp hmd
    rw [if_pos hmd, hnil]
    refine ⟨[], [], rfl, List.Forall₂.nil, by simp [pick], by simp [pick], by simp, ?_, ?_, ?_,
      fun _ => rfl, fun _ => ⟨rfl, rfl⟩⟩
    · intro name _ _
      simp
    · intro p hp
      simp at hp
    · intro entry hentry
      simp at hentry
  · rw [if_neg hmd]
    obtain ⟨mask, hall, hres, hfail, htag, hreads⟩ :=
      dirLoop_spec st fs dir dirPath clock (D.filter (fun file => endsWith file ".md".toList)) 0
        { results := [], failedFiles := [], cache := st.cache, reads := [] }
    simp only [List.map_nil, List.nil_append] at hres hfail
    refine ⟨_, mask, rfl, hall, hres, hfail, ?_, ?_, ?_, ?_, ?_, ?_⟩
    · rw [hres]
      exact (pick_sublist _ mask true).trans (List.filter_sublist D)
    · intro name _ hsuffix
      constructor
      · rw [hres]
        intro hmem
        have := (List.mem_filter.mp (pick_subset _ mask true name hmem)).2
        rw [hsuffix] at this
        cases this
      · show name ∉ (dirLoop st fs dir dirPath clock _ 0 _).failedFiles
        rw [hfail]
        intro hmem
        have := (List.mem_filter.mp (pick_subset _ mask false name hmem)).2
        rw [hsuffix] at this
        cases this
    · intro p hp
      rcases hreads p hp with h | ⟨name, hname, rfl⟩
      · simp at h
      · have := List.mem_filter.mp hname
        exact ⟨name, this.1, this.2, rfl⟩
    · exact htag (by simp)
    · intro hnil
      rw [hnil] at hmd
      simp at hmd
    · intro hok
      have := pick_all_true fs dir dirPath _ mask hall
        (fun name hname => hok name (List.mem_filter.mp hname).1 (List.mem_filter.mp hname).2)
      exact ⟨by rw [hres]; exact this.1, by
        show (dirLoop st fs dir dirPath clock _ 0 _).failedFiles = []
        rw [hfail]; exact this.2⟩

/-- C14, at concrete inputs: the directory `docs` lists `a.md`, `notes.txt`, `b.md` and
`c.md`.  When all of them load, the result has exactly the three `.md` entries, each with
the parsed sections of its file, and only the three `.md` paths are read.  When `b.md`
cannot be read and `c.md` does not exist, the result is the one entry of `a.md` and the two
others are the failed files. -/
theorem loadDirectory_entries_witness :
    demoDir.readdir "docs".toList = .ok demoListing ∧
    ((demoListing.filter (fun file => endsWith file ".md".toList)).map
      (demoDir.join "docs".toList)).Nodup ∧
    (loadDirectory emptyStore demoDirFs demoDir (fun _ => 0) "docs".toList).result =
      .ok [demoEntryFor "a.md".toList, demoEntryFor "b.md".toList,
        demoEntryFor "c.md".toList] ∧
    (loadDirectory emptyStore demoDirFs demoDir (fun _ => 0) "docs".toList).failedFiles = [] ∧
    (loadDirectory emptyStore demoDirFs demoDir (fun _ => 0) "docs".toList).reads =
      ["docs/a.md".toList, "docs/b.md".toList, "docs/c.md".toList] ∧
    (loadDirectory emptyStore mixedDirFs demoDir (fun _ => 0) "docs".toList).result =
      .ok [demoEntryFor "a.md".toList] ∧
    (loadDirectory emptyStore mixedDirFs demoDir (fun _ => 0) "docs".toList).failedFiles =
      ["b.md".toList, "c.md".toList] ∧
    (loadDirectory emptyStore mixedDirFs demoDir (fun _ => 0) "docs".toList).reads =
      ["docs/a.md".toList, "docs/b.md".toList] ∧
    ((∃ (entries : List FileEntry) (mask : List Bool),
        (loadDirectory emptyStore mixedDirFs demoDir (fun _ => 0) "docs".toList).result = .ok entries ∧
        List.Forall₂ (fun name ok => LoadFlag mixedDirFs (demoDir.join "docs".toList name) ok)
          (demoListing.filter (fun file => endsWith file ".md".toList)) mask ∧
        entries.map FileEntry.fileName =
          pick (demoListing.filter (fun file => endsWith file ".md".toList)) mask true ∧
        (loadDirectory emptyStore mixedDirFs demoDir (fun _ => 0) "docs".toList).failedFiles =
          pick (demoListing.filter (fun file => endsWith file ".md".toList)) mask false ∧
        (entries.map FileEntry.fileName).Sublist demoListing ∧
        (∀ name ∈ demoListing, endsWith name ".md".toList = false →
          name ∉ entries.map FileEntry.fileName ∧
          name ∉ (loadDirectory emptyStore mixedDirFs demoDir (fun _ => 0) "docs".toList).failedFiles) ∧
        (∀ p ∈ (loadDirectory emptyStore mixedDirFs demoDir (fun _ => 0) "docs".toList).reads,
          ∃ name ∈ demoListing, endsWith name ".md".toList = true ∧ p = demoDir.join "docs".toList name) ∧
        (∀ entry ∈ entries, ∀ s ∈ entry.sections, s.fileName = some entry.fileName) ∧
        (demoListing.filter (fun file => endsWith file ".md".toList) = [] → entries = []) ∧
        ((∀ name ∈ demoListing, endsWith name ".md".toList = true →
            ∃ m c, mixedDirFs.stat (demoDir.join "docs".toList name) = .ok m ∧
              mixedDirFs.readFile (demoDir.join "docs".toList name) = .ok c) →
          entries.map FileEntry.fileName = demoListing.filter (fun file => endsWith file ".md".toList) ∧
          (loadDirectory emptyStore mixedDirFs demoDir (fun _ => 0) "docs".toList).failedFiles = [])) ∧
      (((demoListing.filter (fun file => endsWith file ".md".toList)).map (demoDir.join "docs".toList)).Nodup →
        (loadDirectory emptyStore mixedDirFs demoDir (fun _ => 0) "docs".toList).result =
            .ok (entriesOf emptyStore mixedDirFs demoDir "docs".toList (fun _ => 0)
              (demoListing.filter (fun file => endsWith file ".md".toList)) 0) ∧
          (loadDirectory emptyStore mixedDirFs demoDir (fun _ => 0) "docs".toList).failedFiles =
            failuresOf emptyStore mixedDirFs demoDir "docs".toList (fun _ => 0)
              (demoListing.filter (fun file => endsWith file ".md".toList)) 0) ∧
      (∀ (now : Int) (name : Str),
        (∀ e, mixedDirFs.stat (demoDir.join "docs".toList name) = .error e →
          entryOf emptyStore mixedDirFs demoDir "docs".toList now name = none) ∧
        (∀ m entry, mixedDirFs.stat (demoDir.join "docs".toList name) = .ok m →
          emptyStore.cache.get (demoDir.join "docs".toList name) = some entry → entry.lastModified = m →
          now - entry.cachedAt < emptyStore.cacheMaxAge →
          entryOf emptyStore mixedDirFs demoDir "docs".toList now name =
            some { fileName := name, sections := entry.sections.map (setFileName name) }) ∧
        (∀ m c, mixedDirFs.stat (demoDir.join "docs".toList name) = .ok m →
          (¬ ∃ entry, emptyStore.cache.get (demoDir.join "docs".toList name) = some entry ∧
            entry.lastModified = m ∧ now - entry.cachedAt < emptyStore.cacheMaxAge) →
          mixedDirFs.readFile (demoDir.join "docs".toList name) = .ok c →
          entryOf emptyStore mixedDirFs demoDir "docs".toList now name =
            some { fileName := name, sections := (parseMarkdown c).map (setFileName name) }) ∧
        (∀ m e, mixedDirFs.stat (demoDir.join "docs".toList name) = .ok m →
          (¬ ∃ entry, emptyStore.cache.get (demoDir.join "docs".toList name) = some entry ∧
            entry.lastModified = m ∧ now - entry.cachedAt < emptyStore.cacheMaxAge) →
          mixedDirFs.readFile (demoDir.join "docs".toList name) = .error e →
          entryOf emptyStore mixedDirFs demoDir "docs".toList now name = none)) ∧
      endsWith "notes.txt".toList ".md".toList = false ∧
      endsWith "README.MD".toList ".md".toList = false ∧
      endsWith "a.md".toList ".md".toList = true) :=
  ⟨rfl, by decide, rfl, by decide, by decide, rfl, by decide, by decide,
    loadDirectory_entries emptyStore mixedDirFs demoDir (fun _ => 0) "docs".toList
      demoListing rfl⟩

/-! ## The anatomy of a parsed section -/

theorem takeWhile_eq_take {α : Type} (p : α → Bool) (l : List α) :
    l.takeWhile p = l.take (l.takeWhile p).length := by
  induction l with
  | nil => rfl
  | cons a l ih =>
    by_cases ha : p a = true
    · simp only [List.takeWhile_cons, ha, if_true, List.length_cons, List.take_succ_cons]
      rw [← ih]
    · simp [List.takeWhile_cons, ha]

/-- Every section of `sectionsFrom` comes from a heading line of the list and the lines
after it up to the next heading. -/
theorem sectionsFrom_mem (ls : List Str) :
    ∀ (i : Nat) (s : Section), s ∈ sectionsFrom ls i →
      ∃ pre line rest hashes text, ls = pre ++ line :: rest ∧
        headerMatch line = some (hashes, text) ∧
        s = sectionOf hashes text (i + pre.length) (bodyOf rest) := by
  induction ls with
  | nil => intro i s hs; simp [sectionsFrom] at hs
  | cons l ls ih =>
    intro i s hs
    cases hm : headerMatch l with
    | some ht =>
      obtain ⟨hashes, text⟩ := ht
      simp only [sectionsFrom, hm, List.mem_cons] at hs
      rcases hs with rfl | hs
      · exact ⟨[], l, ls, hashes, text, rfl, hm, rfl⟩
      · obtain ⟨pre, line, rest, h2, t2, hls, hm2, hs2⟩ := ih (i + 1) s hs
        refine ⟨l :: pre, line, rest, h2, t2, by rw [hls]; rfl, hm2, ?_⟩
        rw [hs2, List.length_cons]
        congr 1
        omega
    | none =>
      simp only [sectionsFrom, hm] at hs
      obtain ⟨pre, line, rest, h2, t2, hls, hm2, hs2⟩ := ih (i + 1) s hs
      refine ⟨l :: pre, line, rest, h2, t2, by rw [hls]; rfl, hm2, ?_⟩
      rw [hs2, List.length_cons]
      congr 1
      omega

/-- Every section of `parseMarkdown` is the section of a heading line of the input and of
its body lines: the lines after the heading, up to the next heading, which are the lines
`startLine + 1` to `endLine`. -/
theorem parseMarkdown_mem (content : Str) (s : Section) (hs : s ∈ parseMarkdown content) :
    ∃ pre line rest hashes text, split '\n' content = pre ++ line :: rest ∧
      headerMatch line = some (hashes, text) ∧
      s = sectionOf hashes text pre.length (bodyOf rest) ∧
      s.startLine = pre.length ∧ s.endLine = (pre.length : Int) + (bodyOf rest).length ∧
      bodyOf rest = rest.take (s.endLine - s.startLine).toNat := by
  rw [parseMarkdown_eq] at hs
  obtain ⟨pre, line, rest, hashes, text, hls, hm, rfl⟩ := sectionsFrom_mem _ 0 s hs
  refine ⟨pre, line, rest, hashes, text, hls, hm, by simp, by simp [sectionOf_startLine],
    by simp [sectionOf_endLine], ?_⟩
  rw [sectionOf_startLine, sectionOf_endLine]
  have : ((((0 + pre.length : Nat) : Int) + ((bodyOf rest).length : Nat)) -
      ((0 + pre.length : Nat) : Int)).toNat = (bodyOf rest).length := by
    omega
  rw [this]
  exact takeWhile_eq_take _ rest

/-! ## C19: the roles field -/

theorem addLine_roles (cur : OpenSection) (line : Str) :
    (addLine cur line).roles =
      if extractRolesFromComment line = [] then cur.roles
      else some (cur.roles.getD [] ++ extractRolesFromComment line) := by
  by_cases h : extractRolesFromComment line = []
  · simp [addLine, h]
  · have hlen : (extractRolesFromComment line).length > 0 := List.length_pos.mpr h
    simp [addLine, h, hlen]

theorem foldl_addLine_roles (body : List Str) :
    ∀ cur : OpenSection, (body.foldl addLine cur).roles =
      if body.flatMap extractRolesFromComment = [] then cur.roles
      else some (cur.roles.getD [] ++ body.flatMap extractRolesFromComment) := by
  induction body with
  | nil => intro cur; simp
  | cons l body ih =>
    intro cur
    rw [List.foldl_cons, ih, addLine_roles]
    by_cases h1 : extractRolesFromComment l = []
    · simp [h1]
    · by_cases h2 : body.flatMap extractRolesFromComment = []
      · simp [h1, h2]
      · simp [h1, h2]

theorem sectionOf_roles (hashes text : Str) (i : Nat) (body : List Str) :
    (sectionOf hashes text i body).roles =
      if body.flatMap extractRolesFromComment = [] then
        (if extractRoles (trim text) = [] then none else some (extractRoles (trim text)))
      else some (extractRoles (trim text) ++ body.flatMap extractRolesFromComment) := by
  simp only [sectionOf, OpenSection.close, foldl_addLine_roles, openSection]
  by_cases h : extractRoles (trim text) = []
  · simp [h]
  · have hlen : (extractRoles (trim text)).length > 0 := List.length_pos.mpr h
    simp [h, hlen]

theorem extractRoles_ne_nil (text r : Str) (h : r ∈ extractRoles text) : r ≠ [] := by
  obtain ⟨m, -, hr⟩ := (mem_extractRoles text r).mp h
  exact ((mem_splitRoles _ _).mp hr).1

theorem extractRolesFromComment_ne_nil (line r : Str) (h : r ∈ extractRolesFromComment line) :
    r ≠ [] := by
  unfold extractRolesFromComment at h
  split at h
  · simp at h
  · exact ((mem_splitRoles _ _).mp h).1

/-- C19: the roles field of every section of `parseMarkdown` is either absent or a
non-empty list of non-empty names; with the heading line and the body lines of the section
(the lines `startLine + 1` to `endLine`), it is absent exactly when `extractRoles` finds no
name in the heading text and `extractRolesFromComment` finds no name in any body line. -/
theorem parseMarkdown_roles_field (content : Str) (s : Section)
    (hs : s ∈ parseMarkdown content) :
    (s.roles = none ∨ ∃ roles, s.roles = some roles ∧ roles ≠ [] ∧ ∀ r ∈ roles, r ≠ []) ∧
      ∃ pre line rest hashes text, split '\n' content = pre ++ line :: rest ∧
        s.startLine = pre.length ∧ headerMatch line = some (hashes, text) ∧
        (s.roles = none ↔
          extractRoles (trim text) = [] ∧
            ∀ l ∈ rest.take (s.endLine - s.startLine).toNat, extractRolesFromComment l = []) := by
  obtain ⟨pre, line, rest, hashes, text, hls, hm, hsec, hstart, -, hbody⟩ :=
    parseMarkdown_mem content s hs
  have hroles := sectionOf_roles hashes text pre.length (bodyOf rest)
  rw [← hsec] at hroles
  have hflat : (bodyOf rest).flatMap extractRolesFromComment = [] ↔
      ∀ l ∈ bodyOf rest, extractRolesFromComment l = [] := by
    simp [List.flatMap]
  constructor
  · by_cases h2 : (bodyOf rest).flatMap extractRolesFromComment = []
    · by_cases h1 : extractRoles (trim text) = []
      · left
        rw [hroles]; simp [h1, h2]
      · right
        refine ⟨extractRoles (trim text), by rw [hroles]; simp [h1, h2], h1, ?_⟩
        exact fun r hr => extractRoles_ne_nil _ r hr
    · right
      refine ⟨_, by rw [hroles, if_neg h2], ?_, ?_⟩
      · intro h
        exact h2 (List.append_eq_nil.mp h).2
      · intro r hr
        rcases List.mem_append.mp hr with hr | hr
        · exact extractRoles_ne_nil _ r hr
        · obtain ⟨l, -, hl⟩ := List.mem_flatMap.mp hr
          exact extractRolesFromComment_ne_nil l r hl
  · refine ⟨pre, line, rest, hashes, text, hls, hstart, hm, ?_⟩
    rw [← hbody, ← hflat, hroles]
    by_cases h2 : (bodyOf rest).flatMap extractRolesFromComment = []
    · by_cases h1 : extractRoles (trim text) = []
      · simp [h1, h2]
      · simp [h1, h2]
    · simp [h2]

/-- C19, at concrete inputs: section B of the scenario. -/
theorem parseMarkdown_roles_field_witness :
    (scenarioB.roles = none ∨
        ∃ roles, scenarioB.roles = some roles ∧ roles ≠ [] ∧ ∀ r ∈ roles, r ≠ []) ∧
      ∃ pre line rest hashes text, split '\n' scenarioInput = pre ++ line :: rest ∧
        scenarioB.startLine = pre.length ∧ headerMatch line = some (hashes, text) ∧
        (scenarioB.roles = none ↔
          extractRoles (trim text) = [] ∧
            ∀ l ∈ rest.take (scenarioB.endLine - scenarioB.startLine).toNat,
              extractRolesFromComment l = []) :=
  parseMarkdown_roles_field scenarioInput scenarioB (by decide)

/-! ## C20: lines before the first heading -/

theorem split_ne_nil (sep : Char) (s : Str) : split sep s ≠ [] := by
  cases s with
  | nil => simp [split]
  | cons c cs =>
    simp only [split]
    split
    · simp
    · split <;> simp

theorem split_no_sep (sep : Char) (s : Str) : ∀ l ∈ split sep s, sep ∉ l := by
  induction s with
  | nil => intro l hl; simp [split] at hl; subst hl; simp
  | cons c cs ih =>
    intro l hl
    simp only [split] at hl
    by_cases hc : c = sep
    · simp only [hc, if_true, List.mem_cons] at hl
      rcases hl with rfl | hl
      · simp
      · exact ih l hl
    · simp only [hc, if_false] at hl
      cases hsp : split sep cs with
      | nil => exact absurd hsp (split_ne_nil sep cs)
      | cons l0 ls0 =>
        rw [hsp] at hl ih
        simp only [List.mem_cons] at hl
        rcases hl with rfl | hl
        · intro hmem
          rcases List.mem_cons.mp hmem with h | h
          · exact hc h.symm
          · exact ih l0 (List.mem_cons_self _ _) h
        · exact ih l (List.mem_cons_of_mem _ hl)

theorem split_of_no_sep (sep : Char) (l : Str) (h : sep ∉ l) : split sep l = [l] := by
  induction l with
  | nil => rfl
  | cons c cs ih =>
    have hc : ¬ c = sep := fun hc => h (by rw [hc]; exact List.mem_cons_self _ _)
    have hcs : sep ∉ cs := fun hm => h (List.mem_cons_of_mem _ hm)
    simp only [split, hc, if_false, ih hcs]

theorem split_append_sep (sep : Char) (l rest : Str) (h : sep ∉ l) :
    split sep (l ++ sep :: rest) = l :: split sep rest := by
  induction l with
  | nil => simp [split]
  | cons c cs ih =>
    have hc : ¬ c = sep := fun hc => h (by rw [hc]; exact List.mem_cons_self _ _)
    have hcs : sep ∉ cs := fun hm => h (List.mem_cons_of_mem _ hm)
    have hstep : split sep (c :: (cs ++ sep :: rest)) =
        (match split sep (cs ++ sep :: rest) with
          | [] => [[c]]
          | l :: ls => (c :: l) :: ls) := by
      simp only [split, hc, if_false]
    rw [List.cons_append, hstep, ih hcs]

theorem split_join (sep : Char) (ls : List Str) (hne : ls ≠ []) (h : ∀ l ∈ ls, sep ∉ l) :
    split sep (join sep ls) = ls := by
  induction ls with
  | nil => exact absurd rfl hne
  | cons l ls ih =>
    cases ls with
    | nil => simpa [join] using split_of_no_sep sep l (h l (List.mem_cons_self _ _))
    | cons l2 ls2 =>
      have : join sep (l :: l2 :: ls2) = l ++ sep :: join sep (l2 :: ls2) := rfl
      rw [this, split_append_sep sep l _ (h l (List.mem_cons_self _ _)),
        ih (by simp) (fun x hx => h x (List.mem_cons_of_mem _ hx))]

theorem addLine_with_startLine (cur : OpenSection) (line : Str) (x : Int) :
    addLine { cur with startLine := x } line = { addLine cur line with startLine := x } := by
  by_cases h : (extractRolesFromComment line).length > 0 <;> simp [addLine, h]

theorem foldl_addLine_with_startLine (body : List Str) :
    ∀ (cur : OpenSection) (x : Int),
      body.foldl addLine { cur with startLine := x } =
        { body.foldl addLine cur with startLine := x } := by
  induction body with
  | nil => intro cur x; rfl
  | cons l body ih =>
    intro cur x
    rw [List.foldl_cons, List.foldl_cons, addLine_with_startLine, ih]

theorem sectionOf_shift (hashes text : Str) (i k : Nat) (body : List Str) :
    sectionOf hashes text (i + k) body = shiftLines k (sectionOf hashes text i body) := by
  have hopen : openSection hashes text (i + k) =
      { openSection hashes text i with startLine := ((i + k : Nat) : Int) } := rfl
  simp only [sectionOf, hopen, foldl_addLine_with_startLine, OpenSection.close, shiftLines,
    foldl_addLine_startLine]
  simp only [openSection, Section.mk.injEq, true_and, and_true]
  constructor <;> (push_cast; ring)

theorem sectionsFrom_shift (ls : List Str) :
    ∀ i k : Nat, sectionsFrom ls (i + k) = (sectionsFrom ls i).map (shiftLines k) := by
  induction ls with
  | nil => intro i k; rfl
  | cons l ls ih =>
    intro i k
    have hik : i + k + 1 = (i + 1) + k := by omega
    cases hm : headerMatch l with
    | some ht =>
      obtain ⟨hashes, text⟩ := ht
      simp only [sectionsFrom, hm, List.map_cons, hik, ih, sectionOf_shift]
    | none =>
      simp only [sectionsFrom, hm, hik, ih]

theorem sectionsFrom_skip (P : List Str) (hP : ∀ p ∈ P, isHeading p = false) :
    ∀ (L : List Str) (i : Nat), sectionsFrom (P ++ L) i = sectionsFrom L (i + P.length) := by
  induction P with
  | nil => intro L i; rfl
  | cons p P ih =>
    intro L i
    have hp : headerMatch p = none := by
      have := hP p (List.mem_cons_self _ _)
      simpa [isHeading] using this
    have hstep : sectionsFrom (p :: (P ++ L)) i = sectionsFrom (P ++ L) (i + 1) := by
      simp only [sectionsFrom, hp]
    rw [List.cons_append, hstep, ih (fun q hq => hP q (List.mem_cons_of_mem _ hq)),
      List.length_cons]
    congr 1
    omega

/-- C20: for lines `P` none of which matches the heading pattern, and a text `T`,
`parseMarkdown` of the lines of `P` followed by the lines of `T` (joined by newlines) is
`parseMarkdown(T)` with every `startLine` and `endLine` increased by the number of lines of
`P` and all other fields kept; an input none of whose lines is a heading gives the empty
list. -/
theorem parseMarkdown_preamble (P : List Str) (T : Str)
    (hP : ∀ p ∈ P, '\n' ∉ p ∧ isHeading p = false) :
    parseMarkdown (join '\n' (P ++ split '\n' T)) =
        (parseMarkdown T).map (shiftLines P.length) ∧
      (∀ s : Section, (shiftLines P.length s).startLine = s.startLine + P.length ∧
        (shiftLines P.length s).endLine = s.endLine + P.length ∧
        (shiftLines P.length s).level = s.level ∧ (shiftLines P.length s).title = s.title ∧
        (shiftLines P.length s).content = s.content ∧ (shiftLines P.length s).roles = s.roles ∧
        (shiftLines P.length s).fileName = s.fileName ∧
        (shiftLines P.length s).isFileSeparator = s.isFileSeparator) ∧
      (∀ content : Str, (∀ l ∈ split '\n' content, isHeading l = false) →
        parseMarkdown content = []) := by
  refine ⟨?_, fun s => ⟨rfl, rfl, rfl, rfl, rfl, rfl, rfl, rfl⟩, ?_⟩
  · have hsplit : split '\n' (join '\n' (P ++ split '\n' T)) = P ++ split '\n' T := by
      apply split_join
      · intro h
        exact split_ne_nil '\n' T (List.append_eq_nil.mp h).2
      · intro l hl
        rcases List.mem_append.mp hl with hl | hl
        · exact (hP l hl).1
        · exact split_no_sep '\n' T l hl
    rw [parseMarkdown_eq, hsplit, sectionsFrom_skip P (fun p hp => (hP p hp).2),
      parseMarkdown_eq, ← sectionsFrom_shift]
  · intro content hall
    rw [parseMarkdown_eq]
    have := sectionsFrom_skip (split '\n' content) hall [] 0
    rw [List.append_nil] at this
    rw [this]
    rfl

/-- C20, at concrete inputs: two preamble lines before the scenario. -/
theorem parseMarkdown_preamble_witness :
    parseMarkdown (join '\n' (demoPreamble ++ split '\n' scenarioInput)) =
        (parseMarkdown scenarioInput).map (shiftLines demoPreamble.length) ∧
      (∀ s : Section,
        (shiftLines demoPreamble.length s).startLine = s.startLine + demoPreamble.length ∧
        (shiftLines demoPreamble.length s).endLine = s.endLine + demoPreamble.length ∧
        (shiftLines demoPreamble.length s).level = s.level ∧
        (shiftLines demoPreamble.length s).title = s.title ∧
        (shiftLines demoPreamble.length s).content = s.content ∧
        (shiftLines demoPreamble.length s).roles = s.roles ∧
        (shiftLines demoPreamble.length s).fileName = s.fileName ∧
        (shiftLines demoPreamble.length s).isFileSeparator = s.isFileSeparator) ∧
      (∀ content : Str, (∀ l ∈ split '\n' content, isHeading l = false) →
        parseMarkdown content = []) :=
  parseMarkdown_preamble demoPreamble scenarioInput (by decide)

/-! ## C17: the title -/

theorem addLine_title (cur : OpenSection) (line : Str) : (addLine cur line).title = cur.title := by
  by_cases h : (extractRolesFromComment line).length > 0 <;> simp [addLine, h]

theorem foldl_addLine_title (body : List Str) :
    ∀ cur : OpenSection, (body.foldl addLine cur).title = cur.title := by
  induction body with
  | nil => intro cur; rfl
  | cons l body ih => intro cur; rw [List.foldl_cons, ih, addLine_title]

theorem sectionOf_title (hashes text : Str) (i : Nat) (body : List Str) :
    (sectionOf hashes text i body).title = trim (removeAll [roleBracketRe] (trim text)) := by
  simp [sectionOf, OpenSection.close, foldl_addLine_title, openSection]

theorem trim_trim (x : Str) : trim (trim x) = trim x :=
  trim_of_fix _ (trim_dropWhile x) (trim_reverse_dropWhile x)

theorem mem_of_mem_trim (x : Str) (c : Char) (hc : c ∈ trim x) : c ∈ x := by
  unfold trim at hc
  rw [List.mem_reverse] at hc
  have h1 := (List.dropWhile_sublist isSpace).subset hc
  rw [List.mem_reverse] at h1
  exact (List.dropWhile_sublist isSpace).subset h1

theorem matchFrom_lit_head {c : Char} {its : List Item} {fin : Str → Bool} {s : Str}
    {gs : List Str} (h : matchFrom (lit c :: its) fin s = some gs) :
    (∃ cs, s = c :: cs) ∧ 1 ≤ matchLen gs := by
  have hm := matchFrom_sound fin _ s gs h
  rw [matches_cons_iff] at hm
  obtain ⟨g, s', gs', rfl, rfl, hg, hlo, -, -⟩ := hm
  have hlo' : 1 ≤ g.length := hlo
  cases g with
  | nil => simp at hlo'
  | cons a r =>
    have ha : a = c := by
      have := hg a (List.mem_cons_self _ _)
      simpa [lit] using this
    subst ha
    refine ⟨⟨r ++ s', rfl⟩, ?_⟩
    simp only [matchLen, List.map_cons, List.sum_cons, List.length_cons]
    omega

theorem firstAlt_single (re : List Item) (s : Str) :
    firstAlt [re] s = matchFrom re anyRest s := by
  simp only [firstAlt]
  cases matchFrom re anyRest s <;> rfl

/-- Every match takes a `[` out of the text: the matches found and the `[` left after the
removal are together at most the `[` of the text. -/
theorem count_open_bracket (its : List Item) (s : Str) :
    ∀ skip : Nat,
      (matchAllAux (lit '[' :: its) skip s).length +
          (removeAllAux [lit '[' :: its] skip s).count '[' ≤ s.count '[' := by
  induction s with
  | nil => intro skip; simp [matchAllAux, removeAllAux]
  | cons c cs ih =>
    intro skip
    cases skip with
    | succ k =>
      have := ih k
      have hle : cs.count '[' ≤ (c :: cs).count '[' := by
        rw [List.count_cons]; omega
      simp only [matchAllAux, removeAllAux]
      omega
    | zero =>
      cases hm : matchFrom (lit '[' :: its) anyRest (c :: cs) with
      | none =>
        have := ih 0
        simp only [matchAllAux, removeAllAux, firstAlt_single, hm, List.count_cons]
        omega
      | some gs =>
        obtain ⟨⟨cs', hcs⟩, hlen⟩ := matchFrom_lit_head hm
        have hc : c = '[' := (List.cons.inj hcs).1
        subst hc
        have hne : ¬ matchLen gs = 0 := by omega
        have := ih (matchLen gs - 1)
        simp only [matchAllAux, removeAllAux, firstAlt_single, hm, hne, if_false,
          List.length_cons, List.count_cons, beq_self_eq_true, if_true]
        omega

theorem matchAllAux_no_open_bracket (its : List Item) (s : Str) (h : ∀ c ∈ s, c ≠ '[') :
    ∀ skip : Nat, matchAllAux (lit '[' :: its) skip s = [] := by
  induction s with
  | nil => intro skip; cases skip <;> rfl
  | cons c cs ih =>
    intro skip
    have hcs : ∀ x ∈ cs, x ≠ '[' := fun x hx => h x (List.mem_cons_of_mem _ hx)
    cases skip with
    | succ k => simp only [matchAllAux]; exact ih hcs k
    | zero =>
      cases hm : matchFrom (lit '[' :: its) anyRest (c :: cs) with
      | none => simp only [matchAllAux, hm]; exact ih hcs 0
      | some gs =>
        obtain ⟨⟨cs', hcs'⟩, -⟩ := matchFrom_lit_head hm
        exact absurd (List.cons.inj hcs').1 (h c (List.mem_cons_self _ _))

theorem roleBracketRe_eq :
    roleBracketRe = lit '[' :: (rolesKw ++
      [⟨isSpace, 0, none⟩, ⟨fun x => x != ']', 1, none⟩, lit ']']) := rfl

theorem no_match_after_removal (text : Str)
    (h : text.count '[' = (matchAll roleBracketRe text).length) :
    matchAll roleBracketRe (trim (removeAll [roleBracketRe] text)) = [] := by
  have hcount := count_open_bracket
    (rolesKw ++ [⟨isSpace, 0, none⟩, ⟨fun x => x != ']', 1, none⟩, lit ']']) text 0
  rw [← roleBracketRe_eq] at hcount
  have hzero : (removeAll [roleBracketRe] text).count '[' = 0 := by
    unfold matchAll at h
    unfold removeAll
    omega
  have hnone : ∀ c ∈ trim (removeAll [roleBracketRe] text), c ≠ '[' := by
    intro c hc hcb
    subst hcb
    have := mem_of_mem_trim _ _ hc
    exact (List.count_eq_zero.mp hzero) this
  unfold matchAll
  rw [roleBracketRe_eq]
  exact matchAllAux_no_open_bracket _ _ hnone 0

/-- C17, as stated, fails: in the heading `# [role[role: x]: y]` the one pass of the
removal takes out `[role: x]`, and the title that is left, `[role: y]`, is itself a match
of the role-bracket pattern. -/
theorem parseMarkdown_title_keeps_bracket :
    parseMarkdown nestedBracketInput =
        [{ level := 1, title := "[role: y]".toList, content := [], startLine := 0, endLine := 0,
           roles := some ["x".toList] }] ∧
      matchAll roleBracketRe "[role: y]".toList = ["[role: y]".toList] := by
  decide

/-- C17, amended: the title of every section of `parseMarkdown` is the trimmed heading text
with every match of the role-bracket pattern found by one left-to-right pass removed, and
trimmed again, so it has no leading or trailing white space; no match of the pattern is
left in it when every `[` of the heading text opens one of the removed matches (the
heading text has as many `[` as it has matches). -/
theorem parseMarkdown_title (content : Str) (s : Section) (hs : s ∈ parseMarkdown content) :
    trim s.title = s.title ∧
      (∀ c, s.title.head? = some c → isSpace c = false) ∧
      (∀ c, s.title.getLast? = some c → isSpace c = false) ∧
      ∃ pre line rest hashes text, split '\n' content = pre ++ line :: rest ∧
        s.startLine = pre.length ∧ headerMatch line = some (hashes, text) ∧
        s.title = trim (removeAll [roleBracketRe] (trim text)) ∧
        ((trim text).count '[' = (matchAll roleBracketRe (trim text)).length →
          matchAll roleBracketRe s.title = []) := by
  obtain ⟨pre, line, rest, hashes, text, hls, hm, hsec, hstart, -, -⟩ :=
    parseMarkdown_mem content s hs
  have htitle : s.title = trim (removeAll [roleBracketRe] (trim text)) := by
    rw [hsec, sectionOf_title]
  refine ⟨by rw [htitle, trim_trim], ?_, ?_, pre, line, rest, hashes, text, hls, hstart, hm,
    htitle, ?_⟩
  · intro c hc
    rw [htitle] at hc
    exact trim_head _ c hc
  · intro c hc
    rw [htitle] at hc
    exact trim_getLast _ c hc
  · intro hcount
    rw [htitle]
    exact no_match_after_removal _ hcount

/-- C17, at concrete inputs: section B of the scenario. -/
theorem parseMarkdown_title_witness :
    trim scenarioB.title = scenarioB.title ∧
      (∀ c, scenarioB.title.head? = some c → isSpace c = false) ∧
      (∀ c, scenarioB.title.getLast? = some c → isSpace c = false) ∧
      ∃ pre line rest hashes text, split '\n' scenarioInput = pre ++ line :: rest ∧
        scenarioB.startLine = pre.length ∧ headerMatch line = some (hashes, text) ∧
        scenarioB.title = trim (removeAll [roleBracketRe] (trim text)) ∧
        ((trim text).count '[' = (matchAll roleBracketRe (trim text)).length →
          matchAll roleBracketRe scenarioB.title = []) :=
  parseMarkdown_title scenarioInput scenarioB (by decide)

/-! ## C18: the two ways of marking roles -/

theorem append_stop_unique {c : Char} :
    ∀ (A B R R' : Str), A ++ c :: R = B ++ c :: R' → c ∉ A → c ∉ B → A = B ∧ R = R' := by
  intro A
  induction A with
  | nil =>
    intro B R R' h _ hB
    cases B with
    | nil => simpa using h
    | cons b B' =>
      simp only [List.nil_append, List.cons_append, List.cons.injEq] at h
      exact absurd (by rw [h.1]; exact List.mem_cons_self _ _) hB
  | cons a A' ih =>
    intro B R R' h hA hB
    cases B with
    | nil =>
      simp only [List.nil_append, List.cons_append, List.cons.injEq] at h
      exact absurd (by rw [h.1]; exact List.mem_cons_self _ _) hA
    | cons b B' =>
      simp only [List.cons_append, List.cons.injEq] at h
      obtain ⟨h1, h2⟩ := ih B' R R' h.2 (fun hm => hA (List.mem_cons_of_mem _ hm))
        (fun hm => hB (List.mem_cons_of_mem _ hm))
      exact ⟨by rw [h.1, h1], h2⟩

/-- A prefix free of `c` of a text whose first `c` comes after `B` is a prefix of `B`. -/
theorem split_before_stop {c : Char} :
    ∀ (g rest B Z : Str), g ++ rest = B ++ c :: Z → c ∉ g → c ∉ B →
      ∃ R, B = g ++ R ∧ rest = R ++ c :: Z := by
  intro g
  induction g with
  | nil => intro rest B Z h _ _; exact ⟨B, rfl, by simpa using h⟩
  | cons a g' ih =>
    intro rest B Z h hg hB
    cases B with
    | nil =>
      simp only [List.nil_append, List.cons_append, List.cons.injEq] at h
      exact absurd (by rw [h.1]; exact List.mem_cons_self _ _) hg
    | cons b B' =>
      simp only [List.cons_append, List.cons.injEq] at h
      obtain ⟨R, h1, h2⟩ := ih rest B' Z h.2 (fun hm => hg (List.mem_cons_of_mem _ hm))
        (fun hm => hB (List.mem_cons_of_mem _ hm))
      exact ⟨R, by rw [h.1, h1]; rfl, h2⟩

theorem dropWhile_append_all {p : Char → Bool} :
    ∀ (a x : Str), (∀ c ∈ a, p c = true) → (a ++ x).dropWhile p = x.dropWhile p := by
  intro a
  induction a with
  | nil => intro x _; rfl
  | cons c a ih =>
    intro x h
    rw [List.cons_append, List.dropWhile_cons, if_pos (h c (List.mem_cons_self _ _))]
    exact ih x (fun d hd => h d (List.mem_cons_of_mem _ hd))

theorem dropWhile_append_of_ne_nil {p : Char → Bool} :
    ∀ (x y : Str), x.dropWhile p ≠ [] → (x ++ y).dropWhile p = x.dropWhile p ++ y := by
  intro x
  induction x with
  | nil => intro y h; simp at h
  | cons c x ih =>
    intro y h
    by_cases hc : p c = true
    · rw [List.dropWhile_cons, if_pos hc] at h
      rw [List.cons_append, List.dropWhile_cons, if_pos hc, List.dropWhile_cons, if_pos hc]
      exact ih y h
    · rw [List.cons_append, List.dropWhile_cons, if_neg hc, List.dropWhile_cons, if_neg hc]
      rfl

theorem dropWhile_eq_nil_all {p : Char → Bool} (x : Str) (h : x.dropWhile p = []) :
    ∀ c ∈ x, p c = true := by
  induction x with
  | nil => intro c hc; simp at hc
  | cons a x ih =>
    by_cases ha : p a = true
    · rw [List.dropWhile_cons, if_pos ha] at h
      intro c hc
      rcases List.mem_cons.mp hc with rfl | hc
      · exact ha
      · exact ih h c hc
    · rw [List.dropWhile_cons, if_neg ha] at h
      cases h

theorem trim_append_left (a x : Str) (ha : ∀ c ∈ a, isSpace c = true) :
    trim (a ++ x) = trim x := by
  unfold trim
  rw [dropWhile_append_all a x ha]

theorem trim_append_right (x b : Str) (hb : ∀ c ∈ b, isSpace c = true) :
    trim (x ++ b) = trim x := by
  have hbr : ∀ c ∈ b.reverse, isSpace c = true := fun c hc => hb c (List.mem_reverse.mp hc)
  unfold trim
  by_cases hx : x.dropWhile isSpace = []
  · have hall := dropWhile_eq_nil_all x hx
    have : (x ++ b).dropWhile isSpace = [] := by
      rw [dropWhile_append_all x b hall]
      exact List.dropWhile_eq_nil_iff.mpr hb
    rw [this, hx]
  · rw [dropWhile_append_of_ne_nil x b hx, List.reverse_append, dropWhile_append_all _ _ hbr]

theorem split_append_left (sep : Char) :
    ∀ (a x : Str), sep ∉ a →
      ∃ hd tl, split sep x = hd :: tl ∧ split sep (a ++ x) = (a ++ hd) :: tl := by
  intro a
  induction a with
  | nil =>
    intro x _
    cases hsp : split sep x with
    | nil => exact absurd hsp (split_ne_nil sep x)
    | cons hd tl => exact ⟨hd, tl, rfl, by simpa using hsp⟩
  | cons c a ih =>
    intro x h
    have hc : ¬ c = sep := fun hc => h (by rw [hc]; exact List.mem_cons_self _ _)
    obtain ⟨hd, tl, h1, h2⟩ := ih x (fun hm => h (List.mem_cons_of_mem _ hm))
    refine ⟨hd, tl, h1, ?_⟩
    have hstep : split sep (c :: (a ++ x)) =
        (match split sep (a ++ x) with
          | [] => [[c]]
          | l :: ls => (c :: l) :: ls) := by
      simp only [split, hc, if_false]
    rw [List.cons_append, hstep, h2]
    rfl

theorem split_append_right (sep : Char) (b : Str) (hb : sep ∉ b) :
    ∀ x : Str, ∃ init last, split sep x = init ++ [last] ∧
      split sep (x ++ b) = init ++ [last ++ b] := by
  intro x
  induction x with
  | nil => exact ⟨[], [], rfl, by simpa using split_of_no_sep sep b hb⟩
  | cons c x ih =>
    obtain ⟨init, last, h1, h2⟩ := ih
    by_cases hc : c = sep
    · refine ⟨[] :: init, last, ?_, ?_⟩
      · simp only [split, hc, if_true, h1, List.cons_append]
      · have hstep : split sep (c :: (x ++ b)) = [] :: split sep (x ++ b) := by
          simp only [split, hc, if_true]
        rw [List.cons_append, hstep, h2, List.cons_append]
    · have hstep1 : split sep (c :: x) =
          (match split sep x with
            | [] => [[c]]
            | l :: ls => (c :: l) :: ls) := by
        simp only [split, hc, if_false]
      have hstep2 : split sep (c :: (x ++ b)) =
          (match split sep (x ++ b) with
            | [] => [[c]]
            | l :: ls => (c :: l) :: ls) := by
        simp only [split, hc, if_false]
      cases init with
      | nil =>
        refine ⟨[], c :: last, ?_, ?_⟩
        · rw [hstep1, h1]; rfl
        · rw [List.cons_append, hstep2, h2]; rfl
      | cons i0 init' =>
        refine ⟨(c :: i0) :: init', last, ?_, ?_⟩
        · rw [hstep1, h1]; rfl
        · rw [List.cons_append, hstep2, h2]; rfl

theorem isSpace_comma : isSpace ',' = false := by decide

theorem comma_not_mem_of_space (a : Str) (ha : ∀ c ∈ a, isSpace c = true) : ',' ∉ a := by
  intro h
  have := ha ',' h
  rw [isSpace_comma] at this
  cases this

theorem splitRoles_append_left (a x : Str) (ha : ∀ c ∈ a, isSpace c = true) :
    splitRoles (a ++ x) = splitRoles x := by
  obtain ⟨hd, tl, h1, h2⟩ := split_append_left ',' a x (comma_not_mem_of_space a ha)
  unfold splitRoles
  rw [h1, h2, List.map_cons, List.map_cons, trim_append_left a hd ha]

theorem splitRoles_append_right (x b : Str) (hb : ∀ c ∈ b, isSpace c = true) :
    splitRoles (x ++ b) = splitRoles x := by
  obtain ⟨init, last, h1, h2⟩ := split_append_right ',' b (comma_not_mem_of_space b hb) x
  unfold splitRoles
  rw [h1, h2, List.map_append, List.map_append, List.map_singleton, List.map_singleton,
    trim_append_right last b hb]

theorem matches_single_cons_iff (fin : Str → Bool) (cls : Char → Bool) (its : List Item)
    (x : Char) (s : Str) (gs : List Str) :
    Matches fin (⟨cls, 1, some 1⟩ :: its) (x :: s) gs ↔
      cls x = true ∧ ∃ gs', gs = [x] :: gs' ∧ Matches fin its s gs' := by
  rw [matches_cons_iff]
  constructor
  · rintro ⟨g, s', gs', hs, rfl, hg, hlo, hhi, hrest⟩
    have h1 : g.length ≤ 1 := hhi 1 rfl
    have h2 : 1 ≤ g.length := hlo
    cases g with
    | nil => simp at h2
    | cons y g' =>
      cases g' with
      | cons z g'' => simp at h1
      | nil =>
        simp only [List.cons_append, List.nil_append, List.cons.injEq] at hs
        obtain ⟨rfl, rfl⟩ := hs
        exact ⟨hg x (List.mem_cons_self _ _), gs', rfl, hrest⟩
  · rintro ⟨hx, gs', rfl, hrest⟩
    refine ⟨[x], s, gs', rfl, rfl, ?_, by simp, ?_, hrest⟩
    · intro c hc
      simp only [List.mem_singleton] at hc
      rw [hc]; exact hx
    · intro h hh
      simp only [Option.some.injEq] at hh
      simp [← hh]

theorem matches_single_nil (fin : Str → Bool) (cls : Char → Bool) (its : List Item)
    (gs : List Str) : ¬ Matches fin (⟨cls, 1, some 1⟩ :: its) [] gs := by
  rw [matches_cons_iff]
  rintro ⟨g, s', gs', hs, -, -, hlo, -, -⟩
  have h2 : 1 ≤ g.length := hlo
  have : g = [] := (List.append_eq_nil.mp hs.symm).1
  rw [this] at h2
  simp at h2

theorem matches_opt_iff (fin : Str → Bool) (cls : Char → Bool) (its : List Item)
    (s : Str) (gs : List Str) :
    Matches fin (⟨cls, 0, some 1⟩ :: its) s gs ↔
      (∃ gs', gs = [] :: gs' ∧ Matches fin its s gs') ∨
      (∃ x s' gs', s = x :: s' ∧ cls x = true ∧ gs = [x] :: gs' ∧ Matches fin its s' gs') := by
  rw [matches_cons_iff]
  constructor
  · rintro ⟨g, s', gs', rfl, rfl, hg, -, hhi, hrest⟩
    have h1 : g.length ≤ 1 := hhi 1 rfl
    cases g with
    | nil => exact Or.inl ⟨gs', rfl, hrest⟩
    | cons y g' =>
      cases g' with
      | cons z g'' => simp at h1
      | nil => exact Or.inr ⟨y, s', gs', rfl, hg y (List.mem_cons_self _ _), rfl, hrest⟩
  · rintro (⟨gs', rfl, hrest⟩ | ⟨x, s', gs', rfl, hx, rfl, hrest⟩)
    · exact ⟨[], s, gs', rfl, rfl, by simp, by simp, by simp, hrest⟩
    · refine ⟨[x], s', gs', rfl, rfl, ?_, by simp, ?_, hrest⟩
      · intro c hc
        simp only [List.mem_singleton] at hc
        rw [hc]; exact hx
      · intro h hh
        simp only [Option.some.injEq] at hh
        simp [← hh]

theorem matches_lit_cons_iff (fin : Str → Bool) (c : Char) (its : List Item)
    (x : Char) (s : Str) (gs : List Str) :
    Matches fin (lit c :: its) (x :: s) gs ↔
      x = c ∧ ∃ gs', gs = [x] :: gs' ∧ Matches fin its s gs' := by
  unfold lit
  rw [matches_single_cons_iff]
  simp

theorem matches_litCI_cons_iff (fin : Str → Bool) (c : Char) (its : List Item)
    (x : Char) (s : Str) (gs : List Str) :
    Matches fin (litCI c :: its) (x :: s) gs ↔
      x.toLower = c ∧ ∃ gs', gs = [x] :: gs' ∧ Matches fin its s gs' := by
  unfold litCI
  rw [matches_single_cons_iff]
  simp

/-- The terms `roles?:` on a text that starts with `roles:` take exactly these six
characters. -/
theorem matches_rolesKw_iff (fin : Str → Bool) (its : List Item) (rest : Str) (gs : List Str) :
    Matches fin (rolesKw ++ its) ('r' :: 'o' :: 'l' :: 'e' :: 's' :: ':' :: rest) gs ↔
      ∃ gs', gs = ['r'] :: ['o'] :: ['l'] :: ['e'] :: ['s'] :: [':'] :: gs' ∧
        Matches fin its rest gs' := by
  show Matches fin (litCI 'r' :: litCI 'o' :: litCI 'l' :: litCI 'e' ::
    ⟨fun x => x.toLower == 's', 0, some 1⟩ :: lit ':' :: its) _ gs ↔ _
  constructor
  · intro h
    rw [matches_litCI_cons_iff] at h
    obtain ⟨-, g1, rfl, h⟩ := h
    rw [matches_litCI_cons_iff] at h
    obtain ⟨-, g2, rfl, h⟩ := h
    rw [matches_litCI_cons_iff] at h
    obtain ⟨-, g3, rfl, h⟩ := h
    rw [matches_litCI_cons_iff] at h
    obtain ⟨-, g4, rfl, h⟩ := h
    rw [matches_opt_iff] at h
    rcases h with ⟨g5, rfl, h⟩ | ⟨x, s', g5, hs', -, rfl, h⟩
    · rw [matches_lit_cons_iff] at h
      exact absurd h.1 (by decide)
    · cases hs'
      rw [matches_lit_cons_iff] at h
      obtain ⟨-, g6, rfl, h⟩ := h
      exact ⟨g6, rfl, h⟩
  · rintro ⟨gs', rfl, h⟩
    refine (matches_litCI_cons_iff _ _ _ _ _ _).mpr ⟨by decide, _, rfl, ?_⟩
    refine (matches_litCI_cons_iff _ _ _ _ _ _).mpr ⟨by decide, _, rfl, ?_⟩
    refine (matches_litCI_cons_iff _ _ _ _ _ _).mpr ⟨by decide, _, rfl, ?_⟩
    refine (matches_litCI_cons_iff _ _ _ _ _ _).mpr ⟨by decide, _, rfl, ?_⟩
    refine (matches_opt_iff _ _ _ _ _).mpr (Or.inr ⟨'s', _, _, rfl, by decide, rfl, ?_⟩)
    exact (matches_lit_cons_iff _ _ _ _ _ _).mpr ⟨rfl, _, rfl, h⟩

theorem isSpace_closeBracket : isSpace ']' = false := by decide

theorem isSpace_openBracket : isSpace '[' = false := by decide

theorem isSpace_dash : isSpace '-' = false := by decide

theorem not_mem_of_space {c : Char} (hc : isSpace c = false) (g : Str)
    (hg : ∀ x ∈ g, isSpace x = true) : c ∉ g := by
  intro h
  rw [hg c h] at hc
  cases hc

theorem not_mem_of_bne {c : Char} (g : Str) (hg : ∀ x ∈ g, (x != c) = true) : c ∉ g := by
  intro h
  have := hg c h
  simp at this

/-- The last three terms of the role-bracket pattern, on a text `u]` with no `]` in `u`,
take the whole text. -/
theorem matches_bracket_tail {u : Str} (hu : ']' ∉ u) {gs : List Str}
    (h : Matches anyRest [⟨isSpace, 0, none⟩, ⟨fun x => x != ']', 1, none⟩, lit ']']
      (u ++ [']']) gs) :
    matchLen gs = u.length + 1 := by
  rw [matches_cons_iff] at h
  obtain ⟨g7, s1, gs1, hs1, rfl, hg7, -, -, h⟩ := h
  rw [matches_cons_iff] at h
  obtain ⟨g8, s2, gs2, rfl, rfl, hg8, -, -, h⟩ := h
  cases s2 with
  | nil => exact absurd h (matches_single_nil _ _ _ _)
  | cons x s3 =>
    rw [matches_lit_cons_iff] at h
    obtain ⟨rfl, gs3, rfl, h⟩ := h
    rw [matches_nil_iff] at h
    obtain ⟨rfl, -⟩ := h
    have hne : ']' ∉ g7 ++ g8 := by
      intro hm
      rcases List.mem_append.mp hm with hm | hm
      · exact not_mem_of_space isSpace_closeBracket g7 hg7 hm
      · exact not_mem_of_bne g8 hg8 hm
    have hkey : u ++ ']' :: [] = (g7 ++ g8) ++ ']' :: s3 := by
      rw [hs1]; simp
    obtain ⟨hu', -⟩ := append_stop_unique _ _ _ _ hkey hu hne
    simp only [matchLen, List.map_cons, List.map_nil, List.sum_cons, List.sum_nil,
      List.length_singleton, hu', List.length_append]
    omega

theorem roleBracketRe_unfold :
    roleBracketRe = lit '[' :: (rolesKw ++
      [⟨isSpace, 0, none⟩, ⟨fun x => x != ']', 1, none⟩, lit ']']) := rfl

theorem roleOpenRe_unfold : roleOpenRe = lit '[' :: (rolesKw ++ [⟨isSpace, 0, none⟩]) := rfl

/-- The role-bracket pattern matches the whole of `[roles: t]` when `t` has no `]`. -/
theorem matchFrom_rolesBracket (t : Str) (ht : ']' ∉ t) :
    ∃ gs, matchFrom roleBracketRe anyRest (rolesBracket t) = some gs ∧
      matchLen gs = (rolesBracket t).length := by
  have hex : Matches anyRest roleBracketRe (rolesBracket t)
      (['['] :: ['r'] :: ['o'] :: ['l'] :: ['e'] :: ['s'] :: [':'] ::
        [[], ' ' :: t, [']']]) := by
    rw [roleBracketRe_unfold]
    unfold rolesBracket
    refine (matches_lit_cons_iff _ _ _ _ _ _).mpr ⟨rfl, _, rfl, ?_⟩
    refine (matches_rolesKw_iff _ _ _ _).mpr ⟨_, rfl, ?_⟩
    refine (matches_cons_iff _ _ _ _ _).mpr ⟨[], _, _, rfl, rfl, by simp, by simp, by simp, ?_⟩
    refine (matches_cons_iff _ _ _ _ _).mpr ⟨' ' :: t, [']'], _, by simp, rfl, ?_, by simp,
      by simp, ?_⟩
    · intro c hc
      rcases List.mem_cons.mp hc with rfl | hc
      · decide
      · simp only [bne_iff_ne, ne_eq]
        intro h; subst h; exact ht hc
    · exact (matches_lit_cons_iff _ _ _ _ _ _).mpr ⟨rfl, _, rfl, Matches.nil rfl⟩
  obtain ⟨gs, hgs⟩ := Option.isSome_iff_exists.mp (matchFrom_complete anyRest hex)
  refine ⟨gs, hgs, ?_⟩
  have hm := matchFrom_sound anyRest _ _ _ hgs
  rw [roleBracketRe_unfold] at hm
  unfold rolesBracket at hm ⊢
  rw [matches_lit_cons_iff] at hm
  obtain ⟨-, gs1, rfl, hm⟩ := hm
  rw [matches_rolesKw_iff] at hm
  obtain ⟨gs2, rfl, hm⟩ := hm
  have hu : ']' ∉ ' ' :: t := by
    intro h
    rcases List.mem_cons.mp h with h | h
    · exact absurd h (by decide)
    · exact ht h
  have := matches_bracket_tail (u := ' ' :: t) hu (by simpa using hm)
  simp only [matchLen, List.map_cons, List.sum_cons, List.length_cons, List.length_nil,
    List.length_append] at this ⊢
  omega

theorem matchAllAux_skip_all (re : List Item) (s : Str) :
    ∀ skip : Nat, s.length ≤ skip → matchAllAux re skip s = [] := by
  induction s with
  | nil => intro skip _; cases skip <;> rfl
  | cons c cs ih =>
    intro skip h
    cases skip with
    | zero => simp at h
    | succ k =>
      simp only [matchAllAux]
      exact ih k (by simpa using h)

theorem matchAllAux_plain_start (its : List Item) (X s : Str) (hX : ∀ c ∈ X, c ≠ '[') :
    matchAllAux (lit '[' :: its) 0 (X ++ s) = matchAllAux (lit '[' :: its) 0 s := by
  induction X with
  | nil => rfl
  | cons c X ih =>
    have hc : c ≠ '[' := hX c (List.mem_cons_self _ _)
    cases hm : matchFrom (lit '[' :: its) anyRest (c :: (X ++ s)) with
    | none =>
      rw [List.cons_append]
      simp only [matchAllAux, hm]
      exact ih (fun x hx => hX x (List.mem_cons_of_mem _ hx))
    | some gs =>
      obtain ⟨⟨cs', hcs'⟩, -⟩ := matchFrom_lit_head hm
      exact absurd (List.cons.inj hcs').1 hc

/-- In a text `X[roles: t]`, with no `[` in `X` and no `]` in `t`, the role-bracket
pattern finds the one match `[roles: t]`. -/
theorem matchAll_rolesBracket (X t : Str) (hX : ∀ c ∈ X, c ≠ '[') (ht : ']' ∉ t) :
    matchAll roleBracketRe (X ++ rolesBracket t) = [rolesBracket t] := by
  obtain ⟨gs, hgs, hlen⟩ := matchFrom_rolesBracket t ht
  unfold matchAll
  rw [roleBracketRe_unfold, matchAllAux_plain_start _ X _ hX, ← roleBracketRe_unfold]
  have hcons : rolesBracket t =
      '[' :: ('r' :: 'o' :: 'l' :: 'e' :: 's' :: ':' :: ' ' :: (t ++ [']'])) := rfl
  have hne : ¬ matchLen gs = 0 := by
    rw [hlen, hcons]; simp
  rw [hcons] at hgs hlen ⊢
  simp only [matchAllAux, hgs, hne, if_false]
  rw [hlen, List.take_length, matchAllAux_skip_all _ _ _ (by simp)]

theorem removeAllAux_skip (alts : List (List Item)) (s : Str) :
    ∀ k : Nat, removeAllAux alts k s = removeAllAux alts 0 (s.drop k) := by
  induction s with
  | nil => intro k; cases k <;> rfl
  | cons c cs ih =>
    intro k
    cases k with
    | zero => rfl
    | succ k =>
      simp only [removeAllAux, List.drop_succ_cons]
      exact ih k

theorem matchFrom_lit_ne {c x : Char} (its : List Item) (fin : Str → Bool) (s : Str)
    (h : x ≠ c) : matchFrom (lit c :: its) fin (x :: s) = none := by
  cases hm : matchFrom (lit c :: its) fin (x :: s) with
  | none => rfl
  | some gs =>
    obtain ⟨⟨cs', hcs'⟩, -⟩ := matchFrom_lit_head hm
    exact absurd (List.cons.inj hcs').1 h

theorem firstAlt_role_plain (x : Char) (s : Str) (h1 : x ≠ '[') (h2 : x ≠ ']') :
    firstAlt [roleOpenRe, roleCloseRe] (x :: s) = none := by
  simp only [firstAlt, roleOpenRe_unfold, roleCloseRe, matchFrom_lit_ne _ _ _ h1,
    matchFrom_lit_ne _ _ _ h2]

theorem removeAllAux_plain (R : Str) (hR : ∀ c ∈ R, c ≠ '[' ∧ c ≠ ']') :
    removeAllAux [roleOpenRe, roleCloseRe] 0 (R ++ [']']) = R := by
  induction R with
  | nil => decide
  | cons c R ih =>
    obtain ⟨h1, h2⟩ := hR c (List.mem_cons_self _ _)
    rw [List.cons_append]
    simp only [removeAllAux, firstAlt_role_plain c _ h1 h2]
    rw [ih (fun x hx => hR x (List.mem_cons_of_mem _ hx))]

/-- The names of the bracket `[roles: t]`, for `t` without `[` and `]`, are the names of
`t`. -/
theorem splitRoles_roleListOf_rolesBracket (t : Str) (ht : ∀ c ∈ t, c ≠ '[' ∧ c ≠ ']') :
    splitRoles (roleListOf (rolesBracket t)) = splitRoles t := by
  have hex : Matches anyRest roleOpenRe (rolesBracket t)
      (['['] :: ['r'] :: ['o'] :: ['l'] :: ['e'] :: ['s'] :: [':'] :: [[]]) := by
    rw [roleOpenRe_unfold]
    unfold rolesBracket
    refine (matches_lit_cons_iff _ _ _ _ _ _).mpr ⟨rfl, _, rfl, ?_⟩
    refine (matches_rolesKw_iff _ _ _ _).mpr ⟨_, rfl, ?_⟩
    exact (matches_cons_iff _ _ _ _ _).mpr
      ⟨[], _, _, rfl, rfl, by simp, by simp, by simp, Matches.nil rfl⟩
  obtain ⟨gs, hgs⟩ := Option.isSome_iff_exists.mp (matchFrom_complete anyRest hex)
  have hm := matchFrom_sound anyRest _ _ _ hgs
  rw [roleOpenRe_unfold] at hm
  unfold rolesBracket at hm
  rw [matches_lit_cons_iff] at hm
  obtain ⟨-, gs1, rfl, hm⟩ := hm
  rw [matches_rolesKw_iff] at hm
  obtain ⟨gs2, rfl, hm⟩ := hm
  rw [matches_cons_iff] at hm
  obtain ⟨g7, r, gs3, hsplit, rfl, hg7, -, -, hm⟩ := hm
  rw [matches_nil_iff] at hm
  obtain ⟨rfl, -⟩ := hm
  have hu : ']' ∉ ' ' :: t := by
    intro h
    rcases List.mem_cons.mp h with h | h
    · exact absurd h (by decide)
    · exact (ht _ h).2 rfl
  have hkey : g7 ++ r = (' ' :: t) ++ ']' :: [] := by
    rw [← hsplit]; simp
  obtain ⟨R, hR1, hR2⟩ := split_before_stop g7 r (' ' :: t) [] hkey
    (not_mem_of_space isSpace_closeBracket g7 hg7) hu
  have hRplain : ∀ c ∈ R, c ≠ '[' ∧ c ≠ ']' := by
    intro c hc
    have hmem : c ∈ ' ' :: t := by rw [hR1]; exact List.mem_append_right _ hc
    rcases List.mem_cons.mp hmem with rfl | hmem
    · exact ⟨by decide, by decide⟩
    · exact ht c hmem
  have hlen : matchLen (['['] :: ['r'] :: ['o'] :: ['l'] :: ['e'] :: ['s'] :: [':'] :: [g7]) =
      7 + g7.length := by
    simp only [matchLen, List.map_cons, List.map_nil, List.sum_cons, List.sum_nil,
      List.length_singleton]
    omega
  have hlist : roleListOf (rolesBracket t) = R := by
    have hcons : rolesBracket t =
        '[' :: ('r' :: 'o' :: 'l' :: 'e' :: 's' :: ':' :: ' ' :: (t ++ [']'])) := rfl
    have hfirst : firstAlt [roleOpenRe, roleCloseRe] (rolesBracket t) =
        some (['['] :: ['r'] :: ['o'] :: ['l'] :: ['e'] :: ['s'] :: [':'] :: [g7]) := by
      simp only [firstAlt, hgs]
    have hne : ¬ matchLen (['['] :: ['r'] :: ['o'] :: ['l'] :: ['e'] :: ['s'] :: [':'] ::
        [g7]) = 0 := by
      rw [hlen]; omega
    unfold roleListOf removeAll
    rw [hcons] at hfirst ⊢
    simp only [removeAllAux, hfirst, hne, if_false]
    rw [removeAllAux_skip, hlen]
    have hdrop : List.drop (7 + g7.length - 1)
        ('r' :: 'o' :: 'l' :: 'e' :: 's' :: ':' :: ' ' :: (t ++ [']'])) = R ++ [']'] := by
      have h6 : 7 + g7.length - 1 = g7.length + 6 := by omega
      rw [h6]
      simp only [List.drop_succ_cons]
      have : ' ' :: (t ++ [']']) = g7 ++ (R ++ [']']) := by
        rw [← List.append_assoc, ← hR1]; rfl
      rw [this, List.drop_left]
    rw [hdrop, removeAllAux_plain R hRplain]
  rw [hlist, ← splitRoles_append_left g7 R hg7, ← hR1]
  exact splitRoles_append_left [' '] t (by decide)

theorem commentRe_unfold :
    commentRe = lit '<' :: lit '!' :: lit '-' :: lit '-' :: ⟨isSpace, 0, none⟩ :: (rolesKw ++
      [⟨isSpace, 0, none⟩, ⟨fun x => x != '-', 1, none⟩, ⟨isSpace, 0, none⟩,
       lit '-', lit '-', lit '>']) := rfl

/-- The first white-space term of the comment pattern, on a blank followed by `r`, takes
the blank. -/
theorem matches_blank_then_r (fin : Str → Bool) (its : List Item) (rest : Str)
    (gs : List Str)
    (h : Matches fin (⟨isSpace, 0, none⟩ :: (rolesKw ++ its)) (' ' :: 'r' :: rest) gs) :
    ∃ gs', gs = [' '] :: gs' ∧ Matches fin (rolesKw ++ its) ('r' :: rest) gs' := by
  rw [matches_cons_iff] at h
  obtain ⟨g, s', gs', hs, rfl, hg, -, -, h⟩ := h
  have hkw : rolesKw ++ its = litCI 'r' :: (litCI 'o' :: litCI 'l' :: litCI 'e' ::
      ⟨fun x => x.toLower == 's', 0, some 1⟩ :: lit ':' :: its) := rfl
  cases g with
  | nil =>
    simp only [List.nil_append] at hs
    subst hs
    rw [hkw, matches_litCI_cons_iff] at h
    exact absurd h.1 (by decide)
  | cons y g' =>
    simp only [List.cons_append, List.cons.injEq] at hs
    obtain ⟨rfl, hs⟩ := hs
    cases g' with
    | nil =>
      simp only [List.nil_append] at hs
      subst hs
      exact ⟨gs', rfl, h⟩
    | cons z g'' =>
      simp only [List.cons_append, List.cons.injEq] at hs
      have hz := hg z (List.mem_cons_of_mem _ (List.mem_cons_self _ _))
      rw [← hs.1] at hz
      exact absurd hz (by decide)

/-- The last six terms of the comment pattern, on ` t -->` with no `-` in `t`: the three
texts they take before `-->` make up the blank, `t` and the blank. -/
theorem matches_comment_tail {t : Str} (ht : '-' ∉ t) {gs : List Str}
    (h : Matches anyRest [⟨isSpace, 0, none⟩, ⟨fun x => x != '-', 1, none⟩, ⟨isSpace, 0, none⟩,
      lit '-', lit '-', lit '>'] (' ' :: (t ++ [' ', '-', '-', '>'])) gs) :
    ∃ g11 g12 g13, gs = [g11, g12, g13, ['-'], ['-'], ['>']] ∧
      g11 ++ g12 ++ g13 = ' ' :: (t ++ [' ']) ∧
      (∀ c ∈ g11, isSpace c = true) ∧ (∀ c ∈ g13, isSpace c = true) := by
  rw [matches_cons_iff] at h
  obtain ⟨g11, s1, gs1, hs1, rfl, hg11, -, -, h⟩ := h
  rw [matches_cons_iff] at h
  obtain ⟨g12, s2, gs2, rfl, rfl, hg12, -, -, h⟩ := h
  rw [matches_cons_iff] at h
  obtain ⟨g13, s3, gs3, rfl, rfl, hg13, -, -, h⟩ := h
  cases s3 with
  | nil => exact absurd h (matches_single_nil _ _ _ _)
  | cons x1 s4 =>
    rw [matches_lit_cons_iff] at h
    obtain ⟨rfl, gs4, rfl, h⟩ := h
    cases s4 with
    | nil => exact absurd h (matches_single_nil _ _ _ _)
    | cons x2 s5 =>
      rw [matches_lit_cons_iff] at h
      obtain ⟨rfl, gs5, rfl, h⟩ := h
      cases s5 with
      | nil => exact absurd h (matches_single_nil _ _ _ _)
      | cons x3 s6 =>
        rw [matches_lit_cons_iff] at h
        obtain ⟨rfl, gs6, rfl, h⟩ := h
        rw [matches_nil_iff] at h
        obtain ⟨rfl, -⟩ := h
        have hne : '-' ∉ g11 ++ g12 ++ g13 := by
          intro hm
          rcases List.mem_append.mp hm with hm | hm
          · rcases List.mem_append.mp hm with hm | hm
            · exact not_mem_of_space isSpace_dash g11 hg11 hm
            · exact not_mem_of_bne g12 hg12 hm
          · exact not_mem_of_space isSpace_dash g13 hg13 hm
        have hu : '-' ∉ ' ' :: (t ++ [' ']) := by
          intro hm
          rcases List.mem_cons.mp hm with hm | hm
          · exact absurd hm (by decide)
          · rcases List.mem_append.mp hm with hm | hm
            · exact ht hm
            · simp only [List.mem_singleton] at hm
              exact absurd hm (by decide)
        have hkey : (g11 ++ g12 ++ g13) ++ '-' :: ('-' :: '>' :: s6) =
            (' ' :: (t ++ [' '])) ++ '-' :: ['-', '>'] := by
          have h2 : (' ' :: (t ++ [' '])) ++ '-' :: ['-', '>'] =
              ' ' :: (t ++ [' ', '-', '-', '>']) := by simp
          rw [h2, hs1]
          simp only [List.append_assoc]
        obtain ⟨hmid, -⟩ := append_stop_unique _ _ _ _ hkey hne hu
        exact ⟨g11, g12, g13, rfl, hmid, hg11, hg13⟩

/-- The comment `<!-- roles: t -->`, for `t` without `-`, gives the names of `t`. -/
theorem extractRolesFromComment_rolesComment (t : Str) (ht : '-' ∉ t) :
    extractRolesFromComment (rolesComment t) = splitRoles t := by
  have hex : Matches anyRest commentRe (rolesComment t)
      (['<'] :: ['!'] :: ['-'] :: ['-'] :: [' '] :: ['r'] :: ['o'] :: ['l'] :: ['e'] :: ['s'] ::
        [':'] :: [[], ' ' :: (t ++ [' ']), [], ['-'], ['-'], ['>']]) := by
    rw [commentRe_unfold]
    unfold rolesComment
    refine (matches_lit_cons_iff _ _ _ _ _ _).mpr ⟨rfl, _, rfl, ?_⟩
    refine (matches_lit_cons_iff _ _ _ _ _ _).mpr ⟨rfl, _, rfl, ?_⟩
    refine (matches_lit_cons_iff _ _ _ _ _ _).mpr ⟨rfl, _, rfl, ?_⟩
    refine (matches_lit_cons_iff _ _ _ _ _ _).mpr ⟨rfl, _, rfl, ?_⟩
    refine (matches_cons_iff _ _ _ _ _).mpr
      ⟨[' '], _, _, rfl, rfl, by decide, by simp, by simp, ?_⟩
    refine (matches_rolesKw_iff _ _ _ _).mpr ⟨_, rfl, ?_⟩
    refine (matches_cons_iff _ _ _ _ _).mpr ⟨[], _, _, rfl, rfl, by simp, by simp, by simp, ?_⟩
    refine (matches_cons_iff _ _ _ _ _).mpr
      ⟨' ' :: (t ++ [' ']), ['-', '-', '>'], _, by simp, rfl, ?_, by simp, by simp, ?_⟩
    · intro c hc
      simp only [bne_iff_ne, ne_eq]
      intro h
      subst h
      rcases List.mem_cons.mp hc with hc | hc
      · exact absurd hc (by decide)
      · rcases List.mem_append.mp hc with hc | hc
        · exact ht hc
        · simp only [List.mem_singleton] at hc
          exact absurd hc (by decide)
    refine (matches_cons_iff _ _ _ _ _).mpr ⟨[], _, _, rfl, rfl, by simp, by simp, by simp, ?_⟩
    refine (matches_lit_cons_iff _ _ _ _ _ _).mpr ⟨rfl, _, rfl, ?_⟩
    refine (matches_lit_cons_iff _ _ _ _ _ _).mpr ⟨rfl, _, rfl, ?_⟩
    exact (matches_lit_cons_iff _ _ _ _ _ _).mpr ⟨rfl, _, rfl, Matches.nil rfl⟩
  obtain ⟨gs, hgs⟩ := Option.isSome_iff_exists.mp (matchFrom_complete anyRest hex)
  have hm := matchFrom_sound anyRest _ _ _ hgs
  rw [commentRe_unfold] at hm
  unfold rolesComment at hm
  rw [matches_lit_cons_iff] at hm
  obtain ⟨-, gs0, rfl, hm⟩ := hm
  rw [matches_lit_cons_iff] at hm
  obtain ⟨-, gs1, rfl, hm⟩ := hm
  rw [matches_lit_cons_iff] at hm
  obtain ⟨-, gs2, rfl, hm⟩ := hm
  rw [matches_lit_cons_iff] at hm
  obtain ⟨-, gs3, rfl, hm⟩ := hm
  obtain ⟨gs4, rfl, hm4⟩ := matches_blank_then_r _ _ _ _ hm
  rw [matches_rolesKw_iff] at hm4
  obtain ⟨gs5, rfl, hm5⟩ := hm4
  obtain ⟨g11, g12, g13, rfl, hmid, hg11, hg13⟩ := matches_comment_tail ht hm5
  have hfirst : matchFirst commentRe (rolesComment t) = some
      (['<'] :: ['!'] :: ['-'] :: ['-'] :: [' '] :: ['r'] :: ['o'] :: ['l'] :: ['e'] :: ['s'] ::
        [':'] :: [g11, g12, g13, ['-'], ['-'], ['>']]) := by
    have hcons : rolesComment t = '<' :: ('!' :: '-' :: '-' :: ' ' :: 'r' :: 'o' :: 'l' ::
        'e' :: 's' :: ':' :: ' ' :: (t ++ [' ', '-', '-', '>'])) := rfl
    rw [hcons] at hgs ⊢
    simp only [matchFirst, hgs]
  unfold extractRolesFromComment
  rw [hfirst]
  show splitRoles g12 = splitRoles t
  rw [← splitRoles_append_right g12 g13 hg13, ← splitRoles_append_left g11 _ hg11,
    ← List.append_assoc, hmid]
  have h1 : ' ' :: (t ++ [' ']) = [' '] ++ (t ++ [' ']) := rfl
  rw [h1, splitRoles_append_left [' '] _ (by decide), splitRoles_append_right t [' '] (by decide)]

theorem isLineTerminator_newline : isLineTerminator '\n' = true := by decide

theorem newline_not_mem (u : Str) (hu : ∀ c ∈ u, isLineTerminator c = false) : '\n' ∉ u := by
  intro h
  have := hu _ h
  rw [isLineTerminator_newline] at this
  cases this

/-- A line `# u`, with `u` non-empty and free of line terminators, is a heading of level 1
whose text is `u` without some of its leading white space. -/
theorem headerMatch_hash_blank (u : Str) (hne : u ≠ [])
    (hu : ∀ c ∈ u, isLineTerminator c = false) :
    ∃ text w, headerMatch ('#' :: ' ' :: u) = some (['#'], text) ∧ ' ' :: u = w ++ text ∧
      w ≠ [] ∧ ∀ c ∈ w, isSpace c = true := by
  have hshape : HeadingShape ('#' :: ' ' :: u) :=
    ⟨1, [' '], u, le_refl 1, by omega, rfl, by simp, by decide, hne, hu⟩
  have hh := (isHeading_iff_shape _).mpr hshape
  cases hm : headerMatch ('#' :: ' ' :: u) with
  | none => simp [isHeading, hm] at hh
  | some ht =>
    obtain ⟨hashes, text⟩ := ht
    obtain ⟨h1, -, -, w, hline, hw, hws, -, -⟩ := headerMatch_eq_some hm
    have hhash : hashes = ['#'] := by
      rw [h1]
      simp [List.takeWhile_cons]
    subst hhash
    refine ⟨text, w, rfl, ?_, hw, hws⟩
    simpa using hline

theorem headerMatch_rolesComment (t : Str) : headerMatch (rolesComment t) = none := by
  cases hm : headerMatch (rolesComment t) with
  | none => rfl
  | some ht =>
    obtain ⟨hashes, text⟩ := ht
    obtain ⟨h1, h2, -⟩ := headerMatch_eq_some hm
    have : hashes = [] := by
      rw [h1]
      simp [rolesComment, List.takeWhile_cons]
    rw [this] at h2
    simp at h2

theorem trim_before_bracket (R t : Str) :
    trim (R ++ rolesBracket t) = R.dropWhile isSpace ++ rolesBracket t := by
  have hB1 : (rolesBracket t).dropWhile isSpace = rolesBracket t := by
    unfold rolesBracket
    rw [List.dropWhile_cons, if_neg (by decide)]
  have hBr : ∀ Y : Str, ((Y ++ rolesBracket t).reverse.dropWhile isSpace).reverse =
      Y ++ rolesBracket t := by
    intro Y
    have hlast : rolesBracket t =
        ('[' :: 'r' :: 'o' :: 'l' :: 'e' :: 's' :: ':' :: ' ' :: t) ++ [']'] := rfl
    have hrev : (Y ++ rolesBracket t).reverse =
        ']' :: (Y ++ ('[' :: 'r' :: 'o' :: 'l' :: 'e' :: 's' :: ':' :: ' ' :: t)).reverse := by
      rw [hlast, ← List.append_assoc, List.reverse_append]
      rfl
    rw [hrev, List.dropWhile_cons, if_neg (by decide), ← hrev, List.reverse_reverse]
  unfold trim
  by_cases hx : R.dropWhile isSpace = []
  · rw [dropWhile_append_all R _ (dropWhile_eq_nil_all R hx), hB1, hx]
    exact hBr []
  · rw [dropWhile_append_of_ne_nil R _ hx]
    exact hBr _

theorem extractRoles_no_bracket (text : Str) (h : ∀ c ∈ text, c ≠ '[') :
    extractRoles text = [] := by
  have : matchAll roleBracketRe text = [] := by
    unfold matchAll
    rw [roleBracketRe_unfold]
    exact matchAllAux_no_open_bracket _ _ h 0
  simp [extractRoles, this]

theorem uniq_eq_nil_iff (l : List Str) : uniq l = [] ↔ l = [] := by
  cases l with
  | nil => simp [uniq]
  | cons r rs => simp [uniq]

theorem extractRoles_before_bracket (X t : Str) (hX : ∀ c ∈ X, c ≠ '[')
    (ht : ∀ c ∈ t, c ≠ '[' ∧ c ≠ ']') :
    extractRoles (X ++ rolesBracket t) = uniq (splitRoles t) := by
  have hm := matchAll_rolesBracket X t hX (fun h => (ht _ h).2 rfl)
  simp only [extractRoles, hm, List.isEmpty_cons, Bool.false_eq_true, if_false,
    List.flatMap_cons, List.flatMap_nil, List.append_nil,
    splitRoles_roleListOf_rolesBracket t ht]

/-- The section parsed from `# T` and the comment line `<!-- roles: t -->`. -/
theorem parseMarkdown_commentMarked (T t : Str) (hT : T ≠ [])
    (hT' : ∀ c ∈ T, c ≠ '[' ∧ isLineTerminator c = false)
    (ht : ∀ c ∈ t, c ≠ '-' ∧ isLineTerminator c = false) :
    ∃ s1, parseMarkdown (commentMarked T t) = [s1] ∧
      s1.roles = if splitRoles t = [] then none else some (splitRoles t) := by
  obtain ⟨text, w, hm, hsplit, hw, -⟩ :=
    headerMatch_hash_blank T hT (fun c hc => (hT' c hc).2)
  have htext : ∀ c ∈ text, c ≠ '[' := by
    intro c hc
    have hmem : c ∈ ' ' :: T := by rw [hsplit]; exact List.mem_append_right _ hc
    cases w with
    | nil => exact absurd rfl hw
    | cons y w' =>
      simp only [List.cons_append, List.cons.injEq] at hsplit
      have hcT : c ∈ T := by rw [hsplit.2]; exact List.mem_append_right _ hc
      exact (hT' c hcT).1
  have hlines : split '\n' (commentMarked T t) = ['#' :: ' ' :: T, rolesComment t] := by
    have h1 : '\n' ∉ '#' :: ' ' :: T := by
      intro h
      rcases List.mem_cons.mp h with h | h
      · exact absurd h (by decide)
      · rcases List.mem_cons.mp h with h | h
        · exact absurd h (by decide)
        · exact newline_not_mem T (fun c hc => (hT' c hc).2) h
    have h2 : '\n' ∉ rolesComment t := by
      have hform : rolesComment t = "<!-- roles: ".toList ++ (t ++ " -->".toList) := rfl
      rw [hform]
      intro h
      rcases List.mem_append.mp h with h | h
      · exact absurd h (by decide)
      · rcases List.mem_append.mp h with h | h
        · exact newline_not_mem t (fun c hc => (ht c hc).2) h
        · exact absurd h (by decide)
    have hform : commentMarked T t = ('#' :: ' ' :: T) ++ '\n' :: rolesComment t := rfl
    rw [hform, split_append_sep '\n' _ _ h1, split_of_no_sep '\n' _ h2]
  have hbody : bodyOf [rolesComment t] = [rolesComment t] := by
    simp [bodyOf, isHeading, headerMatch_rolesComment]
  refine ⟨sectionOf ['#'] text 0 [rolesComment t], ?_, ?_⟩
  · rw [parseMarkdown_eq, hlines]
    simp only [sectionsFrom, hm, headerMatch_rolesComment, hbody]
  · rw [sectionOf_roles]
    have hno : extractRoles (trim text) = [] :=
      extractRoles_no_bracket _ (fun c hc => htext c (mem_of_mem_trim _ _ hc))
    have hflat : [rolesComment t].flatMap extractRolesFromComment = splitRoles t := by
      simp [extractRolesFromComment_rolesComment t (fun h => (ht _ h).1 rfl)]
    rw [hflat, hno]
    simp

/-- The section parsed from `# T [roles: t]`. -/
theorem parseMarkdown_headingMarked (T t : Str)
    (hT' : ∀ c ∈ T, c ≠ '[' ∧ isLineTerminator c = false)
    (ht : ∀ c ∈ t, c ≠ '[' ∧ c ≠ ']' ∧ isLineTerminator c = false) :
    ∃ s2, parseMarkdown (headingMarked T t) = [s2] ∧
      s2.roles = if uniq (splitRoles t) = [] then none else some (uniq (splitRoles t)) := by
  have hBlt : ∀ c ∈ rolesBracket t, isLineTerminator c = false := by
    have hform : rolesBracket t = "[roles: ".toList ++ (t ++ "]".toList) := rfl
    have hpre : ∀ c ∈ "[roles: ".toList, isLineTerminator c = false := by decide
    have hpost : ∀ c ∈ "]".toList, isLineTerminator c = false := by decide
    rw [hform]
    intro c hc
    rcases List.mem_append.mp hc with hc | hc
    · exact hpre c hc
    · rcases List.mem_append.mp hc with hc | hc
      · exact (ht c hc).2.2
      · exact hpost c hc
  have hu : ∀ c ∈ T ++ ' ' :: rolesBracket t, isLineTerminator c = false := by
    intro c hc
    rcases List.mem_append.mp hc with hc | hc
    · exact (hT' c hc).2
    · rcases List.mem_cons.mp hc with rfl | hc
      · decide
      · exact hBlt c hc
  obtain ⟨text, w, hm, hsplit, -, hws⟩ :=
    headerMatch_hash_blank (T ++ ' ' :: rolesBracket t) (by simp) hu
  have hkey : w ++ text = (' ' :: (T ++ [' '])) ++
      '[' :: ('r' :: 'o' :: 'l' :: 'e' :: 's' :: ':' :: ' ' :: (t ++ [']'])) := by
    rw [← hsplit]
    simp [rolesBracket]
  have hpre : '[' ∉ ' ' :: (T ++ [' ']) := by
    intro h
    rcases List.mem_cons.mp h with h | h
    · exact absurd h (by decide)
    · rcases List.mem_append.mp h with h | h
      · exact (hT' _ h).1 rfl
      · simp only [List.mem_singleton] at h
        exact absurd h (by decide)
  obtain ⟨R, hR1, hR2⟩ := split_before_stop w text _ _ hkey
    (not_mem_of_space isSpace_openBracket w hws) hpre
  have htext : text = R ++ rolesBracket t := hR2
  have hRno : ∀ c ∈ R.dropWhile isSpace, c ≠ '[' := by
    intro c hc hcb
    subst hcb
    have h1 : '[' ∈ R := (List.dropWhile_sublist isSpace).subset hc
    exact hpre (by rw [hR1]; exact List.mem_append_right _ h1)
  have hlines : split '\n' (headingMarked T t) = [headingMarked T t] := by
    apply split_of_no_sep
    intro h
    rcases List.mem_cons.mp h with h | h
    · exact absurd h (by decide)
    · rcases List.mem_cons.mp h with h | h
      · exact absurd h (by decide)
      · exact newline_not_mem _ hu h
  refine ⟨sectionOf ['#'] text 0 [], ?_, ?_⟩
  · rw [parseMarkdown_eq, hlines]
    have hform : headingMarked T t = '#' :: ' ' :: (T ++ ' ' :: rolesBracket t) := rfl
    rw [hform]
    simp only [sectionsFrom, hm, bodyOf, List.takeWhile_nil]
  · rw [sectionOf_roles, htext, trim_before_bracket,
      extractRoles_before_bracket _ t hRno (fun c hc => ⟨(ht c hc).1, (ht c hc).2.1⟩)]
    simp

/-- C18 at the role name `task-executor`: the name has no `]`, no `>` and no line break,
and the title `T` has no role markup.  The heading `# T [roles: task-executor]` gives the
section the role `task-executor`; the comment `<!-- roles: task-executor -->` under the
heading `# T` gives it no role at all, because the comment pattern takes the names from
`[^-]+` and so stops at the hyphen of the name.  A list without a hyphen,
`Coordinator, executor`, is attached by both ways, lower-cased. -/
theorem role_marking_methods_differ :
    commentMarked "T".toList "task-executor".toList =
        "# T\n<!-- roles: task-executor -->".toList ∧
      headingMarked "T".toList "task-executor".toList = "# T [roles: task-executor]".toList ∧
      (parseMarkdown (commentMarked "T".toList "task-executor".toList)).map Section.roles =
        [none] ∧
      (parseMarkdown (headingMarked "T".toList "task-executor".toList)).map Section.roles =
        [some ["task-executor".toList]] ∧
      extractRolesFromComment "<!-- roles: task-executor -->".toList = [] ∧
      extractRoles "T [roles: task-executor]".toList = ["task-executor".toList] ∧
      (parseMarkdown (commentMarked "T".toList "Coordinator, executor".toList)).map
        Section.roles = [some ["coordinator".toList, "executor".toList]] ∧
      (parseMarkdown (headingMarked "T".toList "Coordinator, executor".toList)).map
        Section.roles = [some ["coordinator".toList, "executor".toList]] := by
  decide

/-- Further inputs on which the two ways of marking differ: a name that contains `[role:`,
a title that contains an unclosed `[role:`, and the empty title (`# ` alone is not a
heading). -/
theorem role_marking_other_differences :
    (parseMarkdown (commentMarked "T".toList "a, [role: b".toList)).map Section.roles =
        [some ["a".toList, "[role: b".toList]] ∧
      (parseMarkdown (headingMarked "T".toList "a, [role: b".toList)).map Section.roles =
        [some ["a".toList, "b".toList]] ∧
      (parseMarkdown (commentMarked "[role: x".toList "a".toList)).map Section.roles =
        [some ["a".toList]] ∧
      (parseMarkdown (headingMarked "[role: x".toList "a".toList)).map Section.roles =
        [some ["x a".toList]] ∧
      parseMarkdown (commentMarked [] "a".toList) = [] ∧
      (parseMarkdown (headingMarked [] "a".toList)).map Section.roles = [some ["a".toList]] := by
  decide

/-- Where the two ways of marking agree: for every role-list text `t` with no `[`, no `]`,
no `-` and no line terminator, and every non-empty title `T` with no `[` and no line
terminator, the heading `# T` followed by the body line `<!-- roles: t -->`, and the
heading `# T [roles: t]`, each parse to a single section, and the two sections have the
same set of roles (the field is absent in one exactly when it is absent in the other); the
roles are the non-empty trimmed and lower-cased comma-separated names of `t`. -/
theorem role_marking_methods_agree (T t : Str) (hT : T ≠ [])
    (hT' : ∀ c ∈ T, c ≠ '[' ∧ isLineTerminator c = false)
    (ht : ∀ c ∈ t, c ≠ '[' ∧ c ≠ ']' ∧ c ≠ '-' ∧ isLineTerminator c = false) :
    ∃ s1 s2, parseMarkdown (commentMarked T t) = [s1] ∧
      parseMarkdown (headingMarked T t) = [s2] ∧
      (∀ r, r ∈ s1.roles.getD [] ↔ r ∈ s2.roles.getD []) ∧
      (s1.roles = none ↔ s2.roles = none) ∧
      (∀ r, r ∈ s1.roles.getD [] ↔
        r ≠ [] ∧ ∃ name ∈ split ',' t, r = toLowerCase (trim name)) := by
  obtain ⟨s1, hp1, hr1⟩ := parseMarkdown_commentMarked T t hT hT'
    (fun c hc => ⟨(ht c hc).2.2.1, (ht c hc).2.2.2⟩)
  obtain ⟨s2, hp2, hr2⟩ := parseMarkdown_headingMarked T t hT'
    (fun c hc => ⟨(ht c hc).1, (ht c hc).2.1, (ht c hc).2.2.2⟩)
  have h1 : ∀ r, r ∈ s1.roles.getD [] ↔ r ∈ splitRoles t := by
    intro r
    rw [hr1]
    by_cases h : splitRoles t = [] <;> simp [h]
  have h2 : ∀ r, r ∈ s2.roles.getD [] ↔ r ∈ splitRoles t := by
    intro r
    rw [hr2]
    by_cases h : uniq (splitRoles t) = []
    · have h' := (uniq_eq_nil_iff _).mp h
      simp [h']
      simp [uniq]
    · simp only [h, if_false, Option.getD_some]
      exact mem_uniq _ r
  refine ⟨s1, s2, hp1, hp2, fun r => (h1 r).trans (h2 r).symm, ?_,
    fun r => (h1 r).trans (mem_splitRoles t r)⟩
  rw [hr1, hr2]
  by_cases h : splitRoles t = []
  · simp [h, uniq]
  · have h' : ¬ uniq (splitRoles t) = [] := fun hu => h ((uniq_eq_nil_iff _).mp hu)
    simp [h, h']

/-- The agreement of the two ways of marking, at concrete inputs: the title `T` and the
names `Coordinator, executor`. -/
theorem role_marking_methods_agree_witness :
    ∃ s1 s2, parseMarkdown (commentMarked "T".toList "Coordinator, executor".toList) = [s1] ∧
      parseMarkdown (headingMarked "T".toList "Coordinator, executor".toList) = [s2] ∧
      (∀ r, r ∈ s1.roles.getD [] ↔ r ∈ s2.roles.getD []) ∧
      (s1.roles = none ↔ s2.roles = none) ∧
      (∀ r, r ∈ s1.roles.getD [] ↔
        r ≠ [] ∧ ∃ name ∈ split ',' "Coordinator, executor".toList,
          r = toLowerCase (trim name)) :=
  role_marking_methods_agree "T".toList "Coordinator, executor".toList (by decide) (by decide)
    (by decide)

theorem Cache.get_eq_none_iff (c : Cache) (key : Str) :
    c.get key = none ↔ key ∉ c.map Prod.fst := by
  induction c with
  | nil => exact Iff.intro (fun _ h => by cases h) (fun _ => rfl)
  | cons kv rest ih =>
    obtain ⟨k, v⟩ := kv
    rw [List.map_cons, List.mem_cons, not_or]
    by_cases hk : k = key
    · subst hk
      simp only [Cache.get, if_true, not_true_eq_false, false_and]
      exact Iff.intro (fun h => by cases h) (fun h => h.elim)
    · have hk2 : ¬ key = k := fun h => hk h.symm
      simp only [Cache.get, hk, if_false, ih]
      exact Iff.intro (fun h => ⟨hk2, h⟩) (fun h => h.2)

theorem Cache.mem_keys_of_get {c : Cache} {key : Str} {e : CacheEntry}
    (h : c.get key = some e) : key ∈ c.map Prod.fst := by
  by_contra hn
  rw [← Cache.get_eq_none_iff] at hn
  rw [hn] at h
  cases h

theorem loadFile_cache_WF (st : Store) (fs : FileSystem) (now : Int) (path : Str)
    (hwf : st.cache.WF) : (loadFile st fs now path).cache.WF := by
  rw [loadFile_cache]
  rcases readFileWithCache_cache_cases st fs now path with h | ⟨e, h⟩
  · rw [h]; exact hwf
  · rw [h]; exact Cache.WF_set _ _ _ hwf

/-! ## C21: the cache key -/

/-- C21, as stated, fails: in the working directory `/work` the strings `./a.md` and `a.md`
resolve to the same absolute path.  After a successful `loadFile('./a.md')` at time 0, the
call `loadFile('a.md')` at time 1, with the same modification time and well within
`cacheMaxAge`, reads the content again, and `getCacheStats` then reports two entries. -/
theorem loadFile_alias_reads_again :
    resolveInWork "./a.md".toList = resolveInWork "a.md".toList ∧
      (loadFile emptyStore aliasFs 0 "./a.md".toList).result =
        .ok (parseMarkdown "# T\nx".toList) ∧
      aliasFs.stat "./a.md".toList = .ok 7 ∧ aliasFs.stat "a.md".toList = .ok 7 ∧
      (1 : Int) - 0 < aliasLoaded.cacheMaxAge ∧
      (loadFile aliasLoaded aliasFs 1 "a.md".toList).reads = ["a.md".toList] ∧
      (getCacheStats
        (aliasLoaded.withCache (loadFile aliasLoaded aliasFs 1 "a.md".toList).cache)).entries =
        ["./a.md".toList, "a.md".toList] ∧
      (getCacheStats
        (aliasLoaded.withCache (loadFile aliasLoaded aliasFs 1 "a.md".toList).cache)).size = 2 :=
  ⟨by decide, rfl, rfl, rfl, by decide, by decide, by decide, by decide⟩

/-- C21, amended: the cache is keyed by the path string as it is passed.  Let a load
through the string `p` succeed on a file with modification time `m`, in a store whose cache
is a map.  Then the cache holds one entry under `p`, and a second load through the same
string, with the modification time unchanged and the age of that entry below
`cacheMaxAge`, returns the same sections, reads no content and leaves `getCacheStats`
listing `p` once.  A load through a different string `q` that has no entry of its own reads
the content of `q`, and, when that read succeeds, `getCacheStats` lists `q` as one more
entry after the previous ones. -/
theorem loadFile_keyed_by_path_string (st : Store) (fs0 fs1 : FileSystem) (t0 t1 : Int)
    (p q : Str) (m : Int) (secs : List Section) (hwf : st.cache.WF)
    (hstat0 : fs0.stat p = .ok m)
    (hfirst : (readFileWithCache st fs0 t0 p).result = .ok secs) :
    (∃ e1, (loadFile st fs0 t0 p).cache.get p = some e1 ∧ e1.lastModified = m ∧
      e1.sections = secs ∧
      (fs1.stat p = .ok m → t1 - e1.cachedAt < st.cacheMaxAge →
        (loadFile (st.withCache (loadFile st fs0 t0 p).cache) fs1 t1 p).result = .ok secs ∧
        (loadFile (st.withCache (loadFile st fs0 t0 p).cache) fs1 t1 p).reads = [] ∧
        (getCacheStats (st.withCache
          (loadFile (st.withCache (loadFile st fs0 t0 p).cache) fs1 t1 p).cache)).entries =
          (getCacheStats (st.withCache (loadFile st fs0 t0 p).cache)).entries)) ∧
      p ∈ (getCacheStats (st.withCache (loadFile st fs0 t0 p).cache)).entries ∧
      (getCacheStats (st.withCache (loadFile st fs0 t0 p).cache)).entries.Nodup ∧
      (getCacheStats (st.withCache (loadFile st fs0 t0 p).cache)).size =
        (getCacheStats (st.withCache (loadFile st fs0 t0 p).cache)).entries.length ∧
      (q ≠ p → st.cache.get q = none → ∀ m', fs1.stat q = .ok m' →
        (loadFile (st.withCache (loadFile st fs0 t0 p).cache) fs1 t1 q).reads = [q] ∧
        ∀ c, fs1.readFile q = .ok c →
          (getCacheStats (st.withCache
            (loadFile (st.withCache (loadFile st fs0 t0 p).cache) fs1 t1 q).cache)).entries =
            (getCacheStats (st.withCache (loadFile st fs0 t0 p).cache)).entries ++ [q] ∧
          (getCacheStats (st.withCache
            (loadFile (st.withCache (loadFile st fs0 t0 p).cache) fs1 t1 q).cache)).size =
            (getCacheStats (st.withCache (loadFile st fs0 t0 p).cache)).size + 1) := by
  obtain ⟨e1, hget, hm, hsecs, -, -⟩ := readFileWithCache_ok_entry hstat0 hfirst
  have hwf1 : (readFileWithCache st fs0 t0 p).cache.WF := by
    rw [← loadFile_cache]; exact loadFile_cache_WF st fs0 t0 p hwf
  rw [loadFile_cache st fs0 t0 p]
  refine ⟨⟨e1, hget, hm, hsecs, ?_⟩, Cache.mem_keys_of_get hget, hwf1, ?_, ?_⟩
  · intro hstat1 hage
    have hrf : readFileWithCache (st.withCache (readFileWithCache st fs0 t0 p).cache) fs1 t1 p =
        { result := .ok e1.sections, cache := (readFileWithCache st fs0 t0 p).cache,
          reads := [] } :=
      @readFileWithCache_hit (st.withCache (readFileWithCache st fs0 t0 p).cache) fs1 t1 p m e1
        hstat1 hget ⟨hm, hage⟩
    refine ⟨loadFile_result_ok (by rw [hrf, hsecs]), by rw [loadFile_reads, hrf], ?_⟩
    rw [loadFile_cache, hrf]
  · simp [getCacheStats, Store.withCache]
  · intro hqp hnone m' hstat1
    have hq1 : (readFileWithCache st fs0 t0 p).cache.get q = none := by
      rcases readFileWithCache_cache_cases st fs0 t0 p with h | ⟨e, h⟩
      · rw [h]; exact hnone
      · rw [h, Cache.get_set_other _ _ _ _ hqp]; exact hnone
    have hmiss : ¬ ∃ entry,
        (st.withCache (readFileWithCache st fs0 t0 p).cache).cache.get q = some entry ∧
          entry.lastModified = m' ∧
          t1 - entry.cachedAt < (st.withCache (readFileWithCache st fs0 t0 p).cache).cacheMaxAge := by
      rintro ⟨entry, hg, -⟩
      have : (readFileWithCache st fs0 t0 p).cache.get q = some entry := hg
      rw [hq1] at this
      cases this
    have hrf := readFileWithCache_miss hstat1 hmiss
    refine ⟨by rw [loadFile_reads, hrf, readAndCache_reads], ?_⟩
    intro c hread
    have hcache : (loadFile (st.withCache (readFileWithCache st fs0 t0 p).cache) fs1 t1 q).cache =
        (readFileWithCache st fs0 t0 p).cache.set q
          { filePath := q, lastModified := m', sections := parseMarkdown c, cachedAt := t1 } := by
      rw [loadFile_cache, hrf]
      simp only [readAndCache, hread]
      rfl
    have hnot : q ∉ (readFileWithCache st fs0 t0 p).cache.map Prod.fst :=
      (Cache.get_eq_none_iff _ _).mp hq1
    have hkeys := Cache.keys_set (readFileWithCache st fs0 t0 p).cache q
      { filePath := q, lastModified := m', sections := parseMarkdown c, cachedAt := t1 }
    rw [if_neg hnot] at hkeys
    have hent : (getCacheStats (st.withCache
        (loadFile (st.withCache (readFileWithCache st fs0 t0 p).cache) fs1 t1 q).cache)).entries =
        (getCacheStats (st.withCache (readFileWithCache st fs0 t0 p).cache)).entries ++ [q] := by
      show List.map Prod.fst _ = List.map Prod.fst _ ++ [q]
      rw [hcache]
      exact hkeys
    refine ⟨hent, ?_⟩
    have hlen := congrArg List.length hent
    simp only [getCacheStats, Store.withCache, List.length_map, List.length_append,
      List.length_singleton] at hlen ⊢
    exact hlen

/-- C21, at concrete inputs: `a.md` loaded into an empty cache at time 100, then loaded
again through the same string at time 200, and `b.md` loaded through its own string. -/
theorem loadFile_keyed_by_path_string_witness :
    (∃ e1, (loadFile emptyStore demoDirFs 100 "a.md".toList).cache.get "a.md".toList = some e1 ∧
      e1.lastModified = 7 ∧ e1.sections = parseMarkdown "# T\nx".toList ∧
      (demoDirFs.stat "a.md".toList = .ok 7 → 200 - e1.cachedAt < emptyStore.cacheMaxAge →
        (loadFile (emptyStore.withCache (loadFile emptyStore demoDirFs 100 "a.md".toList).cache)
          demoDirFs 200 "a.md".toList).result = .ok (parseMarkdown "# T\nx".toList) ∧
        (loadFile (emptyStore.withCache (loadFile emptyStore demoDirFs 100 "a.md".toList).cache)
          demoDirFs 200 "a.md".toList).reads = [] ∧
        (getCacheStats (emptyStore.withCache
          (loadFile (emptyStore.withCache
            (loadFile emptyStore demoDirFs 100 "a.md".toList).cache)
            demoDirFs 200 "a.md".toList).cache)).entries =
          (getCacheStats (emptyStore.withCache
            (loadFile emptyStore demoDirFs 100 "a.md".toList).cache)).entries)) ∧
      "a.md".toList ∈ (getCacheStats (emptyStore.withCache
        (loadFile emptyStore demoDirFs 100 "a.md".toList).cache)).entries ∧
      (getCacheStats (emptyStore.withCache
        (loadFile emptyStore demoDirFs 100 "a.md".toList).cache)).entries.Nodup ∧
      (getCacheStats (emptyStore.withCache
        (loadFile emptyStore demoDirFs 100 "a.md".toList).cache)).size =
        (getCacheStats (emptyStore.withCache
          (loadFile emptyStore demoDirFs 100 "a.md".toList).cache)).entries.length ∧
      ("b.md".toList ≠ "a.md".toList → emptyStore.cache.get "b.md".toList = none →
        ∀ m', demoDirFs.stat "b.md".toList = .ok m' →
        (loadFile (emptyStore.withCache (loadFile emptyStore demoDirFs 100 "a.md".toList).cache)
          demoDirFs 200 "b.md".toList).reads = ["b.md".toList] ∧
        ∀ c, demoDirFs.readFile "b.md".toList = .ok c →
          (getCacheStats (emptyStore.withCache
            (loadFile (emptyStore.withCache
              (loadFile emptyStore demoDirFs 100 "a.md".toList).cache)
              demoDirFs 200 "b.md".toList).cache)).entries =
            (getCacheStats (emptyStore.withCache
              (loadFile emptyStore demoDirFs 100 "a.md".toList).cache)).entries ++
              ["b.md".toList] ∧
          (getCacheStats (emptyStore.withCache
            (loadFile (emptyStore.withCache
              (loadFile emptyStore demoDirFs 100 "a.md".toList).cache)
              demoDirFs 200 "b.md".toList).cache)).size =
            (getCacheStats (emptyStore.withCache
              (loadFile emptyStore demoDirFs 100 "a.md".toList).cache)).size + 1) :=
  loadFile_keyed_by_path_string emptyStore demoDirFs demoDirFs 100 200 "a.md".toList
    "b.md".toList 7 (parseMarkdown "# T\nx".toList) List.nodup_nil rfl rfl

/-! ## C22: `clearCache` -/

/-- C22: in every store state, after `clearCache()` the statistics report size 0 and no
entries, the other settings are as before, and the next `loadFile` of a path whose stat
succeeds reads the content of that path, whatever the cache held before, and returns the
parse of the content read. -/
theorem clearCache_empties (st : Store) (fs : FileSystem) (now : Int) (path : Str) (m : Int)
    (hstat : fs.stat path = .ok m) :
    (getCacheStats (clearCache st)).size = 0 ∧ (getCacheStats (clearCache st)).entries = [] ∧
      (getCacheStats (clearCache st)).maxAge = st.cacheMaxAge ∧
      (clearCache st).silentErrors = st.silentErrors ∧
      (∀ q, (clearCache st).cache.get q = none) ∧
      (loadFile (clearCache st) fs now path).reads = [path] ∧
      ∀ c, fs.readFile path = .ok c →
        (loadFile (clearCache st) fs now path).result = .ok (parseMarkdown c) := by
  have hstale : ∀ entry, (clearCache st).cache.get path = some entry →
      entry.lastModified ≠ m ∨ (clearCache st).cacheMaxAge ≤ now - entry.cachedAt := by
    intro entry h
    cases h
  have h := @loadFile_reads_of_stale (clearCache st) fs now path m hstat hstale
  exact ⟨rfl, rfl, rfl, rfl, fun _ => rfl, h.1, h.2⟩

/-- C22, at concrete inputs: the store `demoStore` holds `a.md` with the modification time
of the file and would serve it from the cache at time 200; after `clearCache()` the load
at time 200 reads the file. -/
theorem clearCache_empties_witness :
    (loadFile demoStore demoFs 200 "a.md".toList).reads = [] ∧
      (getCacheStats (clearCache demoStore)).size = 0 ∧
      (getCacheStats (clearCache demoStore)).entries = [] ∧
      (getCacheStats (clearCache demoStore)).maxAge = demoStore.cacheMaxAge ∧
      (clearCache demoStore).silentErrors = demoStore.silentErrors ∧
      (∀ q, (clearCache demoStore).cache.get q = none) ∧
      (loadFile (clearCache demoStore) demoFs 200 "a.md".toList).reads = ["a.md".toList] ∧
      ∀ c, demoFs.readFile "a.md".toList = .ok c →
        (loadFile (clearCache demoStore) demoFs 200 "a.md".toList).result =
          .ok (parseMarkdown c) :=
  ⟨by decide, clearCache_empties demoStore demoFs 200 "a.md".toList 7 rfl⟩

/-! ## C23: the `cacheMaxAge` option -/

/-- C23 at the option value 0: the constructor replaces a `cacheMaxAge` of 0 by the default
300000, so a store constructed with `cacheMaxAge: 0` serves `a.md` from the cache 5 ms
after it was cached, although no age is below 0; `setCacheMaxAge(0)` stores 0 and the same
load then reads the file.  For every other value `m` the constructor stores `m`, and it
stores 300000 when the option is absent. -/
theorem construct_zero_max_age :
    (getCacheStats (construct { cacheMaxAge := some 0 })).maxAge = 300000 ∧
      (loadFile (zeroAgeStore.withCache (loadFile zeroAgeStore demoFs 0 "a.md".toList).cache)
        demoFs 5 "a.md".toList).reads = [] ∧
      (getCacheStats (setCacheMaxAge (construct {}) 0)).maxAge = 0 ∧
      (loadFile (setCacheMaxAge
        (zeroAgeStore.withCache (loadFile zeroAgeStore demoFs 0 "a.md".toList).cache) 0)
        demoFs 5 "a.md".toList).reads = ["a.md".toList] ∧
      (∀ m : Int, m ≠ 0 → (getCacheStats (construct { cacheMaxAge := some m })).maxAge = m) ∧
      (getCacheStats (construct {})).maxAge = 300000 := by
  refine ⟨by decide, by decide, by decide, by decide, ?_, by decide⟩
  intro m hm
  simp [getCacheStats, construct, hm]

/-! ## C28: a failed load and the cache -/

/-- C28: when the stat of the path fails, or the content of the path is read and that read
fails, the cache after `loadFile` is the cache before it, in a silent store as in one that
rethrows: `getCacheStats` is unchanged and every key is mapped to the entry it was mapped
to, so a stale entry of the path is still listed. -/
theorem loadFile_failure_keeps_cache (st : Store) (fs : FileSystem) (now : Int) (path : Str)
    (e : JSError)
    (hfail : fs.stat path = .error e ∨
      (path ∈ (loadFile st fs now path).reads ∧ fs.readFile path = .error e)) :
    (loadFile st fs now path).result = handleError st e ∧
      (loadFile st fs now path).cache = st.cache ∧
      getCacheStats (st.withCache (loadFile st fs now path).cache) = getCacheStats st ∧
      (∀ q, (loadFile st fs now path).cache.get q = st.cache.get q) ∧
      (path ∈ (getCacheStats st).entries →
        path ∈ (getCacheStats (st.withCache (loadFile st fs now path).cache)).entries) := by
  rw [loadFile_reads] at hfail
  have herr := readFileWithCache_error hfail
  have hcache : (loadFile st fs now path).cache = st.cache := by
    rw [loadFile_cache]
    rcases hfail with hstat | ⟨hreads, hread⟩
    · simp only [readFileWithCache, hstat]
    · cases hstat : fs.stat path with
      | error e2 => simp only [readFileWithCache, hstat]
      | ok m =>
        by_cases hhit : ∃ entry, st.cache.get path = some entry ∧ entry.lastModified = m ∧
            now - entry.cachedAt < st.cacheMaxAge
        · obtain ⟨entry, hget, hfresh⟩ := hhit
          rw [readFileWithCache_hit hstat hget hfresh]
        · rw [readFileWithCache_miss hstat hhit]
          simp only [readAndCache, hread]
  refine ⟨by simp only [loadFile, herr], hcache, ?_, ?_, ?_⟩
  · rw [hcache]; rfl
  · intro q; rw [hcache]
  · intro h; rw [hcache]; exact h

/-- C28, at concrete inputs: the store `demoStore` holds an entry for `a.md`, and the file
is gone (`emptyFs`); the load fails with `ENOENT` and `a.md` is still listed. -/
theorem loadFile_failure_keeps_cache_witness :
    (loadFile demoStore emptyFs 200 "a.md".toList).result = .error enoent ∧
      (loadFile demoStore emptyFs 200 "a.md".toList).cache = demoStore.cache ∧
      getCacheStats (demoStore.withCache (loadFile demoStore emptyFs 200 "a.md".toList).cache) =
        getCacheStats demoStore ∧
      (∀ q, (loadFile demoStore emptyFs 200 "a.md".toList).cache.get q =
        demoStore.cache.get q) ∧
      ("a.md".toList ∈ (getCacheStats demoStore).entries →
        "a.md".toList ∈ (getCacheStats
          (demoStore.withCache (loadFile demoStore emptyFs 200 "a.md".toList).cache)).entries) :=
  loadFile_failure_keeps_cache demoStore emptyFs 200 "a.md".toList enoent (Or.inl rfl)

/-! ## C26: the three classes of sections -/

/-- C26: for every list of sections, a section is unassigned exactly when it has no roles,
of unknown role exactly when it has roles and neither `coordinator` nor `executor` is
among them, and otherwise it is in the coordinator or in the executor view; these three
classes exclude each other and cover the list.  Hence the number of sections is
unassigned + unknown + coordinator + executor - shared, and shared is at most the smaller
of coordinator and executor. -/
theorem edge_case_classes_partition (S : List Section) :
    (∀ s ∈ S,
      (s ∈ EdgeCases.getUnassignedSections S ↔ s.roles = none) ∧
      (s ∈ EdgeCases.getUnknownRoleSections S ↔
        ∃ roles, s.roles = some roles ∧ "coordinator".toList ∉ roles ∧
          "executor".toList ∉ roles) ∧
      ((s ∈ EdgeCases.filterCoordinatorSections S ∨ s ∈ EdgeCases.filterExecutorSections S) ↔
        ∃ roles, s.roles = some roles ∧ ("coordinator".toList ∈ roles ∨
          "executor".toList ∈ roles)) ∧
      ((s ∈ EdgeCases.getUnassignedSections S ∧ s ∉ EdgeCases.getUnknownRoleSections S ∧
          s ∉ EdgeCases.filterCoordinatorSections S ∧
          s ∉ EdgeCases.filterExecutorSections S) ∨
        (s ∉ EdgeCases.getUnassignedSections S ∧ s ∈ EdgeCases.getUnknownRoleSections S ∧
          s ∉ EdgeCases.filterCoordinatorSections S ∧
          s ∉ EdgeCases.filterExecutorSections S) ∨
        (s ∉ EdgeCases.getUnassignedSections S ∧ s ∉ EdgeCases.getUnknownRoleSections S ∧
          (s ∈ EdgeCases.filterCoordinatorSections S ∨
            s ∈ EdgeCases.filterExecutorSections S)))) ∧
      (S.length : Int) =
        (EdgeCases.getUnassignedSections S).length + (EdgeCases.getUnknownRoleSections S).length +
          (EdgeCases.filterCoordinatorSections S).length +
          (EdgeCases.filterExecutorSections S).length - (EdgeCases.getSharedSections S).length ∧
      (EdgeCases.getSharedSections S).length ≤
        min (EdgeCases.filterCoordinatorSections S).length
          (EdgeCases.filterExecutorSections S).length := by
  refine ⟨?_, ?_, ?_⟩
  · intro s hs
    simp only [EdgeCases.getUnassignedSections, EdgeCases.getUnknownRoleSections,
      EdgeCases.filterCoordinatorSections, EdgeCases.filterExecutorSections, List.mem_filter, hs,
      true_and]
    generalize "coordinator".toList = cs
    generalize "executor".toList = es
    cases hr : s.roles with
    | none => simp
    | some roles =>
      by_cases hc : cs ∈ roles <;> by_cases he : es ∈ roles <;> simp [hc, he]
  · induction S with
    | nil => rfl
    | cons s S ih =>
      simp only [EdgeCases.getUnassignedSections, EdgeCases.getUnknownRoleSections,
        EdgeCases.filterCoordinatorSections, EdgeCases.filterExecutorSections,
        EdgeCases.getSharedSections, List.filter_cons, List.length_cons] at ih ⊢
      cases hr : s.roles with
      | none => simp only [if_true, Bool.false_eq_true, if_false, List.length_cons]; push_cast; omega
      | some roles =>
        by_cases hc : roles.contains "coordinator".toList = true <;>
          by_cases he : roles.contains "executor".toList = true <;>
          simp only [hc, he, Bool.and_self, Bool.and_true, Bool.and_false, Bool.not_true,
            Bool.not_false, Bool.false_and, Bool.true_and, if_true, Bool.false_eq_true, if_false,
            List.length_cons] <;>
          push_cast <;> omega
  · induction S with
    | nil => simp [EdgeCases.getSharedSections]
    | cons s S ih =>
      simp only [EdgeCases.filterCoordinatorSections, EdgeCases.filterExecutorSections,
        EdgeCases.getSharedSections, List.filter_cons] at ih ⊢
      cases hr : s.roles with
      | none => simpa using ih
      | some roles =>
        by_cases hc : roles.contains "coordinator".toList = true <;>
          by_cases he : roles.contains "executor".toList = true <;>
          simp only [hc, he, Bool.and_self, Bool.and_true, Bool.and_false, Bool.false_and,
            Bool.true_and, if_true, Bool.false_eq_true, if_false, List.length_cons] <;>
          omega

/-! ## C27: the views of a merged list -/

theorem filter_roles_mergeContext (p : Option (List Str) → Bool) (hp : p none = false)
    (files : List FileEntry) :
    (mergeContext files).filter (fun s => p s.roles) =
      ((files.flatMap FileEntry.sections).filter (fun s => p s.roles)).map indentSection := by
  induction files with
  | nil => rfl
  | cons f files ih =>
    rw [mergeContext_cons, List.flatMap_cons, List.filter_cons]
    have hsep : p (fileSeparator f.fileName).roles = false := hp
    rw [hsep, if_neg (by simp), List.filter_append, List.filter_append, List.map_append, ih]
    congr 1
    rw [List.filter_map]
    rfl

theorem count_unmarked_mergeContext (files : List FileEntry) :
    ((mergeContext files).filter (fun s => s.roles.isNone)).length =
      files.length +
        ((files.flatMap FileEntry.sections).filter (fun s => s.roles.isNone)).length := by
  induction files with
  | nil => rfl
  | cons f files ih =>
    rw [mergeContext_cons, List.flatMap_cons, List.filter_cons]
    have hsep : (fileSeparator f.fileName).roles.isNone = true := rfl
    rw [hsep, if_pos rfl, List.length_cons, List.filter_append, List.filter_append,
      List.length_append, List.length_append, ih, List.filter_map, List.length_map]
    have : (List.filter ((fun s : Section => s.roles.isNone) ∘ indentSection) f.sections) =
        List.filter (fun s => s.roles.isNone) f.sections := rfl
    rw [this, List.length_cons]
    omega

/-- C27: for files whose sections carry no `isFileSeparator` flag, the coordinator, the
executor and the shared view of `mergeContext(files)` hold no file separator; each of them
is the same view of the sections of the files, concatenated in order, with every level
increased by one; and `analyzeContent` counts as unmarked the separators, one per file,
and the input sections without roles. -/
theorem mergeContext_views (files : List FileEntry)
    (hflag : ∀ f ∈ files, ∀ s ∈ f.sections, s.isFileSeparator = false) :
    (∀ s ∈ getCoordinatorContext (mergeContext files), s.isFileSeparator = false) ∧
      (∀ s ∈ getExecutorContext (mergeContext files), s.isFileSeparator = false) ∧
      (∀ s ∈ getSharedContext (mergeContext files), s.isFileSeparator = false) ∧
      getCoordinatorContext (mergeContext files) =
        (getCoordinatorContext (files.flatMap FileEntry.sections)).map indentSection ∧
      getExecutorContext (mergeContext files) =
        (getExecutorContext (files.flatMap FileEntry.sections)).map indentSection ∧
      getSharedContext (mergeContext files) =
        (getSharedContext (files.flatMap FileEntry.sections)).map indentSection ∧
      (analyzeContent (mergeContext files)).unmarked =
        files.length +
          ((files.flatMap FileEntry.sections).filter (fun s => s.roles.isNone)).length := by
  have hc : getCoordinatorContext (mergeContext files) =
      (getCoordinatorContext (files.flatMap FileEntry.sections)).map indentSection :=
    filter_roles_mergeContext
      (fun r => match r with
        | some roles => roles.contains (toLowerCase "coordinator".toList)
        | none => false) rfl files
  have he : getExecutorContext (mergeContext files) =
      (getExecutorContext (files.flatMap FileEntry.sections)).map indentSection :=
    filter_roles_mergeContext
      (fun r => match r with
        | some roles => roles.contains (toLowerCase "executor".toList)
        | none => false) rfl files
  have hs : getSharedContext (mergeContext files) =
      (getSharedContext (files.flatMap FileEntry.sections)).map indentSection :=
    filter_roles_mergeContext
      (fun r => match r with
        | some roles => roles.contains "coordinator".toList && roles.contains "executor".toList
        | none => false) rfl files
  have hsub : ∀ (v : List Section), (∀ s ∈ v, s ∈ files.flatMap FileEntry.sections) →
      ∀ s ∈ v.map indentSection, s.isFileSeparator = false := by
    intro v hv s hsm
    obtain ⟨s0, hs0, rfl⟩ := List.mem_map.mp hsm
    obtain ⟨f, hf, hs0f⟩ := List.mem_flatMap.mp (hv s0 hs0)
    exact hflag f hf s0 hs0f
  refine ⟨?_, ?_, ?_, hc, he, hs, count_unmarked_mergeContext files⟩
  · rw [hc]
    exact hsub _ (fun s h => (List.mem_filter.mp h).1)
  · rw [he]
    exact hsub _ (fun s h => (List.mem_filter.mp h).1)
  · rw [hs]
    exact hsub _ (fun s h => (List.mem_filter.mp h).1)

/-- C27, at concrete inputs: two files with the three sections of the scenario; the merged
list has five sections, two of them separators, the coordinator view has the sections A and
B one level deeper, and three sections are unmarked. -/
theorem mergeContext_views_witness :
    (mergeContext [demoFileOne, demoFileTwo]).length = 5 ∧
      getCoordinatorContext (mergeContext [demoFileOne, demoFileTwo]) =
        [indentSection scenarioA, indentSection scenarioB] ∧
      (analyzeContent (mergeContext [demoFileOne, demoFileTwo])).unmarked = 3 ∧
      ((∀ s ∈ getCoordinatorContext (mergeContext [demoFileOne, demoFileTwo]),
          s.isFileSeparator = false) ∧
        (∀ s ∈ getExecutorContext (mergeContext [demoFileOne, demoFileTwo]),
          s.isFileSeparator = false) ∧
        (∀ s ∈ getSharedContext (mergeContext [demoFileOne, demoFileTwo]),
          s.isFileSeparator = false) ∧
        getCoordinatorContext (mergeContext [demoFileOne, demoFileTwo]) =
          (getCoordinatorContext
            ([demoFileOne, demoFileTwo].flatMap FileEntry.sections)).map indentSection ∧
        getExecutorContext (mergeContext [demoFileOne, demoFileTwo]) =
          (getExecutorContext
            ([demoFileOne, demoFileTwo].flatMap FileEntry.sections)).map indentSection ∧
        getSharedContext (mergeContext [demoFileOne, demoFileTwo]) =
          (getSharedContext
            ([demoFileOne, demoFileTwo].flatMap FileEntry.sections)).map indentSection ∧
        (analyzeContent (mergeContext [demoFileOne, demoFileTwo])).unmarked =
          [demoFileOne, demoFileTwo].length +
            (([demoFileOne, demoFileTwo].flatMap FileEntry.sections).filter
              (fun s => s.roles.isNone)).length) :=
  ⟨by decide, by decide, by decide,
    mergeContext_views [demoFileOne, demoFileTwo] (by decide)⟩

/-! ## C25: the content of a section -/

theorem join_cons_eq (l : Str) (ls : List Str) :
    join '\n' (l :: ls) = l ++ ls.flatMap (fun x => '\n' :: x) := by
  induction ls generalizing l with
  | nil => simp [join]
  | cons a ls ih =>
    have h : join '\n' (l :: a :: ls) = l ++ '\n' :: join '\n' (a :: ls) := rfl
    rw [h, ih a, List.flatMap_cons]
    simp

theorem addLine_content (cur : OpenSection) (line : Str) :
    (addLine cur line).content =
      cur.content ++ ((if cur.content.isEmpty then [] else ['\n']) ++ line) := by
  unfold addLine
  dsimp only
  split <;> rfl

theorem foldl_addLine_content_of_ne (body : List Str) :
    ∀ cur : OpenSection, cur.content ≠ [] →
      (body.foldl addLine cur).content = cur.content ++ body.flatMap (fun x => '\n' :: x) := by
  induction body with
  | nil => intro cur _; simp
  | cons l body ih =>
    intro cur hne
    have hc : (addLine cur l).content = cur.content ++ '\n' :: l := by
      rw [addLine_content]
      have : cur.content.isEmpty = false := by
        cases h : cur.content with
        | nil => exact absurd h hne
        | cons a b => rfl
      rw [this]
      rfl
    have hne2 : (addLine cur l).content ≠ [] := by
      rw [hc]
      cases cur.content <;> simp
    rw [List.foldl_cons, ih _ hne2, hc, List.flatMap_cons]
    simp

theorem foldl_addLine_content_of_empty (body : List Str) :
    ∀ cur : OpenSection, cur.content = [] →
      (body.foldl addLine cur).content = join '\n' (body.dropWhile (fun l => l.isEmpty)) := by
  induction body with
  | nil => intro cur h; simpa [join] using h
  | cons l body ih =>
    intro cur hemp
    have hc : (addLine cur l).content = l := by
      rw [addLine_content, hemp]
      rfl
    cases l with
    | nil =>
      rw [List.foldl_cons, ih _ hc]
      rfl
    | cons a l =>
      have hne : (addLine cur (a :: l)).content ≠ [] := by rw [hc]; simp
      rw [List.foldl_cons, foldl_addLine_content_of_ne body _ hne, hc]
      have : List.dropWhile (fun l : Str => l.isEmpty) ((a :: l) :: body) = (a :: l) :: body := rfl
      rw [this, join_cons_eq]

theorem sectionOf_content (hashes text : Str) (i : Nat) (body : List Str) :
    (sectionOf hashes text i body).content = join '\n' (body.dropWhile (fun l => l.isEmpty)) := by
  have := foldl_addLine_content_of_empty body (openSection hashes text i) rfl
  simpa [sectionOf, OpenSection.close] using this

/-- C25: the content of every section of `parseMarkdown` is the join, by single newlines,
of its body lines (the input lines `startLine + 1` to `endLine`) without the empty lines
they start with.  Every body line from the first non-empty one on is kept as it is, empty
lines included, and a line of white space only is not empty. -/
theorem parseMarkdown_content (content : Str) (s : Section) (hs : s ∈ parseMarkdown content) :
    s.content =
      join '\n'
        ((((split '\n' content).drop (s.startLine.toNat + 1)).take
          (s.endLine - s.startLine).toNat).dropWhile (fun l => l.isEmpty)) := by
  obtain ⟨pre, line, rest, hashes, text, hls, -, hsec, hstart, -, hbody⟩ :=
    parseMarkdown_mem content s hs
  have hdrop : (split '\n' content).drop (s.startLine.toNat + 1) = rest := by
    rw [hls, hstart]
    simp
  rw [hdrop, ← hbody, hsec]
  exact sectionOf_content _ _ _ _

/-- C25, at concrete inputs: after the heading come two empty lines, a line of one blank,
`foo`, an empty line and `bar`; the two leading empty lines are dropped and the rest is
kept. -/
theorem parseMarkdown_content_witness :
    parseMarkdown blankLinesInput = [blankLinesSection] ∧
      blankLinesSection.content =
        join '\n'
          ((((split '\n' blankLinesInput).drop (blankLinesSection.startLine.toNat + 1)).take
            (blankLinesSection.endLine - blankLinesSection.startLine).toNat).dropWhile
              (fun l => l.isEmpty)) :=
  ⟨by decide, parseMarkdown_content blankLinesInput blankLinesSection (by decide)⟩

/-! ## C30: the TypeScript parser and the unified parser -/

theorem splitRoles_eq_filter (roleList : Str) :
    splitRoles roleList =
      (MarkdownReader.splitRoles roleList).filter (fun role => role.length > 0) := rfl

theorem splitRoles_eq_of_no_empty (roleList : Str)
    (h : [] ∉ MarkdownReader.splitRoles roleList) :
    MarkdownReader.splitRoles roleList = splitRoles roleList := by
  rw [splitRoles_eq_filter]
  symm
  apply List.filter_eq_self.mpr
  intro r hr
  cases r with
  | nil => exact absurd hr h
  | cons a r => simp

theorem extractRoles_eq_of_no_empty (text : Str) (h : [] ∉ MarkdownReader.extractRoles text) :
    MarkdownReader.extractRoles text = extractRoles text := by
  unfold MarkdownReader.extractRoles extractRoles at *
  dsimp only at *
  by_cases he : (matchAll roleBracketRe text).isEmpty = true
  · simp only [he, if_true]
  · simp only [he, Bool.false_eq_true, if_false] at h ⊢
    rw [mem_uniq] at h
    have hall : ∀ m ∈ matchAll roleBracketRe text,
        MarkdownReader.splitRoles (roleListOf m) = splitRoles (roleListOf m) := by
      intro m hm
      apply splitRoles_eq_of_no_empty
      intro hmem
      exact h (List.mem_flatMap.mpr ⟨m, hm, hmem⟩)
    congr 1
    generalize matchAll roleBracketRe text = ms at hall
    induction ms with
    | nil => rfl
    | cons m ms ih =>
      rw [List.flatMap_cons, List.flatMap_cons, hall m (List.mem_cons_self _ _),
        ih (fun x hx => hall x (List.mem_cons_of_mem _ hx))]

theorem extractRolesFromComment_eq_of_no_empty (line : Str)
    (h : [] ∉ MarkdownReader.extractRolesFromComment line) :
    MarkdownReader.extractRolesFromComment line = extractRolesFromComment line := by
  unfold MarkdownReader.extractRolesFromComment extractRolesFromComment at *
  cases hm : matchFirst commentRe line with
  | none => rfl
  | some gs =>
    simp only [hm] at h ⊢
    exact splitRoles_eq_of_no_empty _ h

theorem openSection_eq_or_empty (hashes text : Str) (i : Nat) :
    MarkdownReader.openSection hashes text i = openSection hashes text i ∨
      HasEmptyRole (MarkdownReader.openSection hashes text i).roles := by
  by_cases h : [] ∈ MarkdownReader.extractRoles (trim text)
  · right
    refine ⟨MarkdownReader.extractRoles (trim text), ?_, h⟩
    have hpos : (MarkdownReader.extractRoles (trim text)).length > 0 :=
      List.length_pos_of_mem h
    simp only [MarkdownReader.openSection, hpos, if_true]
  · left
    simp only [MarkdownReader.openSection, openSection, extractRoles_eq_of_no_empty _ h]

theorem addLine_eq_or_empty (cur : OpenSection) (line : Str) :
    MarkdownReader.addLine cur line = addLine cur line ∨
      HasEmptyRole (MarkdownReader.addLine cur line).roles := by
  by_cases h : [] ∈ MarkdownReader.extractRolesFromComment line
  · right
    have hpos : (MarkdownReader.extractRolesFromComment line).length > 0 :=
      List.length_pos_of_mem h
    refine ⟨cur.roles.getD [] ++ MarkdownReader.extractRolesFromComment line, ?_,
      List.mem_append_right _ h⟩
    simp only [MarkdownReader.addLine, hpos, if_true]
  · left
    simp only [MarkdownReader.addLine, addLine, extractRolesFromComment_eq_of_no_empty _ h]

theorem addLine_keeps_empty (cur : OpenSection) (line : Str) (h : HasEmptyRole cur.roles) :
    HasEmptyRole (MarkdownReader.addLine cur line).roles := by
  obtain ⟨rs, hrs, hmem⟩ := h
  by_cases hpos : (MarkdownReader.extractRolesFromComment line).length > 0
  · refine ⟨cur.roles.getD [] ++ MarkdownReader.extractRolesFromComment line, ?_, ?_⟩
    · simp only [MarkdownReader.addLine, hpos, if_true]
    · apply List.mem_append_left
      rw [hrs]
      exact hmem
  · refine ⟨rs, ?_, hmem⟩
    simp only [MarkdownReader.addLine, hpos, if_false]
    exact hrs

theorem parseStep_keeps_empty (st : ParseState) (line : Str) (i : Nat)
    (h : HasEmptyRoleState st) : HasEmptyRoleState (MarkdownReader.parseStep st line i) := by
  unfold MarkdownReader.parseStep
  cases hm : headerMatch line with
  | some ht =>
    obtain ⟨hashes, text⟩ := ht
    dsimp only
    left
    rcases h with ⟨s, hs, hbad⟩ | ⟨cur, hcur, hbad⟩
    · refine ⟨s, ?_, hbad⟩
      cases st.currentSection with
      | none => exact hs
      | some cur => exact List.mem_append_left _ hs
    · refine ⟨cur.close ((i : Int) - 1), ?_, hbad⟩
      rw [hcur]
      exact List.mem_append_right _ (List.mem_singleton_self _)
  | none =>
    dsimp only
    rcases h with ⟨s, hs, hbad⟩ | ⟨cur, hcur, hbad⟩
    · left
      refine ⟨s, ?_, hbad⟩
      cases st.currentSection with
      | none => exact hs
      | some cur => exact hs
    · right
      rw [hcur]
      exact ⟨_, rfl, addLine_keeps_empty cur line hbad⟩

theorem parseLoop_keeps_empty (ls : List Str) :
    ∀ (i : Nat) (st : ParseState) (n : Int), HasEmptyRoleState st →
      ∃ s ∈ finish (MarkdownReader.parseLoop ls i st) n, HasEmptyRole s.roles := by
  induction ls with
  | nil =>
    intro i st n h
    rcases h with ⟨s, hs, hbad⟩ | ⟨cur, hcur, hbad⟩
    · refine ⟨s, ?_, hbad⟩
      simp only [MarkdownReader.parseLoop, finish]
      cases st.currentSection with
      | none => exact hs
      | some cur => exact List.mem_append_left _ hs
    · refine ⟨cur.close (n - 1), ?_, hbad⟩
      simp only [MarkdownReader.parseLoop, finish, hcur]
      exact List.mem_append_right _ (List.mem_singleton_self _)
  | cons l ls ih =>
    intro i st n h
    exact ih (i + 1) _ n (parseStep_keeps_empty st l i h)

theorem parseStep_eq_or_empty (st : ParseState) (line : Str) (i : Nat) :
    MarkdownReader.parseStep st line i = parseStep st line i ∨
      HasEmptyRoleState (MarkdownReader.parseStep st line i) := by
  unfold MarkdownReader.parseStep parseStep
  cases hm : headerMatch line with
  | some ht =>
    obtain ⟨hashes, text⟩ := ht
    dsimp only
    rcases openSection_eq_or_empty hashes text i with h | h
    · left; rw [h]
    · right; right; exact ⟨_, rfl, h⟩
  | none =>
    dsimp only
    cases hc : st.currentSection with
    | none => left; rfl
    | some cur =>
      dsimp only
      rcases addLine_eq_or_empty cur line with h | h
      · left; rw [h]
      · right; right; exact ⟨_, rfl, h⟩

theorem parseLoop_eq_of_no_empty (ls : List Str) :
    ∀ (i : Nat) (st : ParseState) (n : Int),
      (∀ s ∈ finish (MarkdownReader.parseLoop ls i st) n, ¬ HasEmptyRole s.roles) →
      MarkdownReader.parseLoop ls i st = parseLoop ls i st := by
  induction ls with
  | nil => intro i st n _; rfl
  | cons l ls ih =>
    intro i st n h
    rcases parseStep_eq_or_empty st l i with heq | hbad
    · have := ih (i + 1) (MarkdownReader.parseStep st l i) n h
      rw [MarkdownReader.parseLoop, parseLoop, this, heq]
    · obtain ⟨s, hs, hb⟩ := parseLoop_keeps_empty ls (i + 1) _ n hbad
      exact absurd hb (h s hs)

/-- C30: on every input for which `parseFile` of `markdown-reader.ts` returns no section
whose roles hold the empty string, `parseFile` and `parseMarkdown` of `context-manager.js`
return the same list of sections. -/
theorem parseFile_eq_parseMarkdown (content : Str)
    (h : ∀ s ∈ MarkdownReader.parseFile content, ∀ roles, s.roles = some roles → [] ∉ roles) :
    MarkdownReader.parseFile content = parseMarkdown content := by
  have hfin : ∀ s ∈ finish (MarkdownReader.parseLoop (split '\n' content) 0
      { sections := [], currentSection := none }) ((split '\n' content).length : Int),
      ¬ HasEmptyRole s.roles := by
    intro s hs hbad
    obtain ⟨rs, hrs, hmem⟩ := hbad
    exact h s hs rs hrs hmem
  have hloop := parseLoop_eq_of_no_empty _ 0 _ _ hfin
  unfold MarkdownReader.parseFile parseMarkdown
  dsimp only
  rw [hloop]

/-- C30, at concrete inputs: the six-line scenario, where no role name is empty; on the
heading `# A [roles: a,,b]` the TypeScript parser keeps the empty name and the two differ. -/
theorem parseFile_eq_parseMarkdown_witness :
    MarkdownReader.parseFile scenarioInput = parseMarkdown scenarioInput ∧
      parseMarkdown scenarioInput = [scenarioA, scenarioB, scenarioC] ∧
      (MarkdownReader.parseFile emptyRoleInput).map Section.roles =
        [some ["a".toList, [], "b".toList]] ∧
      (parseMarkdown emptyRoleInput).map Section.roles = [some ["a".toList, "b".toList]] :=
  ⟨parseFile_eq_parseMarkdown scenarioInput (by decide), by decide, by decide, by decide⟩

/-! ## C24: `updateContext` and the content cache -/

theorem Shared.ContentCache.has_eq_isSome (c : Shared.ContentCache) (key : Str) :
    c.has key = (c.get key).isSome := by
  induction c with
  | nil => rfl
  | cons kv rest ih =>
    obtain ⟨k, v⟩ := kv
    by_cases hk : k = key
    · simp only [Shared.ContentCache.has, Shared.ContentCache.get, hk, if_true, Option.isSome]
    · simp only [Shared.ContentCache.has, Shared.ContentCache.get, hk, if_false, ih]

theorem Shared.ContentCache.get_delete_self (c : Shared.ContentCache) (key : Str) :
    (c.delete key).get key = none := by
  induction c with
  | nil => rfl
  | cons kv rest ih =>
    obtain ⟨k, v⟩ := kv
    by_cases hk : k = key
    · simp only [Shared.ContentCache.delete, hk, if_true, ih]
    · simp only [Shared.ContentCache.delete, Shared.ContentCache.get, hk, if_false, ih]

theorem Shared.ContentCache.get_delete_other (c : Shared.ContentCache) (key q : Str)
    (hq : q ≠ key) : (c.delete key).get q = c.get q := by
  induction c with
  | nil => rfl
  | cons kv rest ih =>
    obtain ⟨k, v⟩ := kv
    by_cases hk : k = key
    · have hkq : ¬ k = q := fun h => hq (h.symm.trans hk)
      simp only [Shared.ContentCache.delete, Shared.ContentCache.get, hk, if_true, ih]
      rw [if_neg (fun h => hq (h.symm))]
    · by_cases hkq : k = q
      · subst hkq
        simp only [Shared.ContentCache.delete, Shared.ContentCache.get, hk, if_true, if_false]
      · simp only [Shared.ContentCache.delete, Shared.ContentCache.get, hk, hkq, if_false, ih]

theorem Shared.ContentCache.delete_eq_filter (c : Shared.ContentCache) (key : Str) :
    c.delete key = c.filter (fun e => decide (e.1 ≠ key)) := by
  induction c with
  | nil => rfl
  | cons kv rest ih =>
    obtain ⟨k, v⟩ := kv
    by_cases hk : k = key
    · simp [Shared.ContentCache.delete, hk, ih]
    · simp [Shared.ContentCache.delete, hk, ih]

/-- C24: when the append to `join(exercisePath, p)` succeeds, `updateContext(p, u)` returns
true and the cache afterwards is the cache before without the entry of that path: the
path is no longer cached and every other path is mapped to what it was mapped to.  The
file then ends with the update block, and the next `loadContextFile` of that path, the
file being readable, reads it from the disk and returns the old content followed by the
update block.  When the append fails, `updateContext` returns false and the instance,
cache included, is as before. -/
theorem updateContext_invalidates (pathJoin : Str → Str → Str) (mgr : Shared.Manager)
    (disk : Shared.Disk) (timestamp p u : Str) :
    (disk.appendError (pathJoin mgr.exercisePath p) = none →
      (Shared.updateContext pathJoin mgr disk timestamp p u).result = true ∧
      (Shared.updateContext pathJoin mgr disk timestamp p u).manager.contextCache =
        mgr.contextCache.filter (fun e => decide (e.1 ≠ pathJoin mgr.exercisePath p)) ∧
      (Shared.updateContext pathJoin mgr disk timestamp p u).manager.contextCache.has
        (pathJoin mgr.exercisePath p) = false ∧
      (∀ q, q ≠ pathJoin mgr.exercisePath p →
        (Shared.updateContext pathJoin mgr disk timestamp p u).manager.contextCache.get q =
          mgr.contextCache.get q) ∧
      (Shared.updateContext pathJoin mgr disk timestamp p u).disk.content
          (pathJoin mgr.exercisePath p) =
        some ((disk.content (pathJoin mgr.exercisePath p)).getD [] ++
          Shared.updateBlock timestamp u) ∧
      (disk.readError (pathJoin mgr.exercisePath p) = none →
        (Shared.loadContextFile (Shared.updateContext pathJoin mgr disk timestamp p u).manager
          (Shared.updateContext pathJoin mgr disk timestamp p u).disk
          (pathJoin mgr.exercisePath p)).reads = [pathJoin mgr.exercisePath p] ∧
        (Shared.loadContextFile (Shared.updateContext pathJoin mgr disk timestamp p u).manager
          (Shared.updateContext pathJoin mgr disk timestamp p u).disk
          (pathJoin mgr.exercisePath p)).result =
          some ((disk.content (pathJoin mgr.exercisePath p)).getD [] ++
            Shared.updateBlock timestamp u))) ∧
    (∀ e, disk.appendError (pathJoin mgr.exercisePath p) = some e →
      (Shared.updateContext pathJoin mgr disk timestamp p u).result = false ∧
      (Shared.updateContext pathJoin mgr disk timestamp p u).manager = mgr) := by
  constructor
  · intro hok
    have hupd : Shared.updateContext pathJoin mgr disk timestamp p u =
        { result := true,
          manager := { mgr with
            contextCache := mgr.contextCache.delete (pathJoin mgr.exercisePath p) },
          disk := { disk with
            content := fun q => if q = pathJoin mgr.exercisePath p then
                some ((disk.content (pathJoin mgr.exercisePath p)).getD [] ++
                  Shared.updateBlock timestamp u)
              else disk.content q } } := by
      simp only [Shared.updateContext, Shared.appendFileSync, hok]
    rw [hupd]
    have hhas : (mgr.contextCache.delete (pathJoin mgr.exercisePath p)).has
        (pathJoin mgr.exercisePath p) = false := by
      rw [Shared.ContentCache.has_eq_isSome, Shared.ContentCache.get_delete_self]
      rfl
    refine ⟨rfl, Shared.ContentCache.delete_eq_filter _ _, hhas,
      fun q hq => Shared.ContentCache.get_delete_other _ _ _ hq, by simp, ?_⟩
    intro hread
    simp only [Shared.loadContextFile, hhas, Shared.readFileSync, hread, if_true,
      Bool.false_eq_true, if_false]
    constructor <;> first | rfl | trivial
  · intro e herr
    simp only [Shared.updateContext, Shared.appendFileSync, herr]
    constructor <;> first | rfl | trivial

/-- C24, at concrete inputs: the cache holds `ex/context.md` and `ex/other.md`; the update
of `context.md` removes the first entry only, and the next load returns the file with the
update block; the update of `locked.md`, which cannot be written, returns false and
leaves the cache as it is. -/
theorem updateContext_invalidates_witness :
    ((Shared.updateContext slashJoin demoManager demoDisk "T".toList "context.md".toList
        "done".toList).result = true ∧
      (Shared.updateContext slashJoin demoManager demoDisk "T".toList "context.md".toList
        "done".toList).manager.contextCache = [("ex/other.md".toList, "# Other".toList)] ∧
      (Shared.loadContextFile demoManager demoDisk "ex/context.md".toList).reads = [] ∧
      (Shared.loadContextFile
        (Shared.updateContext slashJoin demoManager demoDisk "T".toList "context.md".toList
          "done".toList).manager
        (Shared.updateContext slashJoin demoManager demoDisk "T".toList "context.md".toList
          "done".toList).disk "ex/context.md".toList).reads = ["ex/context.md".toList] ∧
      (Shared.loadContextFile
        (Shared.updateContext slashJoin demoManager demoDisk "T".toList "context.md".toList
          "done".toList).manager
        (Shared.updateContext slashJoin demoManager demoDisk "T".toList "context.md".toList
          "done".toList).disk "ex/context.md".toList).result =
        some "# Objectives\n\n## Update - T\ndone\n".toList) ∧
      ((Shared.updateContext slashJoin demoManager demoDisk "T".toList "locked.md".toList
        "done".toList).result = false ∧
      (Shared.updateContext slashJoin demoManager demoDisk "T".toList "locked.md".toList
        "done".toList).manager = demoManager) :=
  ⟨⟨rfl, by decide, by decide,
      ((updateContext_invalidates slashJoin demoManager demoDisk "T".toList "context.md".toList
        "done".toList).1 rfl).2.2.2.2.2 rfl⟩,
    (updateContext_invalidates slashJoin demoManager demoDisk "T".toList "locked.md".toList
      "done".toList).2 _ rfl⟩

/-! ## C29: `filterForAgent` -/

theorem Shared.Obj.keys_setOwn (o : Shared.Obj) (key value : Str) :
    (o.setOwn key value).map Prod.fst =
      if key ∈ o.map Prod.fst then o.map Prod.fst else o.map Prod.fst ++ [key] := by
  induction o with
  | nil => rfl
  | cons kv rest ih =>
    obtain ⟨k, v⟩ := kv
    by_cases hk : k = key
    · subst hk
      simp only [Shared.Obj.setOwn, if_true, List.map_cons, List.mem_cons, true_or]
    · have hk2 : ¬ key = k := fun h => hk h.symm
      simp only [Shared.Obj.setOwn, hk, if_false, List.map_cons, List.mem_cons, hk2, false_or,
        ih]
      split <;> rfl

theorem Shared.Obj.setOwn_of_not_mem (o : Shared.Obj) (key value : Str)
    (h : key ∉ o.map Prod.fst) : o.setOwn key value = o ++ [(key, value)] := by
  induction o with
  | nil => rfl
  | cons kv rest ih =>
    obtain ⟨k, v⟩ := kv
    rw [List.map_cons, List.mem_cons, not_or] at h
    have hk : ¬ k = key := fun hh => h.1 hh.symm
    simp only [Shared.Obj.setOwn, hk, if_false, ih h.2, List.cons_append]

theorem Shared.Obj.nodup_set (o : Shared.Obj) (key value : Str) (h : (o.map Prod.fst).Nodup) :
    ((o.set key value).map Prod.fst).Nodup := by
  unfold Shared.Obj.set
  split
  · exact h
  · rw [Shared.Obj.keys_setOwn]
    split
    · exact h
    · next hk =>
      rw [List.nodup_append]
      refine ⟨h, by simp, ?_⟩
      intro a ha hb
      simp only [List.mem_singleton] at hb
      subst hb
      exact hk ha

theorem Shared.nodup_saveSection (st : Shared.SectionsState)
    (h : (st.sections.map Prod.fst).Nodup) : ((Shared.saveSection st).map Prod.fst).Nodup := by
  unfold Shared.saveSection
  split
  · exact Shared.Obj.nodup_set _ _ _ h
  · exact h

theorem Shared.nodup_foldl_sectionsStep (lines : List Str) :
    ∀ st : Shared.SectionsState, (st.sections.map Prod.fst).Nodup →
      (((lines.foldl Shared.sectionsStep st).sections).map Prod.fst).Nodup := by
  induction lines with
  | nil => intro st h; exact h
  | cons l lines ih =>
    intro st h
    rw [List.foldl_cons]
    apply ih
    unfold Shared.sectionsStep
    split
    · exact Shared.nodup_saveSection st h
    · exact h

theorem Shared.nodup_parseMarkdownSections (markdown : Option Str) :
    ((Shared.parseMarkdownSections markdown).map Prod.fst).Nodup := by
  unfold Shared.parseMarkdownSections
  cases markdown with
  | none => exact List.nodup_nil
  | some md =>
    dsimp only
    split
    · exact List.nodup_nil
    · exact Shared.nodup_saveSection _ (Shared.nodup_foldl_sectionsStep _ _ List.nodup_nil)

theorem Shared.insertByIndex_perm (e : Str × Str) (l : List (Str × Str)) :
    (Shared.insertByIndex e l).Perm (e :: l) := by
  induction l with
  | nil => exact List.Perm.refl _
  | cons x xs ih =>
    unfold Shared.insertByIndex
    split
    · exact List.Perm.refl _
    · exact (List.Perm.cons x ih).trans (List.Perm.swap e x xs)

theorem Shared.sortByIndex_perm (l : List (Str × Str)) : (Shared.sortByIndex l).Perm l := by
  induction l with
  | nil => exact List.Perm.refl _
  | cons e es ih =>
    exact (Shared.insertByIndex_perm e _).trans (List.Perm.cons e ih)

theorem Shared.Obj.entries_perm (o : Shared.Obj) : (Shared.Obj.entries o).Perm o := by
  unfold Shared.Obj.entries
  exact (List.Perm.append_right _ (Shared.sortByIndex_perm _)).trans
    (List.filter_append_perm (fun e => Shared.isArrayIndex e.1) o)

theorem Shared.Obj.entries_of_no_index (o : Shared.Obj)
    (h : ∀ e ∈ o, Shared.isArrayIndex e.1 = false) : Shared.Obj.entries o = o := by
  unfold Shared.Obj.entries
  have h1 : o.filter (fun e => Shared.isArrayIndex e.1) = [] := by
    apply List.filter_eq_nil_iff.mpr
    intro e he
    simp [h e he]
  have h2 : o.filter (fun e => !Shared.isArrayIndex e.1) = o := by
    apply List.filter_eq_self.mpr
    intro e he
    simp [h e he]
  rw [h1, h2]
  rfl

theorem lookupBlocks_small {n : Nat} (h : n < 65) : lookupBlocks n lowerBlocks = none := by
  have h1 : Nat.blt n 395 = true := Nat.blt_eq.mpr (by omega)
  have h2 : Nat.blt n 65 = true := Nat.blt_eq.mpr h
  unfold lowerBlocks
  simp only [lookupBlocks, lookupLower, h1, h2, cond_true]

theorem lowered_of_isDigit (d : Char) (h : d.isDigit = true) : Lowered d := by
  simp only [Char.isDigit, Bool.and_eq_true, decide_eq_true_eq] at h
  have h3 : d.toNat ≤ 57 := h.2
  have h130 : Nat.beq d.toNat 0x130 = false := nat_beq_false.mpr (by omega)
  refine ⟨?_, by omega⟩
  unfold lowerChar
  rw [h130, cond_false, lookupBlocks_small (by omega)]

theorem Shared.startsWith_mem (sub : Str) :
    ∀ s : Str, Shared.startsWith s sub = true → ∀ c ∈ sub, c ∈ s := by
  induction sub with
  | nil => intro s _ c hc; cases hc
  | cons p ps ih =>
    intro s h c hc
    cases s with
    | nil => simp [Shared.startsWith] at h
    | cons a s =>
      simp only [Shared.startsWith, Bool.and_eq_true, beq_iff_eq] at h
      rcases List.mem_cons.mp hc with rfl | hc
      · rw [h.1]; exact List.mem_cons_self _ _
      · exact List.mem_cons_of_mem _ (ih s h.2 c hc)

theorem Shared.includes_mem (sub : Str) (hne : sub ≠ []) :
    ∀ s : Str, Shared.includes s sub = true → ∀ c ∈ sub, c ∈ s := by
  intro s
  induction s with
  | nil =>
    intro h
    cases sub with
    | nil => exact absurd rfl hne
    | cons p ps => simp [Shared.includes] at h
  | cons a s ih =>
    intro h c hc
    simp only [Shared.includes, Bool.or_eq_true] at h
    rcases h with h | h
    · exact Shared.startsWith_mem sub _ h c hc
    · exact List.mem_cons_of_mem _ (ih h c hc)

theorem Shared.isArrayIndex_all_digits {k : Str} (h : Shared.isArrayIndex k = true) :
    ∀ d ∈ k, d.isDigit = true := by
  simp only [Shared.isArrayIndex, Bool.and_eq_true, List.all_eq_true] at h
  exact h.1.1.2

/-- A keyword that holds a character which is not a digit is no part of the lower-cased form
of an array-index key: lower-casing leaves the digits as they are. -/
theorem Shared.not_isArrayIndex_of_includes (k kw : Str) (c : Char) (hc : c ∈ kw)
    (hd : c.isDigit = false) (h : Shared.includes (toLowerCase k) kw = true) :
    Shared.isArrayIndex k = false := by
  by_contra hidx
  rw [Bool.not_eq_false] at hidx
  have hne : kw ≠ [] := by
    intro hnil; rw [hnil] at hc; cases hc
  have hdigits := Shared.isArrayIndex_all_digits hidx
  have hk : toLowerCase k = k :=
    lowerFrom_of_lowered k [] (fun d hdk => lowered_of_isDigit d (hdigits d hdk))
  rw [hk] at h
  have hdig := hdigits c (Shared.includes_mem kw hne _ h c hc)
  rw [hd] at hdig
  cases hdig

theorem Shared.foldl_set_eq_filter (keep : Str → Bool) (hproto : keep "__proto__".toList = false)
    (L : List (Str × Str)) :
    ∀ acc : Shared.Obj, (L.map Prod.fst).Nodup → (∀ e ∈ L, e.1 ∉ acc.map Prod.fst) →
      L.foldl (fun filtered e => if keep e.1 then filtered.set e.1 e.2 else filtered) acc =
        acc ++ L.filter (fun e => keep e.1) := by
  induction L with
  | nil => intro acc _ _; simp
  | cons e L ih =>
    intro acc hnd hdisj
    rw [List.map_cons, List.nodup_cons] at hnd
    rw [List.foldl_cons, List.filter_cons]
    by_cases hk : keep e.1 = true
    · have hne : ¬ e.1 = "__proto__".toList := by
        intro h
        rw [h, hproto] at hk
        cases hk
      have hset : acc.set e.1 e.2 = acc ++ [e] := by
        unfold Shared.Obj.set
        rw [if_neg hne, Shared.Obj.setOwn_of_not_mem _ _ _ (hdisj e (List.mem_cons_self _ _))]
      rw [if_pos hk, if_pos hk, hset, ih _ hnd.2]
      · simp
      · intro e2 he2 hmem
        rw [List.map_append, List.mem_append] at hmem
        rcases hmem with hmem | hmem
        · exact hdisj e2 (List.mem_cons_of_mem _ he2) hmem
        · simp only [List.map_cons, List.map_nil, List.mem_singleton] at hmem
          exact hnd.1 (hmem ▸ List.mem_map_of_mem Prod.fst he2)
    · rw [if_neg hk, if_neg hk]
      exact ih acc hnd.2 (fun e2 he2 => hdisj e2 (List.mem_cons_of_mem _ he2))

theorem Shared.filterEntries_eq_filter (f : Shared.Filter)
    (hproto : Shared.keepEntry f "__proto__".toList = false) (L : List (Str × Str))
    (hnd : (L.map Prod.fst).Nodup) :
    Shared.filterEntries f L = L.filter (fun e => Shared.keepEntry f e.1) := by
  have := Shared.foldl_set_eq_filter (Shared.keepEntry f) hproto L [] hnd
    (fun _ _ h => by cases h)
  simpa [Shared.filterEntries] using this

theorem Shared.not_isArrayIndex_of_keepEntry (f : Shared.Filter)
    (hletters : ∀ kw ∈ f.includeKeywords, ∃ c ∈ toLowerCase kw, c.isDigit = false) (k : Str)
    (hk : Shared.keepEntry f k = true) : Shared.isArrayIndex k = false := by
  simp only [Shared.keepEntry, Bool.and_eq_true, List.any_eq_true] at hk
  obtain ⟨⟨kw, hkw, hinc⟩, -⟩ := hk
  obtain ⟨c, hc, hd⟩ := hletters kw hkw
  exact Shared.not_isArrayIndex_of_includes k _ c hc hd hinc

theorem Shared.filterForAgent_own (context : Option Str) (agentName : Str) (f : Shared.Filter)
    (hf : Shared.lookupFilter agentName = .own f)
    (hproto : Shared.keepEntry f "__proto__".toList = false)
    (hletters : ∀ kw ∈ f.includeKeywords, ∃ c ∈ toLowerCase kw, c.isDigit = false) :
    Shared.filterForAgent context agentName =
        .ok ((Shared.Obj.entries (Shared.parseMarkdownSections context)).filter
          (fun e => Shared.keepEntry f e.1)) ∧
      Shared.Obj.entries ((Shared.Obj.entries (Shared.parseMarkdownSections context)).filter
          (fun e => Shared.keepEntry f e.1)) =
        (Shared.Obj.entries (Shared.parseMarkdownSections context)).filter
          (fun e => Shared.keepEntry f e.1) := by
  have hnd : ((Shared.Obj.entries (Shared.parseMarkdownSections context)).map Prod.fst).Nodup :=
    ((Shared.Obj.entries_perm _).map Prod.fst).nodup_iff.mpr
      (Shared.nodup_parseMarkdownSections context)
  constructor
  · simp only [Shared.filterForAgent, hf]
    rw [Shared.filterEntries_eq_filter f hproto _ hnd]
  · apply Shared.Obj.entries_of_no_index
    intro e he
    exact Shared.not_isArrayIndex_of_keepEntry f hletters e.1 (List.mem_filter.mp he).2

theorem Shared.filterEntries_no_keywords (L : List (Str × Str)) :
    Shared.filterEntries { includeKeywords := [], excludeKeywords := [] } L = [] := by
  unfold Shared.filterEntries
  induction L with
  | nil => rfl
  | cons e L ih =>
    rw [List.foldl_cons]
    exact ih

theorem Shared.keepEntry_excludes (f : Shared.Filter) (k : Str) (hk : Shared.keepEntry f k = true) :
    ∀ kw ∈ f.excludeKeywords, Shared.includes (toLowerCase k) (toLowerCase kw) = false := by
  intro kw hkw
  simp only [Shared.keepEntry, Bool.and_eq_true, Bool.not_eq_true', List.any_eq_false] at hk
  simpa using hk.2 kw hkw

/-- C29 at an agent name that `Object.prototype` defines: for the context `demoContext`,
which has four sections, `filterForAgent(context, 'constructor')` throws a `TypeError`,
where the result for the unknown name `reviewer` is the empty object.  For the two agents
of the table the result holds exactly the entries of `parseMarkdownSections` whose key
contains, in lower case, an include keyword and no exclude keyword, with their contents,
in the order of `Object.entries`; for a name that is neither in the table nor a property
of `Object.prototype` the result is empty; for a property name of `Object.prototype` it is
empty when the context has no sections, and the `TypeError` otherwise. -/
theorem filterForAgent_inherited_name :
    (Shared.parseMarkdownSections (some demoContext)).length = 4 ∧
      Shared.filterForAgent (some demoContext) "constructor".toList =
        .error Shared.includeUndefined ∧
      Shared.filterForAgent (some demoContext) "reviewer".toList = .ok [] ∧
      (∀ (context : Option Str) (agentName : Str) (f : Shared.Filter),
        (agentName = "coordinator".toList ∧ f = Shared.coordinatorFilter) ∨
          (agentName = "task-executor".toList ∧ f = Shared.taskExecutorFilter) →
        Shared.filterForAgent context agentName =
            .ok ((Shared.Obj.entries (Shared.parseMarkdownSections context)).filter
              (fun e => Shared.keepEntry f e.1)) ∧
          Shared.Obj.entries
              ((Shared.Obj.entries (Shared.parseMarkdownSections context)).filter
                (fun e => Shared.keepEntry f e.1)) =
            (Shared.Obj.entries (Shared.parseMarkdownSections context)).filter
              (fun e => Shared.keepEntry f e.1) ∧
          ∀ e ∈ (Shared.Obj.entries (Shared.parseMarkdownSections context)).filter
              (fun e => Shared.keepEntry f e.1),
            ∀ kw ∈ f.excludeKeywords, Shared.includes (toLowerCase e.1) kw = false) ∧
      (∀ (context : Option Str) (agentName : Str), agentName ≠ "coordinator".toList →
        agentName ≠ "task-executor".toList → agentName ∉ Shared.objectPrototypeKeys →
        Shared.filterForAgent context agentName = .ok []) ∧
      (∀ (context : Option Str) (agentName : Str), agentName ∈ Shared.objectPrototypeKeys →
        Shared.filterForAgent context agentName =
          if Shared.parseMarkdownSections context = [] then .ok []
          else .error Shared.includeUndefined) := by
  refine ⟨by decide, rfl, rfl, ?_, ?_, ?_⟩
  · intro context agentName f h
    have hf : Shared.lookupFilter agentName = .own f := by
      rcases h with ⟨rfl, rfl⟩ | ⟨rfl, rfl⟩ <;> rfl
    have hproto : Shared.keepEntry f "__proto__".toList = false := by
      rcases h with ⟨-, rfl⟩ | ⟨-, rfl⟩ <;> decide
    have hletters : ∀ kw ∈ f.includeKeywords, ∃ c ∈ toLowerCase kw, c.isDigit = false := by
      rcases h with ⟨-, rfl⟩ | ⟨-, rfl⟩ <;> decide
    have hlower : ∀ kw ∈ f.excludeKeywords, toLowerCase kw = kw := by
      rcases h with ⟨-, rfl⟩ | ⟨-, rfl⟩ <;> decide
    obtain ⟨h1, h2⟩ := Shared.filterForAgent_own context agentName f hf hproto hletters
    refine ⟨h1, h2, ?_⟩
    intro e he kw hkw
    have := Shared.keepEntry_excludes f e.1 (List.mem_filter.mp he).2 kw hkw
    rw [hlower kw hkw] at this
    exact this
  · intro context agentName h1 h2 h3
    have hf : Shared.lookupFilter agentName = .absent := by
      simp only [Shared.lookupFilter, h1, h2, h3, if_false]
    simp only [Shared.filterForAgent, hf, Shared.filterEntries_no_keywords]
  · intro context agentName h
    have h1 : agentName ≠ "coordinator".toList := by
      rintro rfl; revert h; decide
    have h2 : agentName ≠ "task-executor".toList := by
      rintro rfl; revert h; decide
    have hf : Shared.lookupFilter agentName = .inherited := by
      simp only [Shared.lookupFilter, h1, h2, h, if_false, if_true]
    simp only [Shared.filterForAgent, hf]
    cases ho : Shared.parseMarkdownSections context with
    | nil => rfl
    | cons e o =>
      have hne : Shared.Obj.entries (e :: o) ≠ [] := by
        intro hnil
        have := (Shared.Obj.entries_perm (e :: o)).length_eq
        rw [hnil] at this
        cases this
      cases hent : Shared.Obj.entries (e :: o) with
      | nil => exact absurd hent hne
      | cons a b => simp

end ContextManager
